import Mathlib

/-!
Verification of the graph-store subsystem: the persistent backend
(`SqliteGraphStore`) and the in-memory backend (`LiteGraphStore`), both
implementing the `IGraphStore` contract (upsertNode, getNodeByLabel, addEdge,
neighbors, path, importFromNotes, stats).

The embedding follows the TypeScript source closely:
* JavaScript `Map` objects and the SQLite tables are modelled as association
  lists in insertion order (`mget` returns the binding of a key, `mset`
  replaces it in place or appends, exactly as `Map.set`).
* SQL `NULL` is modelled as `none`; the `type` column of `graph_nodes` is
  `Option String` because `upsertNode` binds `node.type ?? null`.
* `props` values are opaque to the store; they are modelled as their
  serialized text (`Props` is an association list of string keys to strings),
  and `JSON.stringify`/`JSON.parse` round-trips are the identity on it.
* Fallible operations return `Except GErr`; a thrown exception corresponds to
  `.error`, and the pre-call state is what the caller still observes.
-/

namespace McpGraph

/-- First binding of key `k` in an association list (`Map.get`, and the first
matching row returned by a SQL point query). -/
def mget {α β : Type} [DecidableEq α] (k : α) : List (α × β) → Option β
  | [] => none
  | (k', v) :: rest => if k' = k then some v else mget k rest

/-- `Map.set`: replace the first binding of `k` in place, or append a new
binding at the end, preserving insertion order. -/
def mset {α β : Type} [DecidableEq α] (k : α) (v : β) : List (α × β) → List (α × β)
  | [] => [(k, v)]
  | (k', v') :: rest => if k' = k then (k, v) :: rest else (k', v') :: mset k v rest

/-! ## Data model -/

/-- Property bag: opaque to the store; values are modelled by their serialized
text. -/
abbrev Props := List (String × String)

/-- `GraphNode` as accepted by `upsertNode`: optional id, label, optional type,
optional props. -/
structure GraphNode where
  id : Option Nat
  label : String
  type : Option String
  props : Option Props
deriving DecidableEq

/-- A node as stored and as returned by read operations: id assigned, label,
type (`none` when logically absent / SQL NULL), props. -/
structure GNode where
  id : Nat
  label : String
  type : Option String
  props : Props
deriving DecidableEq

/-- A row of the `graph_nodes` table: `type` is `Option String` because the
insert binds `node.type ?? null` and SQL distinguishes NULL from `''`. -/
structure SNodeRow where
  id : Nat
  label : String
  type : Option String
  props : Props
deriving DecidableEq

/-- A row of the `graph_edges` table: `type` is a plain string because the
insert binds `edge.type ?? ''`. -/
structure SEdgeRow where
  id : Nat
  src : Nat
  dst : Nat
  type : String
  props : Props
deriving DecidableEq

/-- An edge object stored by the in-memory backend (`{ id, ...edge }`): the
optional fields stay optional. -/
structure LEdge where
  id : Nat
  src : Nat
  dst : Nat
  type : Option String
  props : Option Props
deriving DecidableEq

/-- Errors thrown by the stores: `notFound` for `upsertNode` with a stale id;
`constraint` for uniqueness/referential violations surfaced by SQLite. -/
inductive GErr where
  | notFound (id : Nat)
  | constraint
deriving DecidableEq

/-- The `number | { label, type? }` union used to designate a node. -/
inductive NodeRef where
  | byId (id : Nat)
  | byLabel (label : String) (type? : Option String)
deriving DecidableEq

/-- A source record consumed by `importFromNotes` (`Note` of `types.ts`):
`tags` and `metadata` are required after schema defaulting; `metadata` is
opaque and modelled by its serialized text. -/
structure Note where
  id : Option Nat
  key : String
  created_at : Option String
  tags : List String
  metadata : String
deriving DecidableEq

/-- Label of the note node: `note:${n.id ?? n.key}:${(n.created_at || '').slice(0,10)}`. -/
def noteLabel (n : Note) : String :=
  "note:" ++ (match n.id with | some i => toString i | none => n.key) ++ ":"
    ++ (String.take (n.created_at.getD "") 10)

/-- Label of the key node: `key:${n.key}`. -/
def keyLabel (n : Note) : String := "key:" ++ n.key

/-- Label of a tag node: `tag:${t}`. -/
def tagLabel (t : String) : String := "tag:" ++ t

/-- Props of the note node, `{ key, tags, metadata }`, with the `tags` and
`metadata` values held as serialized text. -/
def noteProps (n : Note) : Props :=
  [("key", n.key), ("tags", String.intercalate "," n.tags), ("metadata", n.metadata)]

/-! ## Shared breadth-first traversal

Both backends run the same `bfsTraverse` shape: a visited set and frontier
seeded with the start id, up to `depth` rounds, each round expanding every
frontier node's outgoing-edge destinations, with a visitor that can stop the
whole traversal mid-round.  The visitor closures of `neighbors` (collect up
to `limit`) and of `path` (record predecessors, stop on the target) are
inlined into two specializations, parameterized by the destination
enumeration `adj` of the backend. -/

/-- Inner loop of one frontier node's expansion for `neighbors`: walk the
destination list, skip visited, otherwise mark visited, append to the next
frontier and to `collected`; stop as soon as `collected.length < limit`
fails.  Returns (visited, next, collected, stopped). -/
def bfsCollectScan (limit : Nat) :
    List Nat → List Nat → List Nat → List Nat → List Nat × List Nat × List Nat × Bool
  | [], visited, next, collected => (visited, next, collected, false)
  | dst :: rest, visited, next, collected =>
    if dst ∈ visited then bfsCollectScan limit rest visited next collected
    else
      let visited' := dst :: visited
      let next' := next ++ [dst]
      let collected' := collected ++ [dst]
      if collected'.length < limit then bfsCollectScan limit rest visited' next' collected'
      else (visited', next', collected', true)

/-- One full round for `neighbors`: expand each frontier id in order,
propagating the early stop. -/
def bfsCollectStep (adj : Nat → List Nat) (limit : Nat) :
    List Nat → List Nat → List Nat → List Nat → List Nat × List Nat × List Nat × Bool
  | [], visited, next, collected => (visited, next, collected, false)
  | id :: rest, visited, next, collected =>
    match bfsCollectScan limit (adj id) visited next collected with
    | (v, n, c, true) => (v, n, c, true)
    | (v, n, c, false) => bfsCollectStep adj limit rest v n c

/-- The round loop of `bfsTraverse` for `neighbors`: up to `depth` rounds
while the frontier is nonempty; an early stop returns the collected ids
immediately. -/
def bfsCollectRounds (adj : Nat → List Nat) (limit : Nat) :
    Nat → List Nat → List Nat → List Nat → List Nat
  | 0, _, _, collected => collected
  | d + 1, frontier, visited, collected =>
    if frontier.isEmpty then collected
    else
      match bfsCollectStep adj limit frontier visited [] collected with
      | (_, _, c, true) => c
      | (v, n, c, false) => bfsCollectRounds adj limit d n v c

/-- Ids collected by `neighbors`' traversal from `startId`. -/
def bfsCollectIds (adj : Nat → List Nat) (startId depth limit : Nat) : List Nat :=
  bfsCollectRounds adj limit depth [startId] [startId] []

/-- Inner loop of one frontier node's expansion for `path`: as above, but the
visitor records `prev.set(dst, src)` for fresh nodes and stops when the
target is discovered. -/
def bfsPathScan (toId srcId : Nat) :
    List Nat → List Nat → List Nat → List (Nat × Option Nat) →
      List Nat × List Nat × List (Nat × Option Nat) × Bool
  | [], visited, next, prev => (visited, next, prev, false)
  | dst :: rest, visited, next, prev =>
    if dst ∈ visited then bfsPathScan toId srcId rest visited next prev
    else
      let visited' := dst :: visited
      let next' := next ++ [dst]
      let prev' := if (mget dst prev).isSome then prev else mset dst (some srcId) prev
      if dst = toId then (visited', next', prev', true)
      else bfsPathScan toId srcId rest visited' next' prev'

/-- One full round for `path`. -/
def bfsPathStep (adj : Nat → List Nat) (toId : Nat) :
    List Nat → List Nat → List Nat → List (Nat × Option Nat) →
      List Nat × List Nat × List (Nat × Option Nat) × Bool
  | [], visited, next, prev => (visited, next, prev, false)
  | id :: rest, visited, next, prev =>
    match bfsPathScan toId id (adj id) visited next prev with
    | (v, n, p, true) => (v, n, p, true)
    | (v, n, p, false) => bfsPathStep adj toId rest v n p

/-- The round loop of `bfsTraverse` for `path`: the second component reports
whether the target was found. -/
def bfsPathRounds (adj : Nat → List Nat) (toId : Nat) :
    Nat → List Nat → List Nat → List (Nat × Option Nat) →
      List (Nat × Option Nat) × Bool
  | 0, _, _, prev => (prev, false)
  | d + 1, frontier, visited, prev =>
    if frontier.isEmpty then (prev, false)
    else
      match bfsPathStep adj toId frontier visited [] prev with
      | (_, _, p, true) => (p, true)
      | (v, n, p, false) => bfsPathRounds adj toId d n v p

/-- The reconstruction loop `while (p != null) { pathIds.push(p); p = prev.get(p)! }`,
written with fuel.  A missing key (`undefined`) ends the loop just like the
`null` stored at the root; the fuel passed by callers always suffices because
predecessor chains are acyclic (each parent was discovered strictly earlier). -/
def walkPrev (prev : List (Nat × Option Nat)) : Nat → Nat → List Nat
  | 0, p => [p]
  | fuel + 1, p =>
    p :: (match mget p prev with
          | some (some q) => walkPrev prev fuel q
          | _ => [])

/-- `bfsPath`: run the traversal for `maxDepth + 1` rounds; if the target was
found, walk the predecessor map backward from it and reverse. -/
def bfsPathIds (adj : Nat → List Nat) (fromId toId maxDepth : Nat) : List Nat :=
  match bfsPathRounds adj toId (maxDepth + 1) [fromId] [fromId] [(fromId, none)] with
  | (_, false) => []
  | (prev, true) => (walkPrev prev (prev.length + 1) toId).reverse

/-! ## SqliteGraphStore -/

/-- State of the persistent backend: the two tables in rowid order plus the
AUTOINCREMENT counters. -/
structure SqlState where
  nodeRows : List SNodeRow
  edgeRows : List SEdgeRow
  nextNodeId : Nat
  nextEdgeId : Nat
deriving DecidableEq

namespace SqliteGraphStore

/-- A freshly migrated store: both tables empty, AUTOINCREMENT at 1. -/
def init : SqlState := ⟨[], [], 1, 1⟩

/-- `SELECT * FROM graph_nodes WHERE label=? AND type=?` with `type ?? ''`:
a NULL `type` column never satisfies `type=''`.  The row is mapped with
`type: row.type ?? undefined`. -/
def getNodeByLabel (s : SqlState) (label : String) (type? : Option String) : Option GNode :=
  let t := type?.getD ""
  match s.nodeRows.find? (fun r => r.label == label && r.type == some t) with
  | some r => some ⟨r.id, r.label, r.type, r.props⟩
  | none => none

/-- The no-`id` path of `upsertNode`: look up by `(label, type ?? '')`;
on a hit, overwrite that row's `props`; otherwise insert a fresh row with
`type` bound to `node.type ?? null`.  (The insert cannot violate the unique
index: a non-NULL duplicate would have been found by the lookup, and NULLs
are pairwise distinct.) -/
def upsertNoId (s : SqlState) (node : GraphNode) : Nat × SqlState :=
  let props := node.props.getD []
  match getNodeByLabel s node.label node.type with
  | some existing =>
    (existing.id,
     { s with nodeRows :=
        s.nodeRows.map (fun r => if r.id == existing.id then { r with props := props } else r) })
  | none =>
    (s.nextNodeId,
     { s with
        nodeRows := s.nodeRows ++ [⟨s.nextNodeId, node.label, node.type, props⟩],
        nextNodeId := s.nextNodeId + 1 })

/-- `upsertNode`.  With a (truthy) id: `UPDATE graph_nodes SET label=?, type=?,
props=? WHERE id=?`; zero changed rows throws `Node with id ... not found`,
and the unique index on `(label, type)` rejects the rewrite when another row
already carries the same pair with a non-NULL type.  A JS-falsy id (`0`)
falls through to the no-id path. -/
def upsertNode (s : SqlState) (node : GraphNode) : Except GErr (Nat × SqlState) :=
  match node.id with
  | some id =>
    if id = 0 then .ok (upsertNoId s node)
    else if s.nodeRows.any (fun r => r.id == id) then
      if node.type.isSome
          && s.nodeRows.any (fun r => r.id != id && r.label == node.label && r.type == node.type) then
        .error .constraint
      else
        .ok (id,
          { s with nodeRows :=
             s.nodeRows.map (fun r =>
               if r.id == id then
                 { r with label := node.label, type := node.type, props := node.props.getD [] }
               else r) })
    else .error (.notFound id)
  | none => .ok (upsertNoId s node)

/-- `addEdge`: `INSERT OR IGNORE` under `UNIQUE(src, dst, type)`; an ignored
conflict fetches and returns the existing edge's id.  A missing endpoint is a
FOREIGN KEY violation, which `OR IGNORE` does not absorb. -/
def addEdge (s : SqlState) (src dst : Nat) (type? : Option String) (props? : Option Props) :
    Except GErr (Nat × SqlState) :=
  let t := type?.getD ""
  match s.edgeRows.find? (fun e => e.src == src && e.dst == dst && e.type == t) with
  | some e => .ok (e.id, s)
  | none =>
    if s.nodeRows.any (fun r => r.id == src) && s.nodeRows.any (fun r => r.id == dst) then
      .ok (s.nextEdgeId,
        { s with
           edgeRows := s.edgeRows ++ [⟨s.nextEdgeId, src, dst, t, props?.getD []⟩],
           nextEdgeId := s.nextEdgeId + 1 })
    else .error .constraint

/-- `resolveNodeId`: a numeric reference is used as-is; a descriptor goes
through `getNodeByLabel`. -/
def resolveNodeId (s : SqlState) (ref : NodeRef) : Option Nat :=
  match ref with
  | .byId n => some n
  | .byLabel l t => (getNodeByLabel s l t).map (·.id)

/-- `SELECT e.dst FROM graph_edges e WHERE e.src=?`: destinations in edge
insertion order. -/
def neighborIds (s : SqlState) (src : Nat) : List Nat :=
  (s.edgeRows.filter (fun e => e.src == src)).map (·.dst)

/-- `nodesByIds`: fetch the listed ids, preserving list order and dropping
ids with no row. -/
def nodesByIds (s : SqlState) (ids : List Nat) : List GNode :=
  ids.filterMap (fun id =>
    (s.nodeRows.find? (fun r => r.id == id)).map (fun r => ⟨r.id, r.label, r.type, r.props⟩))

/-- `neighbors(node, depth=1, limit=50)`: resolve the start (a JS-falsy
resolution, `null` or `0`, returns `[]`), traverse, fetch. -/
def neighbors (s : SqlState) (ref : NodeRef) (depth : Nat := 1) (limit : Nat := 50) :
    List GNode :=
  match resolveNodeId s ref with
  | none => []
  | some startId =>
    if startId = 0 then []
    else nodesByIds s (bfsCollectIds (neighborIds s) startId depth limit)

/-- `path(from, to, maxDepth=4)`: resolve both endpoints (JS-falsy resolution
returns `[]`), run `bfsPath` with `maxDepth + 1` rounds of expansion, fetch
the route's nodes.  (The source dereferences each fetched row without a
presence check; a missing row cannot occur because every id on the route is
an edge endpoint, so the fetch is modelled with the same order-preserving
lookup as `nodesByIds`.) -/
def path (s : SqlState) (fromRef toRef : NodeRef) (maxDepth : Nat := 4) : List GNode :=
  match resolveNodeId s fromRef, resolveNodeId s toRef with
  | some fromId, some toId =>
    if fromId = 0 ∨ toId = 0 then []
    else
      let ids := bfsPathIds (neighborIds s) fromId toId maxDepth
      if ids.isEmpty then [] else nodesByIds s ids
  | _, _ => []

/-- `stats()`: `COUNT(*)` over both tables. -/
def stats (s : SqlState) : Nat × Nat := (s.nodeRows.length, s.edgeRows.length)

/-- The per-tag loop body of `importFromNotes`: upsert the tag node (id-less)
and add the `has_tag` edge; an edge failure aborts the transaction. -/
def importTags (noteId : Nat) : SqlState → List String → Except GErr SqlState
  | s, [] => .ok s
  | s, t :: rest =>
    match upsertNoId s ⟨none, tagLabel t, some "tag", none⟩ with
    | (tagId, s1) =>
      match addEdge s1 noteId tagId (some "has_tag") none with
      | .error e => .error e
      | .ok (_, s2) => importTags noteId s2 rest

/-- The per-record body of `importFromNotes`: upsert the note node, the key
node, a `has_key` edge, then each tag node with its `has_tag` edge.  All
upserts are id-less. -/
def importRecord (s : SqlState) (n : Note) : Except GErr SqlState :=
  match upsertNoId s ⟨none, noteLabel n, some "note", some (noteProps n)⟩ with
  | (noteId, s1) =>
    match upsertNoId s1 ⟨none, keyLabel n, some "key", none⟩ with
    | (keyId, s2) =>
      match addEdge s2 noteId keyId (some "has_key") none with
      | .error e => .error e
      | .ok (_, s3) => importTags noteId s3 n.tags

/-- The transaction loop over the records. -/
def importList : SqlState → List Note → Except GErr SqlState
  | s, [] => .ok s
  | s, n :: rest =>
    match importRecord s n with
    | .error e => .error e
    | .ok s' => importList s' rest

/-- `importFromNotes`: process each record inside one transaction (an error
rolls the whole batch back), then return the post-import `stats()` totals. -/
def importFromNotes (s : SqlState) (notes : List Note) : Except GErr ((Nat × Nat) × SqlState) :=
  match importList s notes with
  | .error e => .error e
  | .ok s' => .ok (stats s', s')

end SqliteGraphStore

/-! ## LiteGraphStore -/

/-- State of the in-memory backend: the `nodes` map, the
`(label, type)`-to-id index, the edge list, and the two monotonic counters. -/
structure LiteState where
  nodes : List (Nat × GNode)
  labelIndex : List (String × Nat)
  edges : List LEdge
  nextNodeId : Nat
  nextEdgeId : Nat
deriving DecidableEq

namespace LiteGraphStore

/-- A fresh in-memory store. -/
def init : LiteState := ⟨[], [], [], 1, 1⟩

/-- The index key: `` `${label}\u0000${type ?? ''}` ``. -/
def keyFor (label : String) (type? : Option String) : String :=
  label ++ "\x00" ++ type?.getD ""

/-- `getNodeByLabel`: index lookup, then `id ? this.nodes.get(id)! : null`
(a falsy id yields `null`; a dangling index entry would yield `undefined`,
observationally `none`). -/
def getNodeByLabel (s : LiteState) (label : String) (type? : Option String) : Option GNode :=
  match mget (keyFor label type?) s.labelIndex with
  | some id => if id = 0 then none else mget id s.nodes
  | none => none

/-- The no-`id` path of `upsertNode`: a truthy index hit overwrites the
node's `props` (`node.props ?? existing.props`) and returns the indexed id;
otherwise a fresh node is inserted and indexed.  In the hit case the source
dereferences `this.nodes.get(id)!`; an index entry whose node is missing
(which no public-operation sequence produces) would make the source fault,
and is modelled as returning the id with the state unchanged. -/
def upsertNoId (s : LiteState) (node : GraphNode) : Nat × LiteState :=
  let idxKey := keyFor node.label node.type
  let inserted : Nat × LiteState :=
    (s.nextNodeId,
     { s with
        nodes := mset s.nextNodeId ⟨s.nextNodeId, node.label, node.type, node.props.getD []⟩ s.nodes,
        labelIndex := mset idxKey s.nextNodeId s.labelIndex,
        nextNodeId := s.nextNodeId + 1 })
  match mget idxKey s.labelIndex with
  | some id =>
    if id = 0 then inserted
    else
      match mget id s.nodes with
      | some n =>
        (id, { s with nodes := mset id { n with props := node.props.getD n.props } s.nodes })
      | none => (id, s)
  | none => inserted

/-- `upsertNode`.  With a (truthy) id: fail with `Node with id ... not found`
unless the node exists, else rewrite `label`/`type` (keeping `props` when the
argument has none) and point the index key of the *new* pair at this id; the
old pair's index entry is left in place. -/
def upsertNode (s : LiteState) (node : GraphNode) : Except GErr (Nat × LiteState) :=
  match node.id with
  | some id =>
    if id = 0 then .ok (upsertNoId s node)
    else
      match mget id s.nodes with
      | none => .error (.notFound id)
      | some existing =>
        let updated : GNode :=
          { existing with
             label := node.label, type := node.type, props := node.props.getD existing.props }
        .ok (id,
          { s with
             nodes := mset id updated s.nodes,
             labelIndex := mset (keyFor updated.label updated.type) id s.labelIndex })
  | none => .ok (upsertNoId s node)

/-- `addEdge`: linear duplicate scan on `(src, dst, type ?? '')`; a duplicate
returns the existing edge's id, otherwise push `{ id, ...edge }`. -/
def addEdge (s : LiteState) (src dst : Nat) (type? : Option String) (props? : Option Props) :
    Nat × LiteState :=
  match s.edges.find? (fun e =>
      e.src == src && e.dst == dst && e.type.getD "" == type?.getD "") with
  | some e => (e.id, s)
  | none =>
    (s.nextEdgeId,
     { s with
        edges := s.edges ++ [⟨s.nextEdgeId, src, dst, type?, props?⟩],
        nextEdgeId := s.nextEdgeId + 1 })

/-- `liteNeighborIds`: destinations of `src`'s outgoing edges, in insertion
order. -/
def neighborIds (s : LiteState) (src : Nat) : List Nat :=
  (s.edges.filter (fun e => e.src == src)).map (·.dst)

/-- `liteNodesByIds`: fetch each id from the node map, dropping missing ones. -/
def nodesByIds (s : LiteState) (ids : List Nat) : List GNode :=
  ids.filterMap (fun id => mget id s.nodes)

/-- Start resolution shared by `neighbors` and `path`:
`typeof node === 'number' ? node : this.getNodeByLabel(...)?.id`. -/
def resolveRef (s : LiteState) (ref : NodeRef) : Option Nat :=
  match ref with
  | .byId n => some n
  | .byLabel l t => (getNodeByLabel s l t).map (·.id)

/-- `neighbors(node, depth=1, limit=50)`. -/
def neighbors (s : LiteState) (ref : NodeRef) (depth : Nat := 1) (limit : Nat := 50) :
    List GNode :=
  match resolveRef s ref with
  | none => []
  | some startId =>
    if startId = 0 then []
    else nodesByIds s (bfsCollectIds (neighborIds s) startId depth limit)

/-- `path(from, to, maxDepth=4)`: the traversal-based variant the class
actually calls (`bfsLiteTraverse` with `maxDepth + 1` rounds, predecessor
map, reconstruction through `liteNodesByIds`). -/
def path (s : LiteState) (fromRef toRef : NodeRef) (maxDepth : Nat := 4) : List GNode :=
  match resolveRef s fromRef, resolveRef s toRef with
  | some fromId, some toId =>
    if fromId = 0 ∨ toId = 0 then []
    else nodesByIds s (bfsPathIds (neighborIds s) fromId toId maxDepth)
  | _, _ => []

/-- `stats()`: map size and edge-array length. -/
def stats (s : LiteState) : Nat × Nat := (s.nodes.length, s.edges.length)

/-- The per-tag loop body of `importFromNotes` (id-less upserts). -/
def importTags (noteId : Nat) : LiteState → List String → LiteState
  | s, [] => s
  | s, t :: rest =>
    let (tagId, s1) := upsertNoId s ⟨none, tagLabel t, some "tag", none⟩
    let (_, s2) := addEdge s1 noteId tagId (some "has_tag") none
    importTags noteId s2 rest

/-- The per-record body of `importFromNotes`. -/
def importRecord (s : LiteState) (n : Note) : LiteState :=
  let (noteId, s1) := upsertNoId s ⟨none, noteLabel n, some "note", some (noteProps n)⟩
  let (keyId, s2) := upsertNoId s1 ⟨none, keyLabel n, some "key", none⟩
  let (_, s3) := addEdge s2 noteId keyId (some "has_key") none
  importTags noteId s3 n.tags

/-- `importFromNotes`: process every record, then return `stats()`. -/
def importFromNotes (s : LiteState) (notes : List Note) : (Nat × Nat) × LiteState :=
  let s' := notes.foldl importRecord s
  (stats s', s')

end LiteGraphStore

/-! ## Public operations as a replayable alphabet -/

/-- One call of the `IGraphStore` contract. -/
inductive GOp where
  | upsertNode (node : GraphNode)
  | getNodeByLabel (label : String) (type? : Option String)
  | addEdge (src dst : Nat) (type? : Option String) (props? : Option Props)
  | neighbors (ref : NodeRef) (depth limit : Nat)
  | path (fromRef toRef : NodeRef) (maxDepth : Nat)
  | importFromNotes (notes : List Note)
  | stats
deriving DecidableEq

/-- The store state after one public call on the persistent backend; a call
that throws leaves the store as it was, and read operations run no mutating
statement. -/
def SqliteGraphStore.applyOp (s : SqlState) : GOp → SqlState
  | .upsertNode node =>
    match SqliteGraphStore.upsertNode s node with
    | .ok (_, s') => s'
    | .error _ => s
  | .addEdge a b t p =>
    match SqliteGraphStore.addEdge s a b t p with
    | .ok (_, s') => s'
    | .error _ => s
  | .importFromNotes ns =>
    match SqliteGraphStore.importFromNotes s ns with
    | .ok (_, s') => s'
    | .error _ => s
  | _ => s

/-- The store state after one public call on the in-memory backend. -/
def LiteGraphStore.applyOp (s : LiteState) : GOp → LiteState
  | .upsertNode node =>
    match LiteGraphStore.upsertNode s node with
    | .ok (_, s') => s'
    | .error _ => s
  | .addEdge a b t p => (LiteGraphStore.addEdge s a b t p).2
  | .importFromNotes ns => (LiteGraphStore.importFromNotes s ns).2
  | _ => s

/-! ## Reachability (specification side)

`ball adj s n` lists every node reachable from `s` in at most `n` hops of
`adj`; the shortest-hop distance of `x` from `s` is the least `n` with
`x ∈ ball adj s n`. -/

/-- All nodes within `n` hops of `s`. -/
def ball (adj : Nat → List Nat) (s : Nat) : Nat → List Nat
  | 0 => [s]
  | n + 1 => ball adj s n ++ (ball adj s n).flatMap adj

/-- Deterministic predecessor chains of a BFS `prev` map: `PChain prev s x n`
says the parent pointers walk from `x` back to the root `s` in exactly `n`
steps, each step following a recorded edge of `adj`. -/
inductive PChain (adj : Nat → List Nat) (prev : List (Nat × Option Nat)) (s : Nat) :
    Nat → Nat → Prop where
  | root : mget s prev = some none → PChain adj prev s s 0
  | step {x p n} : mget x prev = some (some p) → x ∈ adj p →
      PChain adj prev s p n → PChain adj prev s x (n + 1)

/-- Well-formedness of reachable in-memory states: the counter is past 0 and
every index entry points at a present node with a truthy id.  Every state
produced from `init` by public operations satisfies this. -/
def LiteWF (s : LiteState) : Prop :=
  1 ≤ s.nextNodeId ∧
    ∀ k id, mget k s.labelIndex = some id → id ≠ 0 ∧ (mget id s.nodes).isSome

/-- Key consistency of the in-memory node map: every entry's node carries the
entry's key as its id.  This holds in every state the public operations can
produce. -/
def LiteNodesWF (s : LiteState) : Prop :=
  ∀ id n, mget id s.nodes = some n → n.id = id

/-- Referential integrity of the edge list: both endpoints of every edge are
stored nodes.  The persistent backend enforces this through its FOREIGN KEY
constraints; the in-memory backend only attains it on operation sequences
that never add an edge with a dangling endpoint. -/
def LiteEdgesWF (s : LiteState) : Prop :=
  ∀ e ∈ s.edges, (mget e.src s.nodes).isSome ∧ (mget e.dst s.nodes).isSome

/-- Referential integrity of `graph_edges` (guaranteed by the FOREIGN KEY
clauses for every reachable persistent state). -/
def SqlEdgesWF (s : SqlState) : Prop :=
  ∀ e ∈ s.edgeRows,
    (∃ r ∈ s.nodeRows, r.id = e.src) ∧ ∃ r ∈ s.nodeRows, r.id = e.dst

instance {ε α : Type} [DecidableEq ε] [DecidableEq α] : DecidableEq (Except ε α)
  | .ok a, .ok b =>
    if h : a = b then isTrue (by rw [h]) else isFalse (by intro hc; cases hc; exact h rfl)
  | .ok _, .error _ => isFalse (by intro h; cases h)
  | .error _, .ok _ => isFalse (by intro h; cases h)
  | .error e, .error f =>
    if h : e = f then isTrue (by rw [h]) else isFalse (by intro hc; cases hc; exact h rfl)

/-- Invariant of the `path` traversal while the round at BFS radius `r` is
being expanded: the radius-`r` ball is fully visited, every visited node is
within radius `r + 1`, the predecessor map's keys are exactly the visited
nodes, the root maps to `null`, and every visited node has a predecessor
chain of length at most `r + 1`. -/
def PathMidInv (adj : Nat → List Nat) (s : Nat) (r : Nat)
    (visited : List Nat) (prev : List (Nat × Option Nat)) : Prop :=
  (∀ x, x ∈ ball adj s r → x ∈ visited)
    ∧ (∀ x ∈ visited, x ∈ ball adj s (r + 1))
    ∧ (∀ x, (mget x prev).isSome ↔ x ∈ visited)
    ∧ mget s prev = some none
    ∧ (∀ x ∈ visited, ∃ n, n ≤ r + 1 ∧ PChain adj prev s x n)

/-- Invariant of the `path` traversal at a round boundary: after `r` complete
rounds the visited set is exactly the radius-`r` ball and the frontier is
exactly the set of nodes at exact distance `r`. -/
def PathRoundInv (adj : Nat → List Nat) (s : Nat) (r : Nat)
    (frontier visited : List Nat) (prev : List (Nat × Option Nat)) : Prop :=
  (∀ x, x ∈ visited ↔ x ∈ ball adj s r)
    ∧ (∀ x, x ∈ frontier ↔ (x ∈ ball adj s r ∧ ∀ m, m < r → x ∉ ball adj s m))
    ∧ (∀ x, (mget x prev).isSome ↔ x ∈ visited)
    ∧ mget s prev = some none
    ∧ (∀ x ∈ visited, ∃ n, n ≤ r ∧ PChain adj prev s x n)
    ∧ r < prev.length

/-- Append-only monotonicity between persistent states: counts never shrink,
no node id disappears, no edge row is removed. -/
def SqlMono (s s' : SqlState) : Prop :=
  s.nodeRows.length ≤ s'.nodeRows.length
    ∧ s.edgeRows.length ≤ s'.edgeRows.length
    ∧ (∀ r ∈ s.nodeRows, ∃ r' ∈ s'.nodeRows, r'.id = r.id)
    ∧ (∀ e ∈ s.edgeRows, e ∈ s'.edgeRows)

/-- Append-only monotonicity between in-memory states. -/
def LiteMono (s s' : LiteState) : Prop :=
  s.nodes.length ≤ s'.nodes.length
    ∧ s.edges.length ≤ s'.edges.length
    ∧ (∀ id, (mget id s.nodes).isSome → (mget id s'.nodes).isSome)
    ∧ (∀ e ∈ s.edges, e ∈ s'.edges)

/-- An edge with the given endpoints and (normalized) type is stored. -/
def LiteHasEdge (s : LiteState) (a b : Nat) (ty : String) : Prop :=
  ∃ e ∈ s.edges, e.src = a ∧ e.dst = b ∧ e.type.getD "" = ty

/-- The in-memory store already holds every artifact `importFromNotes` would
create for the record `n`: the note node, the key node, the `has_key` edge,
and each tag node with its `has_tag` edge, at the indexed ids. -/
def LiteContainsRec (s : LiteState) (n : Note) : Prop :=
  ∃ nid kid,
    mget (LiteGraphStore.keyFor (noteLabel n) (some "note")) s.labelIndex = some nid
      ∧ nid ≠ 0
      ∧ mget (LiteGraphStore.keyFor (keyLabel n) (some "key")) s.labelIndex = some kid
      ∧ kid ≠ 0
      ∧ LiteHasEdge s nid kid "has_key"
      ∧ ∀ t ∈ n.tags, ∃ tid,
          mget (LiteGraphStore.keyFor (tagLabel t) (some "tag")) s.labelIndex = some tid
            ∧ tid ≠ 0 ∧ LiteHasEdge s nid tid "has_tag"

/-- First matching row's id for the `(label, type)` key, as the dedup lookup
of the persistent backend resolves it. -/
def sqliteLookupId (s : SqlState) (label t : String) : Option Nat :=
  (s.nodeRows.find? (fun r => r.label == label && r.type == some t)).map (fun r => r.id)

/-- An edge row with the given endpoints and type is stored. -/
def SqlHasEdge (s : SqlState) (a b : Nat) (ty : String) : Prop :=
  ∃ e ∈ s.edgeRows, e.src = a ∧ e.dst = b ∧ e.type = ty

/-- The persistent store already holds every artifact `importFromNotes`
would create for the record `n`. -/
def SqlContainsRec (s : SqlState) (n : Note) : Prop :=
  ∃ nid kid,
    sqliteLookupId s (noteLabel n) "note" = some nid
      ∧ sqliteLookupId s (keyLabel n) "key" = some kid
      ∧ SqlHasEdge s nid kid "has_key"
      ∧ ∀ t ∈ n.tags, ∃ tid,
          sqliteLookupId s (tagLabel t) "tag" = some tid ∧ SqlHasEdge s nid tid "has_tag"

/-! # Theorems -/

/-! ## Association-list lemmas -/

theorem mget_mset_self {α β : Type} [DecidableEq α] (k : α) (v : β) (m : List (α × β)) :
    mget k (mset k v m) = some v := by
  induction m with
  | nil => simp [mget, mset]
  | cons hd tl ih =>
    by_cases h : hd.1 = k
    · simp [mset, h, mget]
    · simp [mset, h, mget, ih]

theorem mget_mset_ne {α β : Type} [DecidableEq α] (k k' : α) (v : β) (m : List (α × β))
    (h : k ≠ k') : mget k' (mset k v m) = mget k' m := by
  induction m with
  | nil => simp [mget, mset, h]
  | cons hd tl ih =>
    by_cases hh : hd.1 = k
    · simp [mset, hh, mget, h]
    · by_cases hk : hd.1 = k'
      · simp [mset, hh, mget, hk, Ne.symm h]
      · simp [mset, hh, mget, hk, ih]

theorem length_mset_of_mget_isSome {α β : Type} [DecidableEq α] (k : α) (v : β)
    (m : List (α × β)) (h : (mget k m).isSome) :
    (mset k v m).length = m.length := by
  induction m with
  | nil => simp [mget] at h
  | cons hd tl ih =>
    by_cases hh : hd.1 = k
    · simp [mset, hh]
    · simp [mget, hh] at h
      simp [mset, hh, ih h]

theorem length_mset_of_mget_none {α β : Type} [DecidableEq α] (k : α) (v : β)
    (m : List (α × β)) (h : mget k m = none) :
    (mset k v m).length = m.length + 1 := by
  induction m with
  | nil => simp [mset]
  | cons hd tl ih =>
    by_cases hh : hd.1 = k
    · simp [mget, hh] at h
    · simp [mget, hh] at h
      simp [mset, hh, ih h]

theorem mget_isSome_iff {α β : Type} [DecidableEq α] (k : α) (m : List (α × β)) :
    (mget k m).isSome ↔ ∃ v, mget k m = some v := by
  cases h : mget k m <;> simp [h]

/-! ## Reachability lemmas -/

theorem mem_ball_zero {adj : Nat → List Nat} {s x : Nat} :
    x ∈ ball adj s 0 ↔ x = s := by
  simp [ball]

theorem mem_ball_succ {adj : Nat → List Nat} {s x : Nat} {n : Nat} :
    x ∈ ball adj s (n + 1) ↔ x ∈ ball adj s n ∨ ∃ y ∈ ball adj s n, x ∈ adj y := by
  simp [ball]

theorem self_mem_ball (adj : Nat → List Nat) (s n : Nat) : s ∈ ball adj s n := by
  induction n with
  | zero => simp [ball]
  | succ n ih => exact mem_ball_succ.mpr (Or.inl ih)

theorem ball_mono_succ {adj : Nat → List Nat} {s x : Nat} {n : Nat}
    (h : x ∈ ball adj s n) : x ∈ ball adj s (n + 1) :=
  mem_ball_succ.mpr (Or.inl h)

theorem ball_mono {adj : Nat → List Nat} {s x : Nat} {m n : Nat} (hmn : m ≤ n)
    (h : x ∈ ball adj s m) : x ∈ ball adj s n := by
  induction hmn with
  | refl => exact h
  | step _ ih => exact ball_mono_succ ih

theorem adj_mem_ball {adj : Nat → List Nat} {s y x : Nat} {n : Nat}
    (hy : y ∈ ball adj s n) (hx : x ∈ adj y) : x ∈ ball adj s (n + 1) :=
  mem_ball_succ.mpr (Or.inr ⟨y, hy, hx⟩)

/-- If no node sits at exact distance `r` (the BFS frontier emptied), the
balls have stabilized: nothing new is ever reached past radius `r`. -/
theorem ball_stable_of_no_sphere {adj : Nat → List Nat} {s : Nat} {r : Nat}
    (hr : ∀ x, x ∈ ball adj s r → ∃ m, m < r ∧ x ∈ ball adj s m) :
    ∀ d x, x ∈ ball adj s (r + d) → x ∈ ball adj s r := by
  have hsucc : ∀ x, x ∈ ball adj s (r + 1) → x ∈ ball adj s r := by
    intro x hx
    rcases mem_ball_succ.mp hx with hx | ⟨y, hy, hxy⟩
    · exact hx
    · rcases hr y hy with ⟨m, hm, hym⟩
      exact ball_mono (Nat.succ_le_of_lt hm) (adj_mem_ball hym hxy)
  intro d
  induction d with
  | zero => exact fun x hx => hx
  | succ d ih =>
    intro x hx
    rcases mem_ball_succ.mp hx with hx | ⟨y, hy, hxy⟩
    · exact ih x hx
    · exact hsucc x (adj_mem_ball (ih y hy) hxy)

/-! ## `neighbors` traversal: soundness bounds -/

theorem bfsCollectScan_inv (adj : Nat → List Nat) (s0 r limit srcId : Nat) :
    ∀ (dsts visited next collected : List Nat),
      (∀ x ∈ dsts, x ∈ adj srcId) →
      srcId ∈ ball adj s0 r →
      (∀ x ∈ visited, x ∈ ball adj s0 (r + 1)) →
      s0 ∈ visited →
      (∀ x ∈ next, x ∈ visited) →
      (∀ x ∈ collected, x ∈ visited) →
      s0 ∉ collected →
      collected.Nodup →
      collected.length < limit →
      ((∀ x ∈ (bfsCollectScan limit dsts visited next collected).1, x ∈ ball adj s0 (r + 1))
        ∧ s0 ∈ (bfsCollectScan limit dsts visited next collected).1
        ∧ (∀ x ∈ (bfsCollectScan limit dsts visited next collected).2.1,
            x ∈ (bfsCollectScan limit dsts visited next collected).1)
        ∧ (∀ x ∈ (bfsCollectScan limit dsts visited next collected).2.2.1,
            x ∈ (bfsCollectScan limit dsts visited next collected).1)
        ∧ s0 ∉ (bfsCollectScan limit dsts visited next collected).2.2.1
        ∧ (bfsCollectScan limit dsts visited next collected).2.2.1.Nodup
        ∧ (bfsCollectScan limit dsts visited next collected).2.2.1.length ≤ limit
        ∧ ((bfsCollectScan limit dsts visited next collected).2.2.2 = false →
            (bfsCollectScan limit dsts visited next collected).2.2.1.length < limit)) := by
  intro dsts
  induction dsts with
  | nil =>
    intro visited next collected hdsts hsrc hvis hs0 hnext hcol hs0c hnd hlen
    simp only [bfsCollectScan]
    exact ⟨hvis, hs0, hnext, hcol, hs0c, hnd, Nat.le_of_lt hlen, fun _ => hlen⟩
  | cons dst rest ih =>
    intro visited next collected hdsts hsrc hvis hs0 hnext hcol hs0c hnd hlen
    simp only [bfsCollectScan]
    by_cases hmem : dst ∈ visited
    · simp only [hmem, if_true]
      exact ih visited next collected (fun x hx => hdsts x (List.mem_cons_of_mem _ hx))
        hsrc hvis hs0 hnext hcol hs0c hnd hlen
    · simp only [hmem, if_false]
      have hdstball : dst ∈ ball adj s0 (r + 1) :=
        adj_mem_ball hsrc (hdsts dst (List.mem_cons_self _ _))
      have hvis' : ∀ x ∈ dst :: visited, x ∈ ball adj s0 (r + 1) := by
        intro x hx
        rcases List.mem_cons.mp hx with h | h
        · exact h ▸ hdstball
        · exact hvis x h
      have hs0' : s0 ∈ dst :: visited := List.mem_cons_of_mem _ hs0
      have hnext' : ∀ x ∈ next ++ [dst], x ∈ dst :: visited := by
        intro x hx
        rcases List.mem_append.mp hx with h | h
        · exact List.mem_cons_of_mem _ (hnext x h)
        · simp only [List.mem_singleton] at h
          exact h ▸ List.mem_cons_self _ _
      have hcol' : ∀ x ∈ collected ++ [dst], x ∈ dst :: visited := by
        intro x hx
        rcases List.mem_append.mp hx with h | h
        · exact List.mem_cons_of_mem _ (hcol x h)
        · simp only [List.mem_singleton] at h
          exact h ▸ List.mem_cons_self _ _
      have hdstfresh : dst ∉ collected := fun hc => hmem (hcol dst hc)
      have hs0c' : s0 ∉ collected ++ [dst] := by
        intro hx
        rcases List.mem_append.mp hx with h | h
        · exact hs0c h
        · simp only [List.mem_singleton] at h
          exact hmem (h ▸ hs0)
      have hnd' : (collected ++ [dst]).Nodup := by
        refine List.Nodup.append hnd (List.nodup_singleton dst) ?_
        intro x hx hy
        simp only [List.mem_singleton] at hy
        exact hdstfresh (hy ▸ hx)
      have hlen' : (collected ++ [dst]).length = collected.length + 1 := by
        simp
      by_cases hl : (collected ++ [dst]).length < limit
      · simp only [hl, if_true]
        exact ih (dst :: visited) (next ++ [dst]) (collected ++ [dst])
          (fun x hx => hdsts x (List.mem_cons_of_mem _ hx))
          hsrc hvis' hs0' hnext' hcol' hs0c' hnd' hl
      · simp only [hl, if_false]
        refine ⟨hvis', hs0', hnext', hcol', hs0c', hnd', ?_, ?_⟩
        · rw [hlen']
          exact Nat.succ_le_of_lt hlen
        · intro hfalse
          cases hfalse

theorem bfsCollectStep_inv (adj : Nat → List Nat) (s0 r limit : Nat) :
    ∀ (ids visited next collected : List Nat),
      (∀ id ∈ ids, id ∈ ball adj s0 r) →
      (∀ x ∈ visited, x ∈ ball adj s0 (r + 1)) →
      s0 ∈ visited →
      (∀ x ∈ next, x ∈ visited) →
      (∀ x ∈ collected, x ∈ visited) →
      s0 ∉ collected →
      collected.Nodup →
      collected.length < limit →
      ((∀ x ∈ (bfsCollectStep adj limit ids visited next collected).1, x ∈ ball adj s0 (r + 1))
        ∧ s0 ∈ (bfsCollectStep adj limit ids visited next collected).1
        ∧ (∀ x ∈ (bfsCollectStep adj limit ids visited next collected).2.1,
            x ∈ (bfsCollectStep adj limit ids visited next collected).1)
        ∧ (∀ x ∈ (bfsCollectStep adj limit ids visited next collected).2.2.1,
            x ∈ (bfsCollectStep adj limit ids visited next collected).1)
        ∧ s0 ∉ (bfsCollectStep adj limit ids visited next collected).2.2.1
        ∧ (bfsCollectStep adj limit ids visited next collected).2.2.1.Nodup
        ∧ (bfsCollectStep adj limit ids visited next collected).2.2.1.length ≤ limit
        ∧ ((bfsCollectStep adj limit ids visited next collected).2.2.2 = false →
            (bfsCollectStep adj limit ids visited next collected).2.2.1.length < limit)) := by
  intro ids
  induction ids with
  | nil =>
    intro visited next collected hids hvis hs0 hnext hcol hs0c hnd hlen
    simp only [bfsCollectStep]
    exact ⟨hvis, hs0, hnext, hcol, hs0c, hnd, Nat.le_of_lt hlen, fun _ => hlen⟩
  | cons id rest ih =>
    intro visited next collected hids hvis hs0 hnext hcol hs0c hnd hlen
    have hscan := bfsCollectScan_inv adj s0 r limit id (adj id) visited next collected
      (fun x hx => hx) (hids id (List.mem_cons_self _ _)) hvis hs0 hnext hcol hs0c hnd hlen
    rcases hsc : bfsCollectScan limit (adj id) visited next collected with ⟨v, n, c, stop⟩
    rw [hsc] at hscan
    obtain ⟨h1, h2, h3, h4, h5, h6, h7, h8⟩ := hscan
    simp only [bfsCollectStep, hsc]
    cases stop with
    | true =>
      exact ⟨h1, h2, h3, h4, h5, h6, h7, fun h => by cases h⟩
    | false =>
      exact ih v n c (fun x hx => hids x (List.mem_cons_of_mem _ hx))
        h1 h2 h3 h4 h5 h6 (h8 rfl)

theorem bfsCollectRounds_inv (adj : Nat → List Nat) (s0 limit : Nat) :
    ∀ (d r : Nat) (frontier visited collected : List Nat),
      (∀ id ∈ frontier, id ∈ ball adj s0 r) →
      (∀ x ∈ visited, x ∈ ball adj s0 r) →
      s0 ∈ visited →
      (∀ x ∈ collected, x ∈ visited) →
      s0 ∉ collected →
      collected.Nodup →
      collected.length < limit →
      ((∀ x ∈ bfsCollectRounds adj limit d frontier visited collected, x ∈ ball adj s0 (r + d))
        ∧ s0 ∉ bfsCollectRounds adj limit d frontier visited collected
        ∧ (bfsCollectRounds adj limit d frontier visited collected).Nodup
        ∧ (bfsCollectRounds adj limit d frontier visited collected).length ≤ limit) := by
  intro d
  induction d with
  | zero =>
    intro r frontier visited collected _ hvis _ hcol hs0c hnd hlen
    simp only [bfsCollectRounds, Nat.add_zero]
    exact ⟨fun x hx => hvis x (hcol x hx), hs0c, hnd, Nat.le_of_lt hlen⟩
  | succ d ih =>
    intro r frontier visited collected hfr hvis hs0 hcol hs0c hnd hlen
    simp only [bfsCollectRounds]
    by_cases hemp : frontier.isEmpty
    · simp only [hemp, if_true]
      refine ⟨fun x hx => ball_mono (Nat.le_add_right r (d + 1)) (hvis x (hcol x hx)),
        hs0c, hnd, Nat.le_of_lt hlen⟩
    · simp only [hemp, if_false]
      have hstep := bfsCollectStep_inv adj s0 r limit frontier visited [] collected
        hfr (fun x hx => ball_mono_succ (hvis x hx)) hs0 (by simp)
        (fun x hx => hcol x hx) hs0c hnd hlen
      rcases hst : bfsCollectStep adj limit frontier visited [] collected with ⟨v, n, c, stop⟩
      rw [hst] at hstep
      obtain ⟨h1, h2, h3, h4, h5, h6, h7, h8⟩ := hstep
      cases stop with
      | true =>
        refine ⟨fun x hx => ?_, h5, h6, h7⟩
        have := h1 x (h4 x hx)
        exact ball_mono (by omega) this
      | false =>
        have hrec := ih (r + 1) n v c (fun id hid => h1 id (h3 id hid)) h1 h2 h4 h5 h6 (h8 rfl)
        have harith : r + 1 + d = r + (d + 1) := by omega
        rw [harith] at hrec
        exact hrec

/-- Soundness bundle for the ids collected by `neighbors`' traversal: at most
`limit` of them, no duplicates, never the start, and all within `depth` hops. -/
theorem bfsCollectIds_spec (adj : Nat → List Nat) (s0 depth limit : Nat) (hlim : 1 ≤ limit) :
    (∀ x ∈ bfsCollectIds adj s0 depth limit, x ∈ ball adj s0 depth)
      ∧ s0 ∉ bfsCollectIds adj s0 depth limit
      ∧ (bfsCollectIds adj s0 depth limit).Nodup
      ∧ (bfsCollectIds adj s0 depth limit).length ≤ limit := by
  have h := bfsCollectRounds_inv adj s0 limit depth 0 [s0] [s0] []
    (by intro id hid; rw [List.mem_singleton.mp hid]; exact self_mem_ball adj s0 0)
    (by intro x hx; rw [List.mem_singleton.mp hx]; exact self_mem_ball adj s0 0)
    (List.mem_singleton.mpr rfl)
    (by intro x hx; cases hx)
    (by intro hx; cases hx)
    List.nodup_nil
    (by simpa using hlim)
  simpa [bfsCollectIds, Nat.zero_add] using h

/-! ## Node fetch lemmas -/

/-- The id sequence of a persistent fetch is the requested sequence filtered
to the ids that have a row (the `WHERE id=?` predicate pins the row's id). -/
theorem sqlite_nodesByIds_map_id (s : SqlState) (ids : List Nat) :
    (SqliteGraphStore.nodesByIds s ids).map (fun n => n.id)
      = ids.filter (fun id => (s.nodeRows.find? (fun r => r.id == id)).isSome) := by
  induction ids with
  | nil => rfl
  | cons id rest ih =>
    simp only [SqliteGraphStore.nodesByIds, List.filterMap_cons, List.filter_cons]
    cases hfind : s.nodeRows.find? (fun r => r.id == id) with
    | none =>
      simp only [Option.map_none', hfind, Option.isSome_none, Bool.false_eq_true, if_false]
      exact ih
    | some r =>
      have hr : r.id = id := by
        have := List.find?_some hfind
        simpa using this
      simp only [Option.map_some', hfind, Option.isSome_some, if_true, List.map_cons, hr]
      exact congrArg (fun l => id :: l) ih

theorem lite_nodesByIds_map_id {s : LiteState} (hwf : LiteNodesWF s) (ids : List Nat) :
    (LiteGraphStore.nodesByIds s ids).map (fun n => n.id)
      = ids.filter (fun id => (mget id s.nodes).isSome) := by
  induction ids with
  | nil => rfl
  | cons id rest ih =>
    simp only [LiteGraphStore.nodesByIds, List.filterMap_cons, List.filter_cons]
    cases hfind : mget id s.nodes with
    | none =>
      simp only [hfind, Option.isSome_none, Bool.false_eq_true, if_false]
      exact ih
    | some n =>
      simp only [hfind, Option.isSome_some, if_true, List.map_cons, hwf id n hfind]
      exact congrArg (fun l => id :: l) ih

theorem mem_map_id_of_mem {l : List GNode} {n : GNode} (h : n ∈ l) :
    n.id ∈ l.map (fun n => n.id) :=
  List.mem_map.mpr ⟨n, h, rfl⟩

theorem mget_mem {α β : Type} [DecidableEq α] {k : α} {v : β} {m : List (α × β)}
    (h : mget k m = some v) : (k, v) ∈ m := by
  induction m with
  | nil => cases h
  | cons hd tl ih =>
    by_cases hh : hd.1 = k
    · simp only [mget, hh, if_true, Option.some.injEq] at h
      subst h
      subst hh
      exact List.mem_cons_self _ _
    · simp only [mget, hh, if_false] at h
      exact List.mem_cons_of_mem _ (ih h)

/-- Claim C5 (amended): on both backends, with a start reference that
resolves to a truthy id and a limit of at least 1, `neighbors(start, d, l)`
returns at most `l` nodes with pairwise distinct ids, never the start node,
and no node whose shortest hop-distance from the start along outgoing edges
exceeds `d`; a `(label, type)` descriptor that does not resolve yields the
empty list.  Amendment forced by the counterexample: the unresolvable-start
clause holds for descriptor references only — a *numeric* start id is used
without an existence check, and the in-memory backend (whose `addEdge` never
validates endpoints) can return neighbors recorded for a nonexistent id.
The in-memory clause assumes the map-key consistency `LiteNodesWF`, which
every state reachable by public operations satisfies. -/
theorem c5_neighbors_bounds :
    (∀ (s : SqlState) (ref : NodeRef) (depth limit startId : Nat),
        SqliteGraphStore.resolveNodeId s ref = some startId → startId ≠ 0 → 1 ≤ limit →
        (SqliteGraphStore.neighbors s ref depth limit).length ≤ limit
          ∧ ((SqliteGraphStore.neighbors s ref depth limit).map (fun n => n.id)).Nodup
          ∧ (∀ n ∈ SqliteGraphStore.neighbors s ref depth limit,
              n.id ≠ startId ∧ n.id ∈ ball (SqliteGraphStore.neighborIds s) startId depth))
      ∧ (∀ (s : SqlState) (l : String) (t : Option String) (depth limit : Nat),
          SqliteGraphStore.getNodeByLabel s l t = none →
          SqliteGraphStore.neighbors s (.byLabel l t) depth limit = [])
      ∧ (∀ (s : LiteState) (ref : NodeRef) (depth limit startId : Nat),
          LiteNodesWF s →
          LiteGraphStore.resolveRef s ref = some startId → startId ≠ 0 → 1 ≤ limit →
          (LiteGraphStore.neighbors s ref depth limit).length ≤ limit
            ∧ ((LiteGraphStore.neighbors s ref depth limit).map (fun n => n.id)).Nodup
            ∧ (∀ n ∈ LiteGraphStore.neighbors s ref depth limit,
                n.id ≠ startId ∧ n.id ∈ ball (LiteGraphStore.neighborIds s) startId depth))
      ∧ (∀ (s : LiteState) (l : String) (t : Option String) (depth limit : Nat),
          LiteGraphStore.getNodeByLabel s l t = none →
          LiteGraphStore.neighbors s (.byLabel l t) depth limit = []) := by
  refine ⟨?_, ?_, ?_, ?_⟩
  · intro s ref depth limit startId hres hzero hlim
    have hN : SqliteGraphStore.neighbors s ref depth limit
        = SqliteGraphStore.nodesByIds s
            (bfsCollectIds (SqliteGraphStore.neighborIds s) startId depth limit) := by
      simp only [SqliteGraphStore.neighbors, hres]
      rw [if_neg hzero]
    obtain ⟨hball, hstart, hnodup, hlen⟩ :=
      bfsCollectIds_spec (SqliteGraphStore.neighborIds s) startId depth limit hlim
    have hmap := sqlite_nodesByIds_map_id s
      (bfsCollectIds (SqliteGraphStore.neighborIds s) startId depth limit)
    refine ⟨?_, ?_, ?_⟩
    · rw [hN]
      calc (SqliteGraphStore.nodesByIds s
              (bfsCollectIds (SqliteGraphStore.neighborIds s) startId depth limit)).length
          ≤ (bfsCollectIds (SqliteGraphStore.neighborIds s) startId depth limit).length :=
            List.length_filterMap_le _ _
        _ ≤ limit := hlen
    · rw [hN, hmap]
      exact (List.filter_sublist _).nodup hnodup
    · intro n hn
      rw [hN] at hn
      have hid : n.id ∈ (bfsCollectIds (SqliteGraphStore.neighborIds s) startId depth limit) := by
        have := mem_map_id_of_mem hn
        rw [hmap] at this
        exact (List.filter_sublist _).mem this
      exact ⟨fun h => hstart (h ▸ hid), hball n.id hid⟩
  · intro s l t depth limit hmiss
    simp only [SqliteGraphStore.neighbors, SqliteGraphStore.resolveNodeId, hmiss, Option.map_none']
  · intro s ref depth limit startId hwf hres hzero hlim
    have hN : LiteGraphStore.neighbors s ref depth limit
        = LiteGraphStore.nodesByIds s
            (bfsCollectIds (LiteGraphStore.neighborIds s) startId depth limit) := by
      simp only [LiteGraphStore.neighbors, hres]
      rw [if_neg hzero]
    obtain ⟨hball, hstart, hnodup, hlen⟩ :=
      bfsCollectIds_spec (LiteGraphStore.neighborIds s) startId depth limit hlim
    have hmap := lite_nodesByIds_map_id hwf
      (bfsCollectIds (LiteGraphStore.neighborIds s) startId depth limit)
    refine ⟨?_, ?_, ?_⟩
    · rw [hN]
      calc (LiteGraphStore.nodesByIds s
              (bfsCollectIds (LiteGraphStore.neighborIds s) startId depth limit)).length
          ≤ (bfsCollectIds (LiteGraphStore.neighborIds s) startId depth limit).length :=
            List.length_filterMap_le _ _
        _ ≤ limit := hlen
    · rw [hN, hmap]
      exact (List.filter_sublist _).nodup hnodup
    · intro n hn
      rw [hN] at hn
      have hid : n.id ∈ (bfsCollectIds (LiteGraphStore.neighborIds s) startId depth limit) := by
        have := mem_map_id_of_mem hn
        rw [hmap] at this
        exact (List.filter_sublist _).mem this
      exact ⟨fun h => hstart (h ▸ hid), hball n.id hid⟩
  · intro s l t depth limit hmiss
    simp only [LiteGraphStore.neighbors, LiteGraphStore.resolveRef, hmiss, Option.map_none']

/-- Witness for C5: a two-node store with one edge; the start resolves to
node 1, the limit is 50, and the conclusions hold at this instance. -/
theorem c5_neighbors_bounds_witness :
    (let ops : List GOp := [.upsertNode ⟨none, "key:sql", some "key", none⟩,
                            .upsertNode ⟨none, "tag:performance", some "tag", none⟩,
                            .addEdge 1 2 (some "has_tag") none]
     let ss := ops.foldl SqliteGraphStore.applyOp SqliteGraphStore.init
     let ls := ops.foldl LiteGraphStore.applyOp LiteGraphStore.init
     (SqliteGraphStore.resolveNodeId ss (.byLabel "key:sql" (some "key")) = some 1
        ∧ (1 : Nat) ≠ 0 ∧ (1 : Nat) ≤ 50
        ∧ (∀ n ∈ SqliteGraphStore.neighbors ss (.byLabel "key:sql" (some "key")) 1 50,
            n.id ≠ 1 ∧ n.id ∈ ball (SqliteGraphStore.neighborIds ss) 1 1))
      ∧ (LiteNodesWF ls
        ∧ LiteGraphStore.resolveRef ls (.byId 1) = some 1
        ∧ (∀ n ∈ LiteGraphStore.neighbors ls (.byId 1) 1 50,
            n.id ≠ 1 ∧ n.id ∈ ball (LiteGraphStore.neighborIds ls) 1 1))) := by
  intro ops ss ls
  have hwf : LiteNodesWF ls := by
    intro id n h
    have hmem := mget_mem h
    have hall : ∀ p ∈ ls.nodes, p.2.id = p.1 := by decide
    exact hall (id, n) hmem
  refine ⟨⟨by decide, by decide, by decide, ?_⟩, ⟨hwf, by decide, ?_⟩⟩
  · exact (c5_neighbors_bounds.1 ss (.byLabel "key:sql" (some "key")) 1 50 1
      (by decide) (by decide) (by decide)).2.2
  · exact (c5_neighbors_bounds.2.2.1 ls (.byId 1) 1 50 1 hwf
      (by decide) (by decide) (by decide)).2.2

/-! ## Concrete divergences between the backends and the contract -/

/-- Claim C1: the backend-equivalence property fails on the code.  Replaying
the same three-call sequence (a typeless upsert of label `B`, a typed upsert
of `(A, t)`, an edge from node 1 to node 2) on both freshly initialized
backends, a subsequent `neighbors` call on the descriptor `{label: "B"}`
returns the node set `{(A, some t)}` on the in-memory backend but the empty
set on the persistent backend: the persistent `upsertNode` stores an omitted
type as SQL NULL, which the `type=''` lookup of `getNodeByLabel` never
matches, so the descriptor fails to resolve there. -/
theorem c1_backend_divergence :
    (let ops : List GOp := [.upsertNode ⟨none, "B", none, none⟩,
                            .upsertNode ⟨none, "A", some "t", none⟩,
                            .addEdge 1 2 (some "e") none]
     let ls := ops.foldl LiteGraphStore.applyOp LiteGraphStore.init
     let ss := ops.foldl SqliteGraphStore.applyOp SqliteGraphStore.init
     ((LiteGraphStore.neighbors ls (.byLabel "B" none) 1 50).map fun n => (n.label, n.type))
        = [("A", some "t")]
      ∧ SqliteGraphStore.neighbors ss (.byLabel "B" none) 1 50 = []
      ∧ LiteGraphStore.stats ls = (2, 1) ∧ SqliteGraphStore.stats ss = (2, 1)) := by
  decide

/-- Claim C2: node dedup-on-conflict fails on the persistent backend for the
omitted-type key.  On a fresh store, two id-less `upsertNode` calls with
label `A` and no type return ids 1 and 2 (not the same id) and `stats().nodes`
rises from 0 to 2 (not by 1): the first insert stores `type` as SQL NULL, the
dedup lookup compares `type=''` which NULL never satisfies, and the unique
index treats the two NULLs as distinct. -/
theorem c2_node_dedup_violation :
    (let s1 := SqliteGraphStore.applyOp SqliteGraphStore.init
                 (.upsertNode ⟨none, "A", none, none⟩)
     let s2 := SqliteGraphStore.applyOp s1 (.upsertNode ⟨none, "A", none, none⟩)
     (SqliteGraphStore.upsertNode SqliteGraphStore.init ⟨none, "A", none, none⟩).map Prod.fst
        = .ok 1
      ∧ (SqliteGraphStore.upsertNode s1 ⟨none, "A", none, none⟩).map Prod.fst = .ok 2
      ∧ SqliteGraphStore.stats s1 = (1, 0)
      ∧ SqliteGraphStore.stats s2 = (2, 0)) := by
  decide

/-- Claim C3: a typeless node is not stored under the empty-string type
category by the persistent backend.  After `upsertNode` of label `A` with the
type omitted, the node row exists, yet `getNodeByLabel("A")` — and equally
with the explicit empty-string type — returns nothing, and a second typeless
upsert of `A` allocates id 2 instead of resolving to id 1. -/
theorem c3_typeless_lookup_miss :
    (let s1 := SqliteGraphStore.applyOp SqliteGraphStore.init
                 (.upsertNode ⟨none, "A", none, none⟩)
     (∃ r ∈ s1.nodeRows, r.label = "A" ∧ r.type = none)
      ∧ SqliteGraphStore.getNodeByLabel s1 "A" none = none
      ∧ SqliteGraphStore.getNodeByLabel s1 "A" (some "") = none
      ∧ (SqliteGraphStore.upsertNode s1 ⟨none, "A", none, none⟩).map Prod.fst = .ok 2) := by
  decide

/-- Claim C6: the `(label, type)` uniqueness invariant is not preserved by
the in-memory backend.  After creating nodes 1 = `(A, a)` and 2 = `(B, b)`,
the id-qualified call `upsertNode({id: 2, label: "A", type: "a"})` succeeds
and leaves two distinct stored nodes both carrying `(A, a)`; moreover
`getNodeByLabel("B", "b")` then resolves (through the stale index entry) to a
node carrying `(A, a)`.  (The persistent backend rejects the same rewrite
with a uniqueness-constraint error.) -/
theorem c6_uniqueness_violation :
    (let ops : List GOp := [.upsertNode ⟨none, "A", some "a", none⟩,
                            .upsertNode ⟨none, "B", some "b", none⟩,
                            .upsertNode ⟨some 2, "A", some "a", none⟩]
     let ls := ops.foldl LiteGraphStore.applyOp LiteGraphStore.init
     ((mget 1 ls.nodes).map fun n => (n.label, n.type)) = some ("A", some "a")
      ∧ ((mget 2 ls.nodes).map fun n => (n.label, n.type)) = some ("A", some "a")
      ∧ ((LiteGraphStore.getNodeByLabel ls "B" (some "b")).map fun n => (n.label, n.type))
          = some ("A", some "a")
      ∧ (let s2 := [GOp.upsertNode ⟨none, "A", some "a", none⟩,
                    GOp.upsertNode ⟨none, "B", some "b", none⟩].foldl
                     SqliteGraphStore.applyOp SqliteGraphStore.init
         SqliteGraphStore.upsertNode s2 ⟨some 2, "A", some "a", none⟩
           = .error .constraint)) := by
  decide

/-- Claim C4, counterexample: the claim includes the zero-edge case
`from = to`, promising a returned route that starts and ends at the node; on
both backends `path` returns `[]` there, because the start node is seeded
into the visited set and the target can only be "found" as a freshly
discovered neighbor.  Additionally, on a two-edge chain 1→2→3 with
`maxDepth = 1` (so no path exists within the claimed bound) the code returns
the three-node route instead of the empty list, since the traversal expands
`maxDepth + 1` rounds.  Finally, the in-memory `addEdge` never validates
endpoints, so the state with stored nodes 1 and 2 and edges 1→5 and 5→2
(node 5 absent) is reachable by public calls; there the traversal walks
1→5→2 but the node fetch silently drops the absent hop 5, and `path(1, 2, 4)`
returns the two-node route `[1, 2]` — edge count 1, though the true
shortest-hop distance is 2 and no route through stored nodes exists at
all. -/
theorem c4_counterexample :
    (let ls := LiteGraphStore.applyOp LiteGraphStore.init
                 (.upsertNode ⟨none, "A", some "a", none⟩)
     let ss := SqliteGraphStore.applyOp SqliteGraphStore.init
                 (.upsertNode ⟨none, "A", some "a", none⟩)
     ((LiteGraphStore.getNodeByLabel ls "A" (some "a")).map fun n => n.id) = some 1
      ∧ LiteGraphStore.path ls (.byId 1) (.byId 1) 4 = []
      ∧ ((SqliteGraphStore.getNodeByLabel ss "A" (some "a")).map fun n => n.id) = some 1
      ∧ SqliteGraphStore.path ss (.byId 1) (.byId 1) 4 = []
      ∧ (let ops : List GOp := [.upsertNode ⟨none, "n1", some "x", none⟩,
                                .upsertNode ⟨none, "n2", some "x", none⟩,
                                .upsertNode ⟨none, "n3", some "x", none⟩,
                                .addEdge 1 2 none none, .addEdge 2 3 none none]
         let cs := ops.foldl LiteGraphStore.applyOp LiteGraphStore.init
         ((LiteGraphStore.path cs (.byId 1) (.byId 3) 1).map fun n => n.id) = [1, 2, 3])
      ∧ (let ops2 : List GOp := [.upsertNode ⟨none, "n1", some "x", none⟩,
                                 .upsertNode ⟨none, "n2", some "x", none⟩,
                                 .addEdge 1 5 none none, .addEdge 5 2 none none]
         let ds := ops2.foldl LiteGraphStore.applyOp LiteGraphStore.init
         mget 5 ds.nodes = none
           ∧ bfsPathIds (LiteGraphStore.neighborIds ds) 1 2 4 = [1, 5, 2]
           ∧ ((LiteGraphStore.path ds (.byId 1) (.byId 2) 4).map fun n => n.id) = [1, 2])) := by
  decide

/-- Claim C5, counterexample: with a numeric start id that does not resolve
to an existing node, `neighbors` is not always empty on the in-memory
backend.  `addEdge` there never validates endpoints, so after
`addEdge({src: 2, dst: 1})` in a store whose only node is 1, the call
`neighbors(2, 1, 50)` returns node 1 even though node 2 does not exist. -/
theorem c5_counterexample :
    (let ops : List GOp := [.upsertNode ⟨none, "A", some "a", none⟩,
                            .addEdge 2 1 none none]
     let ls := ops.foldl LiteGraphStore.applyOp LiteGraphStore.init
     mget 2 ls.nodes = none
      ∧ ((LiteGraphStore.neighbors ls (.byId 2) 1 50).map fun n => n.label) = ["A"]) := by
  decide

/-- Claim C7, counterexample: the dedup path of `upsertNode` does not merge
`props` — it replaces them wholesale on both backends.  A node stored with
props `{a: 1}` and re-upserted (same `(label, type)`, no id) with props
`{b: 2}` ends up with exactly `{b: 2}`: the `a` entry the claim requires to
be retained is gone. -/
theorem c7_counterexample :
    (let l2 := [GOp.upsertNode ⟨none, "A", some "a", some [("a", "1")]⟩,
                GOp.upsertNode ⟨none, "A", some "a", some [("b", "2")]⟩].foldl
                 LiteGraphStore.applyOp LiteGraphStore.init
     let s2 := [GOp.upsertNode ⟨none, "A", some "a", some [("a", "1")]⟩,
                GOp.upsertNode ⟨none, "A", some "a", some [("b", "2")]⟩].foldl
                 SqliteGraphStore.applyOp SqliteGraphStore.init
     ((mget 1 l2.nodes).map fun n => n.props) = some [("b", "2")]
      ∧ ((SqliteGraphStore.getNodeByLabel s2 "A" (some "a")).map fun n => n.props)
          = some [("b", "2")]) := by
  decide


/-! ## Predecessor-chain lemmas -/

theorem length_le_length_mset {α β : Type} [DecidableEq α] (k : α) (v : β)
    (m : List (α × β)) : m.length ≤ (mset k v m).length := by
  cases h : mget k m with
  | none => rw [length_mset_of_mget_none k v m h]; omega
  | some w =>
    rw [length_mset_of_mget_isSome k v m (by rw [h]; rfl)]

/-- A predecessor chain of length `n` ends within the radius-`n` ball. -/
theorem PChain.ball_of {adj : Nat → List Nat} {prev : List (Nat × Option Nat)}
    {s x n : Nat} (h : PChain adj prev s x n) : x ∈ ball adj s n := by
  induction h with
  | root _ => exact self_mem_ball adj s 0
  | step hmem hadj _ ih => exact adj_mem_ball ih hadj

/-- Chains persist when the predecessor map only gains entries. -/
theorem PChain.mono_prev {adj : Nat → List Nat} {prev prev' : List (Nat × Option Nat)}
    {s x n : Nat}
    (hst : ∀ y o, mget y prev = some o → mget y prev' = some o)
    (h : PChain adj prev s x n) : PChain adj prev' s x n := by
  induction h with
  | root hroot => exact PChain.root (hst s none hroot)
  | step hmem hadj _ ih => exact PChain.step (hst _ _ hmem) hadj ih

theorem getLast?_cons_of_getLast? {x y : Nat} {l : List Nat} (h : l.getLast? = some y) :
    (x :: l).getLast? = some y := by
  cases l with
  | nil => cases h
  | cons a l => rw [List.getLast?_cons_cons]; exact h

/-- The reconstruction loop follows a predecessor chain exactly: with enough
fuel it produces the chain from the target back to the root. -/
theorem walkPrev_spec {adj : Nat → List Nat} {prev : List (Nat × Option Nat)} {s x n : Nat}
    (h : PChain adj prev s x n) :
    ∀ fuel, n ≤ fuel →
      (walkPrev prev fuel x).length = n + 1
        ∧ (walkPrev prev fuel x).head? = some x
        ∧ (walkPrev prev fuel x).getLast? = some s
        ∧ List.Chain' (fun a b => a ∈ adj b) (walkPrev prev fuel x) := by
  induction h with
  | root hroot =>
    intro fuel _
    cases fuel with
    | zero => simp [walkPrev]
    | succ f => simp [walkPrev, hroot]
  | step hmem hadj hch ih =>
    rename_i x' p n'
    intro fuel hfuel
    cases fuel with
    | zero => omega
    | succ f =>
      have hf : n' ≤ f := by omega
      obtain ⟨ihlen, ihhead, ihlast, ihchain⟩ := ih f hf
      have hwalk : walkPrev prev (f + 1) x' = x' :: walkPrev prev f p := by
        simp [walkPrev, hmem]
      rw [hwalk]
      have hne : walkPrev prev f p ≠ [] := by
        intro hcon
        rw [hcon] at ihlen
        simp at ihlen
      refine ⟨by simp [ihlen], by simp, getLast?_cons_of_getLast? ihlast, ?_⟩
      rw [List.chain'_cons']
      constructor
      · intro b hb
        rw [ihhead] at hb
        cases hb
        exact hadj
      · exact ihchain


/-! ## `path` traversal: scan invariant -/

theorem isSome_false_eq_none {α : Type} {o : Option α} (h : ¬ o.isSome = true) : o = none := by
  cases o with
  | none => rfl
  | some v => simp at h

theorem bfsPathScan_inv (adj : Nat → List Nat) (s toId r srcId : Nat) :
    ∀ (dsts visited next : List Nat) (prev : List (Nat × Option Nat)),
      (∀ x ∈ dsts, x ∈ adj srcId) →
      srcId ∈ ball adj s r →
      PChain adj prev s srcId r →
      PathMidInv adj s r visited prev →
      toId ∉ visited →
      (PathMidInv adj s r (bfsPathScan toId srcId dsts visited next prev).1
          (bfsPathScan toId srcId dsts visited next prev).2.2.1
        ∧ (∀ x ∈ visited, x ∈ (bfsPathScan toId srcId dsts visited next prev).1)
        ∧ (∀ y o, mget y prev = some o →
            mget y (bfsPathScan toId srcId dsts visited next prev).2.2.1 = some o)
        ∧ (∀ x, x ∈ (bfsPathScan toId srcId dsts visited next prev).2.1 ↔
            (x ∈ next ∨ (x ∈ (bfsPathScan toId srcId dsts visited next prev).1 ∧ x ∉ visited)))
        ∧ prev.length ≤ (bfsPathScan toId srcId dsts visited next prev).2.2.1.length
        ∧ ((bfsPathScan toId srcId dsts visited next prev).2.1 = next
            ∨ prev.length < (bfsPathScan toId srcId dsts visited next prev).2.2.1.length)
        ∧ ((bfsPathScan toId srcId dsts visited next prev).2.2.2 = false →
            ((∀ x ∈ dsts, x ∈ (bfsPathScan toId srcId dsts visited next prev).1)
              ∧ toId ∉ (bfsPathScan toId srcId dsts visited next prev).1))
        ∧ ((bfsPathScan toId srcId dsts visited next prev).2.2.2 = true →
            (toId ∈ (bfsPathScan toId srcId dsts visited next prev).1
              ∧ PChain adj (bfsPathScan toId srcId dsts visited next prev).2.2.1 s toId (r + 1)
              ∧ prev.length < (bfsPathScan toId srcId dsts visited next prev).2.2.1.length))) := by
  intro dsts
  induction dsts with
  | nil =>
    intro visited next prev hdsts hsrcball hsrcchain hmid htoId
    have heq : bfsPathScan toId srcId [] visited next prev = (visited, next, prev, false) := rfl
    rw [heq]
    exact ⟨hmid, fun x hx => hx, fun y o h => h,
      fun x => ⟨fun hx => Or.inl hx, fun hx => by
        rcases hx with hx | ⟨_, hx2⟩
        · exact hx
        · exact absurd ‹x ∈ visited› hx2⟩,
      Nat.le_refl _, Or.inl rfl,
      fun _ => ⟨fun x hx => absurd hx (List.not_mem_nil x), htoId⟩,
      fun h => by cases h⟩
  | cons dst rest ih =>
    intro visited next prev hdsts hsrcball hsrcchain hmid htoId
    obtain ⟨hball_sub, hsub_ball, hkeys, hroot, hchains⟩ := hmid
    have heq : bfsPathScan toId srcId (dst :: rest) visited next prev
        = if dst ∈ visited then bfsPathScan toId srcId rest visited next prev
          else if dst = toId then
            (dst :: visited, next ++ [dst],
              (if (mget dst prev).isSome then prev else mset dst (some srcId) prev), true)
          else bfsPathScan toId srcId rest (dst :: visited) (next ++ [dst])
            (if (mget dst prev).isSome then prev else mset dst (some srcId) prev) := rfl
    by_cases hvis : dst ∈ visited
    · rw [heq, if_pos hvis]
      have hrec := ih visited next prev (fun x hx => hdsts x (List.mem_cons_of_mem _ hx))
        hsrcball hsrcchain ⟨hball_sub, hsub_ball, hkeys, hroot, hchains⟩ htoId
      obtain ⟨h1, h2, h3, h4, h5, h6, h7, h8⟩ := hrec
      refine ⟨h1, h2, h3, h4, h5, h6, ?_, h8⟩
      intro hfalse
      obtain ⟨ha, hb⟩ := h7 hfalse
      refine ⟨fun x hx => ?_, hb⟩
      rcases List.mem_cons.mp hx with hx | hx
      · rw [hx]
        exact h2 dst hvis
      · exact ha x hx
    · -- fresh discovery
      have hprevnone : mget dst prev = none :=
        isSome_false_eq_none (fun hcon => hvis ((hkeys dst).mp hcon))
      have hprevfresh : ¬ (mget dst prev).isSome = true := by
        rw [hprevnone]; simp
      have hprev' : (if (mget dst prev).isSome then prev else mset dst (some srcId) prev)
          = mset dst (some srcId) prev := if_neg hprevfresh
      have hdstadj : dst ∈ adj srcId := hdsts dst (List.mem_cons_self _ _)
      have hdstball : dst ∈ ball adj s (r + 1) := adj_mem_ball hsrcball hdstadj
      have hsvis : s ∈ visited := hball_sub s (self_mem_ball adj s r)
      have hdstnes : dst ≠ s := fun hcon => hvis (hcon ▸ hsvis)
      have hstab : ∀ y o, mget y prev = some o →
          mget y (mset dst (some srcId) prev) = some o := by
        intro y o hy
        by_cases hyd : dst = y
        · rw [← hyd, hprevnone] at hy
          cases hy
        · rw [mget_mset_ne dst y _ prev hyd]
          exact hy
      have hkeys' : ∀ x, (mget x (mset dst (some srcId) prev)).isSome ↔ x ∈ dst :: visited := by
        intro x
        by_cases hxd : dst = x
        · subst hxd
          rw [mget_mset_self]
          simp
        · rw [mget_mset_ne dst x _ prev hxd, hkeys x]
          constructor
          · exact fun h => List.mem_cons_of_mem _ h
          · intro h
            rcases List.mem_cons.mp h with h | h
            · exact absurd h.symm hxd
            · exact h
      have hroot' : mget s (mset dst (some srcId) prev) = some none := by
        rw [mget_mset_ne dst s _ prev hdstnes]
        exact hroot
      have hchainsrc' : PChain adj (mset dst (some srcId) prev) s srcId r :=
        hsrcchain.mono_prev hstab
      have hchaindst : PChain adj (mset dst (some srcId) prev) s dst (r + 1) :=
        PChain.step (mget_mset_self dst (some srcId) prev) hdstadj hchainsrc'
      have hmid' : PathMidInv adj s r (dst :: visited) (mset dst (some srcId) prev) := by
        refine ⟨fun x hx => List.mem_cons_of_mem _ (hball_sub x hx), ?_, hkeys', hroot', ?_⟩
        · intro x hx
          rcases List.mem_cons.mp hx with hx | hx
          · rw [hx]
            exact hdstball
          · exact hsub_ball x hx
        · intro x hx
          rcases List.mem_cons.mp hx with hx | hx
          · exact ⟨r + 1, Nat.le_refl _, by rw [hx]; exact hchaindst⟩
          · obtain ⟨n, hn, hc⟩ := hchains x hx
            exact ⟨n, hn, hc.mono_prev hstab⟩
      have hlenlt : prev.length < (mset dst (some srcId) prev).length := by
        rw [length_mset_of_mget_none dst (some srcId) prev hprevnone]
        omega
      by_cases hdt : dst = toId
      · -- target found: stop immediately
        rw [heq, if_neg hvis, if_pos hdt, hprev']
        refine ⟨hmid', fun x hx => List.mem_cons_of_mem _ hx, hstab, ?_,
          Nat.le_of_lt hlenlt, Or.inr hlenlt, ?_, ?_⟩
        · intro x
          constructor
          · intro hx
            rcases List.mem_append.mp hx with hx | hx
            · exact Or.inl hx
            · rw [List.mem_singleton] at hx
              refine Or.inr ⟨?_, ?_⟩
              · rw [hx]; exact List.mem_cons_self _ _
              · rw [hx]; exact hvis
          · intro hx
            rcases hx with hx | ⟨hx1, hx2⟩
            · exact List.mem_append.mpr (Or.inl hx)
            · rcases List.mem_cons.mp hx1 with hx1 | hx1
              · exact List.mem_append.mpr (Or.inr (List.mem_singleton.mpr hx1))
              · exact absurd hx1 hx2
        · intro h
          exact absurd h (by simp)
        · intro _
          refine ⟨List.mem_cons.mpr (Or.inl hdt.symm), ?_, hlenlt⟩
          rw [← hdt]
          exact hchaindst
      · -- continue scanning
        rw [heq, if_neg hvis, if_neg hdt, hprev']
        have htoId' : toId ∉ dst :: visited := by
          intro hcon
          rcases List.mem_cons.mp hcon with hcon | hcon
          · exact hdt hcon.symm
          · exact htoId hcon
        have hrec := ih (dst :: visited) (next ++ [dst]) (mset dst (some srcId) prev)
          (fun x hx => hdsts x (List.mem_cons_of_mem _ hx))
          hsrcball hchainsrc' hmid' htoId'
        obtain ⟨h1, h2, h3, h4, h5, h6, h7, h8⟩ := hrec
        refine ⟨h1, fun x hx => h2 x (List.mem_cons_of_mem _ hx),
          fun y o hy => h3 y o (hstab y o hy), ?_,
          Nat.le_trans (Nat.le_of_lt hlenlt) h5,
          Or.inr (Nat.lt_of_lt_of_le hlenlt h5), ?_, ?_⟩
        · intro x
          rw [h4 x]
          constructor
          · intro hx
            rcases hx with hx | ⟨hx1, hx2⟩
            · rcases List.mem_append.mp hx with hx | hx
              · exact Or.inl hx
              · rw [List.mem_singleton] at hx
                subst hx
                exact Or.inr ⟨h2 x (List.mem_cons_self _ _), hvis⟩
            · exact Or.inr ⟨hx1, fun hcon => hx2 (List.mem_cons_of_mem _ hcon)⟩
          · intro hx
            rcases hx with hx | ⟨hx1, hx2⟩
            · exact Or.inl (List.mem_append.mpr (Or.inl hx))
            · by_cases hxv : x ∈ dst :: visited
              · rcases List.mem_cons.mp hxv with hxv | hxv
                · exact Or.inl (List.mem_append.mpr (Or.inr (List.mem_singleton.mpr hxv)))
                · exact absurd hxv hx2
              · exact Or.inr ⟨hx1, hxv⟩
        · intro hfalse
          obtain ⟨ha, hb⟩ := h7 hfalse
          refine ⟨fun x hx => ?_, hb⟩
          rcases List.mem_cons.mp hx with hx | hx
          · rw [hx]
            exact h2 dst (List.mem_cons_self _ _)
          · exact ha x hx
        · intro htrue
          obtain ⟨ha, hb, hc⟩ := h8 htrue
          exact ⟨ha, hb, Nat.lt_trans hlenlt hc⟩


theorem bfsPathStep_inv (adj : Nat → List Nat) (s toId r : Nat) :
    ∀ (ids visited next : List Nat) (prev : List (Nat × Option Nat)),
      (∀ id ∈ ids, id ∈ ball adj s r ∧ PChain adj prev s id r) →
      PathMidInv adj s r visited prev →
      toId ∉ visited →
      (PathMidInv adj s r (bfsPathStep adj toId ids visited next prev).1
          (bfsPathStep adj toId ids visited next prev).2.2.1
        ∧ (∀ x ∈ visited, x ∈ (bfsPathStep adj toId ids visited next prev).1)
        ∧ (∀ y o, mget y prev = some o →
            mget y (bfsPathStep adj toId ids visited next prev).2.2.1 = some o)
        ∧ (∀ x, x ∈ (bfsPathStep adj toId ids visited next prev).2.1 ↔
            (x ∈ next ∨ (x ∈ (bfsPathStep adj toId ids visited next prev).1 ∧ x ∉ visited)))
        ∧ prev.length ≤ (bfsPathStep adj toId ids visited next prev).2.2.1.length
        ∧ ((bfsPathStep adj toId ids visited next prev).2.1 = next
            ∨ prev.length < (bfsPathStep adj toId ids visited next prev).2.2.1.length)
        ∧ ((bfsPathStep adj toId ids visited next prev).2.2.2 = false →
            ((∀ id ∈ ids, ∀ x ∈ adj id, x ∈ (bfsPathStep adj toId ids visited next prev).1)
              ∧ toId ∉ (bfsPathStep adj toId ids visited next prev).1))
        ∧ ((bfsPathStep adj toId ids visited next prev).2.2.2 = true →
            (toId ∈ (bfsPathStep adj toId ids visited next prev).1
              ∧ PChain adj (bfsPathStep adj toId ids visited next prev).2.2.1 s toId (r + 1)
              ∧ prev.length < (bfsPathStep adj toId ids visited next prev).2.2.1.length))) := by
  intro ids
  induction ids with
  | nil =>
    intro visited next prev hids hmid htoId
    have heq : bfsPathStep adj toId [] visited next prev = (visited, next, prev, false) := rfl
    rw [heq]
    exact ⟨hmid, fun x hx => hx, fun y o h => h,
      fun x => ⟨fun hx => Or.inl hx, fun hx => by
        rcases hx with hx | ⟨_, hx2⟩
        · exact hx
        · exact absurd ‹x ∈ visited› hx2⟩,
      Nat.le_refl _, Or.inl rfl,
      fun _ => ⟨fun id hid => absurd hid (List.not_mem_nil id), htoId⟩,
      fun h => by cases h⟩
  | cons id rest ih =>
    intro visited next prev hids hmid htoId
    obtain ⟨hidball, hidchain⟩ := hids id (List.mem_cons_self _ _)
    have hscan := bfsPathScan_inv adj s toId r id (adj id) visited next prev
      (fun x hx => hx) hidball hidchain hmid htoId
    rcases hsc : bfsPathScan toId id (adj id) visited next prev with ⟨v1, n1, p1, stop1⟩
    rw [hsc] at hscan
    obtain ⟨s1, s2, s3, s4, s5, s6, s7, s8⟩ := hscan
    have heq : bfsPathStep adj toId (id :: rest) visited next prev
        = match bfsPathScan toId id (adj id) visited next prev with
          | (v, n, p, true) => (v, n, p, true)
          | (v, n, p, false) => bfsPathStep adj toId rest v n p := rfl
    cases stop1 with
    | true =>
      obtain ⟨t1, t2, t3⟩ := s8 rfl
      have hstep_eq : bfsPathStep adj toId (id :: rest) visited next prev
          = (v1, n1, p1, true) := by rw [heq, hsc]
      rw [hstep_eq]
      refine ⟨s1, s2, s3, s4, s5, s6, ?_, ?_⟩
      · intro h
        exact absurd h (by simp)
      · intro _
        exact ⟨t1, t2, t3⟩
    | false =>
      obtain ⟨scov, stoId⟩ := s7 rfl
      have hstep_eq : bfsPathStep adj toId (id :: rest) visited next prev
          = bfsPathStep adj toId rest v1 n1 p1 := by rw [heq, hsc]
      rw [hstep_eq]
      have hrest : ∀ j ∈ rest, j ∈ ball adj s r ∧ PChain adj p1 s j r := by
        intro j hj
        obtain ⟨hb, hc⟩ := hids j (List.mem_cons_of_mem _ hj)
        exact ⟨hb, hc.mono_prev s3⟩
      have hrec := ih v1 n1 p1 hrest s1 stoId
      obtain ⟨r1, r2, r3, r4, r5, r6, r7, r8⟩ := hrec
      refine ⟨r1, fun x hx => r2 x (s2 x hx), fun y o hy => r3 y o (s3 y o hy), ?_,
        Nat.le_trans s5 r5, ?_, ?_, ?_⟩
      · intro x
        rw [r4 x]
        constructor
        · intro hx
          rcases hx with hx | ⟨hx1, hx2⟩
          · rcases (s4 x).mp hx with hx | ⟨hx1, hx2⟩
            · exact Or.inl hx
            · exact Or.inr ⟨r2 x hx1, hx2⟩
          · exact Or.inr ⟨hx1, fun hcon => hx2 (s2 x hcon)⟩
        · intro hx
          rcases hx with hx | ⟨hx1, hx2⟩
          · exact Or.inl ((s4 x).mpr (Or.inl hx))
          · by_cases hxv : x ∈ v1
            · exact Or.inl ((s4 x).mpr (Or.inr ⟨hxv, hx2⟩))
            · exact Or.inr ⟨hx1, hxv⟩
      · rcases s6 with s6 | s6
        · rcases r6 with r6 | r6
          · exact Or.inl (r6.trans s6)
          · exact Or.inr (Nat.lt_of_le_of_lt s5 r6)
        · exact Or.inr (Nat.lt_of_lt_of_le s6 r5)
      · intro hfalse
        obtain ⟨rcov, rtoId⟩ := r7 hfalse
        refine ⟨fun j hj x hx => ?_, rtoId⟩
        rcases List.mem_cons.mp hj with hj | hj
        · rw [hj] at hx
          exact r2 x (scov x hx)
        · exact rcov j hj x hx
      · intro htrue
        obtain ⟨t1, t2, t3⟩ := r8 htrue
        exact ⟨t1, t2, Nat.lt_of_le_of_lt s5 t3⟩


theorem bfsPathRounds_nil (adj : Nat → List Nat) (toId d : Nat) (v : List Nat)
    (p : List (Nat × Option Nat)) : bfsPathRounds adj toId d [] v p = (p, false) := by
  cases d <;> rfl

theorem bfsPathRounds_spec (adj : Nat → List Nat) (s toId : Nat) :
    ∀ (d r : Nat) (frontier visited : List Nat) (prev : List (Nat × Option Nat)),
      PathRoundInv adj s r frontier visited prev →
      toId ∉ visited →
      (((bfsPathRounds adj toId d frontier visited prev).2 = true →
          ∃ k, r < k ∧ k ≤ r + d ∧ toId ∈ ball adj s k ∧ (∀ m, m < k → toId ∉ ball adj s m)
            ∧ PChain adj (bfsPathRounds adj toId d frontier visited prev).1 s toId k
            ∧ k < (bfsPathRounds adj toId d frontier visited prev).1.length)
        ∧ ((bfsPathRounds adj toId d frontier visited prev).2 = false →
            toId ∉ ball adj s (r + d))) := by
  intro d
  induction d with
  | zero =>
    intro r frontier visited prev hinv htoId
    obtain ⟨hvisiff, _, _, _, _, _⟩ := hinv
    have heq : bfsPathRounds adj toId 0 frontier visited prev = (prev, false) := rfl
    rw [heq]
    refine ⟨fun h => absurd h (by simp), fun _ => ?_⟩
    rw [Nat.add_zero]
    exact fun hcon => htoId ((hvisiff toId).mpr hcon)
  | succ d ih =>
    intro r frontier visited prev hinv htoId
    obtain ⟨hvisiff, hfriff, hkeys, hroot, hchains, hlen⟩ := hinv
    have heq : bfsPathRounds adj toId (d + 1) frontier visited prev
        = if frontier.isEmpty then (prev, false)
          else match bfsPathStep adj toId frontier visited [] prev with
            | (_, _, p, true) => (p, true)
            | (v, n, p, false) => bfsPathRounds adj toId d n v p := rfl
    have htoIdball : toId ∉ ball adj s r := fun hcon => htoId ((hvisiff toId).mpr hcon)
    by_cases hemp : frontier.isEmpty
    · have hre : bfsPathRounds adj toId (d + 1) frontier visited prev = (prev, false) := by
        rw [heq, if_pos hemp]
      rw [hre]
      refine ⟨fun h => absurd h (by simp), fun _ => ?_⟩
      have hfrnil : frontier = [] := List.isEmpty_iff.mp hemp
      have hsph : ∀ x, x ∈ ball adj s r → ∃ m, m < r ∧ x ∈ ball adj s m := by
        intro x hx
        by_contra hcon
        push_neg at hcon
        have : x ∈ frontier := (hfriff x).mpr ⟨hx, fun m hm hxm => (hcon m hm) hxm⟩
        rw [hfrnil] at this
        exact List.not_mem_nil x this
      intro hcon
      exact htoIdball (ball_stable_of_no_sphere hsph (d + 1) toId hcon)
    · -- run one full round
      have hmid : PathMidInv adj s r visited prev :=
        ⟨fun x hx => (hvisiff x).mpr hx,
         fun x hx => ball_mono_succ ((hvisiff x).mp hx),
         hkeys, hroot,
         fun x hx => by
          obtain ⟨n, hn, hc⟩ := hchains x hx
          exact ⟨n, Nat.le_succ_of_le hn, hc⟩⟩
      have hids : ∀ id ∈ frontier, id ∈ ball adj s r ∧ PChain adj prev s id r := by
        intro id hid
        obtain ⟨hb, hnb⟩ := (hfriff id).mp hid
        obtain ⟨n, hn, hc⟩ := hchains id ((hvisiff id).mpr hb)
        have hnr : n = r := by
          by_contra hne
          have hlt : n < r := by omega
          exact (hnb n hlt) hc.ball_of
        rw [hnr] at hc
        exact ⟨hb, hc⟩
      have hstep := bfsPathStep_inv adj s toId r frontier visited [] prev hids hmid htoId
      rcases hst : bfsPathStep adj toId frontier visited [] prev with ⟨v, n2, p, stop⟩
      rw [hst] at hstep
      obtain ⟨s1, s2, s3, s4, s5, s6, s7, s8⟩ := hstep
      obtain ⟨m1, m2, m3, m4, m5⟩ := s1
      cases stop with
      | true =>
        obtain ⟨t1, t2, t3⟩ := s8 rfl
        have hre : bfsPathRounds adj toId (d + 1) frontier visited prev = (p, true) := by
          rw [heq, if_neg hemp, hst]
        rw [hre]
        have t3' : prev.length < p.length := t3
        refine ⟨fun _ => ⟨r + 1, Nat.lt_succ_self r, by omega, t2.ball_of, ?_, t2, ?_⟩,
          fun h => absurd h (by simp)⟩
        · intro m hm hcon
          have hmr : m ≤ r := by omega
          exact htoIdball (ball_mono hmr hcon)
        · show r + 1 < p.length
          omega
      | false =>
        obtain ⟨scov, stoId⟩ := s7 rfl
        have hre : bfsPathRounds adj toId (d + 1) frontier visited prev
            = bfsPathRounds adj toId d n2 v p := by
          rw [heq, if_neg hemp, hst]
        rw [hre]
        -- the new visited set is exactly the radius-(r+1) ball
        have hviff' : ∀ x, x ∈ v ↔ x ∈ ball adj s (r + 1) := by
          intro x
          constructor
          · exact fun hx => m2 x hx
          · intro hx
            rcases mem_ball_succ.mp hx with hx | ⟨y, hy, hxy⟩
            · exact s2 x ((hvisiff x).mpr hx)
            · by_cases hymin : ∃ m, m < r ∧ y ∈ ball adj s m
              · obtain ⟨m, hm, hym⟩ := hymin
                have : x ∈ ball adj s r := ball_mono (by omega) (adj_mem_ball hym hxy)
                exact s2 x ((hvisiff x).mpr this)
              · push_neg at hymin
                exact scov y ((hfriff y).mpr ⟨hy, hymin⟩) x hxy
        have hniff : ∀ x, x ∈ n2 ↔ (x ∈ v ∧ x ∉ visited) := by
          intro x
          rw [s4 x]
          constructor
          · intro hx
            rcases hx with hx | hx
            · cases hx
            · exact hx
          · exact fun hx => Or.inr hx
        by_cases hn2 : n2 = []
        · -- no new frontier: the traversal is finished and the target is unreachable
          rw [hn2, bfsPathRounds_nil]
          refine ⟨fun h => absurd h (by simp), fun _ => ?_⟩
          have hsph : ∀ x, x ∈ ball adj s (r + 1) → ∃ m, m < r + 1 ∧ x ∈ ball adj s m := by
            intro x hx
            by_cases hxv : x ∈ visited
            · exact ⟨r, Nat.lt_succ_self r, (hvisiff x).mp hxv⟩
            · exfalso
              have : x ∈ n2 := (hniff x).mpr ⟨(hviff' x).mpr hx, hxv⟩
              rw [hn2] at this
              exact List.not_mem_nil x this
          intro hcon
          have harith : r + (d + 1) = (r + 1) + d := by omega
          rw [harith] at hcon
          have : toId ∈ ball adj s (r + 1) := ball_stable_of_no_sphere hsph d toId hcon
          exact stoId ((hviff' toId).mpr this)
        · -- a fresh node was discovered, so the predecessor map strictly grew
          have hplen : r + 1 < p.length := by
            rcases s6 with s6 | s6
            · exact absurd s6 hn2
            · have s6' : prev.length < p.length := s6
              omega
          have hinv' : PathRoundInv adj s (r + 1) n2 v p := by
            refine ⟨hviff', ?_, m3, m4, ?_, hplen⟩
            · intro x
              rw [hniff x]
              constructor
              · intro ⟨hxv, hxvis⟩
                refine ⟨(hviff' x).mp hxv, ?_⟩
                intro m hm hxm
                have hmr : m ≤ r := by omega
                exact hxvis ((hvisiff x).mpr (ball_mono hmr hxm))
              · intro ⟨hxb, hxm⟩
                refine ⟨(hviff' x).mpr hxb, ?_⟩
                intro hcon
                exact (hxm r (Nat.lt_succ_self r)) ((hvisiff x).mp hcon)
            · exact m5
          have hrec := ih (r + 1) n2 v p hinv' stoId
          obtain ⟨rt, rf⟩ := hrec
          refine ⟨?_, ?_⟩
          · intro h
            obtain ⟨k, hk1, hk2, hk3, hk4, hk5, hk6⟩ := rt h
            exact ⟨k, by omega, by omega, hk3, hk4, hk5, hk6⟩
          · intro h
            have := rf h
            have harith : r + 1 + d = r + (d + 1) := by omega
            rw [harith] at this
            exact this


/-- When the target is already visited (in particular when it equals the
start), no scan ever reports it found: only freshly discovered nodes are
compared against the target. -/
theorem bfsPathScan_no_stop (toId srcId : Nat) :
    ∀ (dsts visited next : List Nat) (prev : List (Nat × Option Nat)),
      toId ∈ visited →
      ((bfsPathScan toId srcId dsts visited next prev).2.2.2 = false
        ∧ toId ∈ (bfsPathScan toId srcId dsts visited next prev).1) := by
  intro dsts
  induction dsts with
  | nil =>
    intro visited next prev htoId
    exact ⟨rfl, htoId⟩
  | cons dst rest ih =>
    intro visited next prev htoId
    have heq : bfsPathScan toId srcId (dst :: rest) visited next prev
        = if dst ∈ visited then bfsPathScan toId srcId rest visited next prev
          else if dst = toId then
            (dst :: visited, next ++ [dst],
              (if (mget dst prev).isSome then prev else mset dst (some srcId) prev), true)
          else bfsPathScan toId srcId rest (dst :: visited) (next ++ [dst])
            (if (mget dst prev).isSome then prev else mset dst (some srcId) prev) := rfl
    by_cases hvis : dst ∈ visited
    · rw [heq, if_pos hvis]
      exact ih visited next prev htoId
    · have hdt : dst ≠ toId := fun hcon => hvis (hcon ▸ htoId)
      rw [heq, if_neg hvis, if_neg hdt]
      exact ih (dst :: visited) (next ++ [dst]) _ (List.mem_cons_of_mem _ htoId)

theorem bfsPathStep_no_stop (adj : Nat → List Nat) (toId : Nat) :
    ∀ (ids visited next : List Nat) (prev : List (Nat × Option Nat)),
      toId ∈ visited →
      ((bfsPathStep adj toId ids visited next prev).2.2.2 = false
        ∧ toId ∈ (bfsPathStep adj toId ids visited next prev).1) := by
  intro ids
  induction ids with
  | nil =>
    intro visited next prev htoId
    exact ⟨rfl, htoId⟩
  | cons id rest ih =>
    intro visited next prev htoId
    obtain ⟨h1, h2⟩ := bfsPathScan_no_stop toId id (adj id) visited next prev htoId
    rcases hsc : bfsPathScan toId id (adj id) visited next prev with ⟨v, n2, p, stop⟩
    rw [hsc] at h1 h2
    have hstop : stop = false := h1
    subst hstop
    have heq : bfsPathStep adj toId (id :: rest) visited next prev
        = bfsPathStep adj toId rest v n2 p := by
      show (match bfsPathScan toId id (adj id) visited next prev with
            | (v, n, p, true) => (v, n, p, true)
            | (v, n, p, false) => bfsPathStep adj toId rest v n p)
          = bfsPathStep adj toId rest v n2 p
      rw [hsc]
    rw [heq]
    exact ih v n2 p h2

theorem bfsPathRounds_no_found (adj : Nat → List Nat) (toId : Nat) :
    ∀ (d : Nat) (frontier visited : List Nat) (prev : List (Nat × Option Nat)),
      toId ∈ visited →
      (bfsPathRounds adj toId d frontier visited prev).2 = false := by
  intro d
  induction d with
  | zero => intro frontier visited prev _; rfl
  | succ d ih =>
    intro frontier visited prev htoId
    by_cases hemp : frontier.isEmpty
    · show (if frontier.isEmpty then (prev, false)
            else match bfsPathStep adj toId frontier visited [] prev with
              | (_, _, p, true) => (p, true)
              | (v, n, p, false) => bfsPathRounds adj toId d n v p).2 = false
      rw [if_pos hemp]
    · obtain ⟨h1, h2⟩ := bfsPathStep_no_stop adj toId frontier visited [] prev htoId
      rcases hst : bfsPathStep adj toId frontier visited [] prev with ⟨v, n2, p, stop⟩
      rw [hst] at h1 h2
      have hstop : stop = false := h1
      subst hstop
      have heq : bfsPathRounds adj toId (d + 1) frontier visited prev
          = bfsPathRounds adj toId d n2 v p := by
        show (if frontier.isEmpty then (prev, false)
              else match bfsPathStep adj toId frontier visited [] prev with
                | (_, _, p, true) => (p, true)
                | (v, n, p, false) => bfsPathRounds adj toId d n v p)
            = bfsPathRounds adj toId d n2 v p
        rw [if_neg hemp, hst]
      rw [heq]
      exact ih n2 v p h2

/-- Full behaviour of `bfsPath` at the id level: an equal-endpoints query and
an out-of-range target give the empty route; otherwise the returned route
runs from the start to the target along edges and its edge count is the
exact shortest-hop distance `k` (which is at most `maxDepth + 1`, one more
round than the nominal bound, as the traversal runs `maxDepth + 1` rounds). -/
theorem bfsPathIds_spec (adj : Nat → List Nat) (s t maxDepth : Nat) :
    (t = s → bfsPathIds adj s t maxDepth = [])
      ∧ (t ∉ ball adj s (maxDepth + 1) → bfsPathIds adj s t maxDepth = [])
      ∧ (t ≠ s → t ∈ ball adj s (maxDepth + 1) →
          ∃ k, 1 ≤ k ∧ k ≤ maxDepth + 1 ∧ t ∈ ball adj s k
            ∧ (∀ m, m < k → t ∉ ball adj s m)
            ∧ (bfsPathIds adj s t maxDepth).length = k + 1
            ∧ (bfsPathIds adj s t maxDepth).head? = some s
            ∧ (bfsPathIds adj s t maxDepth).getLast? = some t
            ∧ List.Chain' (fun a b => b ∈ adj a) (bfsPathIds adj s t maxDepth)) := by
  have hinv0 : PathRoundInv adj s 0 [s] [s] [(s, none)] := by
    refine ⟨?_, ?_, ?_, ?_, ?_, ?_⟩
    · intro x
      simp [ball]
    · intro x
      simp [ball]
    · intro x
      by_cases hx : s = x
      · subst hx
        simp [mget]
      · simp [mget, hx]
        intro hcon
        exact absurd hcon.symm hx
    · simp [mget]
    · intro x hx
      rw [List.mem_singleton] at hx
      subst hx
      exact ⟨0, Nat.le_refl 0, PChain.root (by simp [mget])⟩
    · simp
  refine ⟨?_, ?_, ?_⟩
  · intro hts
    subst hts
    have hnf := bfsPathRounds_no_found adj t (maxDepth + 1) [t] [t] [(t, none)]
      (List.mem_singleton.mpr rfl)
    show (match bfsPathRounds adj t (maxDepth + 1) [t] [t] [(t, none)] with
          | (_, false) => []
          | (prev, true) => (walkPrev prev (prev.length + 1) t).reverse) = []
    rcases hr : bfsPathRounds adj t (maxDepth + 1) [t] [t] [(t, none)] with ⟨p, found⟩
    rw [hr] at hnf
    have : found = false := hnf
    subst this
    rfl
  · intro hout
    have hts : t ≠ s := fun hcon => hout (hcon ▸ self_mem_ball adj s (maxDepth + 1))
    have htm : t ∉ [s] := by
      rw [List.mem_singleton]
      exact hts
    obtain ⟨hfound, hnotfound⟩ :=
      bfsPathRounds_spec adj s t (maxDepth + 1) 0 [s] [s] [(s, none)] hinv0 htm
    show (match bfsPathRounds adj t (maxDepth + 1) [s] [s] [(s, none)] with
          | (_, false) => []
          | (prev, true) => (walkPrev prev (prev.length + 1) t).reverse) = []
    rcases hr : bfsPathRounds adj t (maxDepth + 1) [s] [s] [(s, none)] with ⟨p, found⟩
    rw [hr] at hfound
    cases found with
    | false => rfl
    | true =>
      obtain ⟨k, _, hk2, hk3, _, _, _⟩ := hfound rfl
      exact absurd (ball_mono (by omega) hk3) hout
  · intro hts hin
    have htm : t ∉ [s] := by
      rw [List.mem_singleton]
      exact hts
    obtain ⟨hfound, hnotfound⟩ :=
      bfsPathRounds_spec adj s t (maxDepth + 1) 0 [s] [s] [(s, none)] hinv0 htm
    rcases hr : bfsPathRounds adj t (maxDepth + 1) [s] [s] [(s, none)] with ⟨p, found⟩
    rw [hr] at hfound hnotfound
    cases found with
    | false =>
      exfalso
      have := hnotfound rfl
      rw [Nat.zero_add] at this
      exact this hin
    | true =>
      obtain ⟨k, hk1, hk2, hk3, hk4, hk5, hk6⟩ := hfound rfl
      have hk5' : PChain adj p s t k := hk5
      have hk6' : k < p.length := hk6
      have hids : bfsPathIds adj s t maxDepth = (walkPrev p (p.length + 1) t).reverse := by
        show (match bfsPathRounds adj t (maxDepth + 1) [s] [s] [(s, none)] with
              | (_, false) => []
              | (prev, true) => (walkPrev prev (prev.length + 1) t).reverse)
            = (walkPrev p (p.length + 1) t).reverse
        rw [hr]
      obtain ⟨hwlen, hwhead, hwlast, hwchain⟩ :=
        walkPrev_spec hk5' (p.length + 1) (by omega)
      refine ⟨k, by omega, by omega, hk3, hk4, ?_, ?_, ?_, ?_⟩
      · rw [hids, List.length_reverse, hwlen]
      · rw [hids, List.head?_reverse, hwlast]
      · rw [hids, List.getLast?_reverse, hwhead]
      · rw [hids, List.chain'_reverse]
        exact hwchain


/-! ## Backend `path` correctness -/

theorem chain_head_mem_adj {adj : Nat → List Nat} :
    ∀ (ids : List Nat) (f : Nat), List.Chain' (fun a b => b ∈ adj a) ids →
      ids.head? = some f → ∀ x ∈ ids, x = f ∨ ∃ a, x ∈ adj a := by
  intro ids
  induction ids with
  | nil => intro f _ _ x hx; exact absurd hx (List.not_mem_nil x)
  | cons y rest ih =>
    intro f hchain hhead x hx
    have hyf : y = f := by
      simp only [List.head?_cons, Option.some.injEq] at hhead
      exact hhead
    rcases List.mem_cons.mp hx with hx | hx
    · exact Or.inl (hx.trans hyf)
    · rw [List.chain'_cons'] at hchain
      obtain ⟨hfirst, hrest⟩ := hchain
      cases rest with
      | nil => exact absurd hx (List.not_mem_nil x)
      | cons z rest' =>
        rcases ih z hrest (by simp) x hx with hxz | hxa
        · refine Or.inr ⟨y, ?_⟩
          rw [hxz]
          exact hfirst z (by simp)
        · exact Or.inr hxa

theorem sqlite_adj_edge {s : SqlState} {a x : Nat}
    (h : x ∈ SqliteGraphStore.neighborIds s a) :
    ∃ e ∈ s.edgeRows, e.src = a ∧ e.dst = x := by
  simp only [SqliteGraphStore.neighborIds, List.mem_map, List.mem_filter] at h
  obtain ⟨e, ⟨hmem, hsrc⟩, hdst⟩ := h
  exact ⟨e, hmem, by simpa using hsrc, hdst⟩

theorem lite_adj_edge {s : LiteState} {a x : Nat}
    (h : x ∈ LiteGraphStore.neighborIds s a) :
    ∃ e ∈ s.edges, e.src = a ∧ e.dst = x := by
  simp only [LiteGraphStore.neighborIds, List.mem_map, List.mem_filter] at h
  obtain ⟨e, ⟨hmem, hsrc⟩, hdst⟩ := h
  exact ⟨e, hmem, by simpa using hsrc, hdst⟩

/-- Claim C4 (amended): on both backends, when both endpoint references
resolve to truthy ids `f` and `t`, the code returns the empty list when
`f = t` (the zero-edge case is *not* honoured) and when no directed path of
at most `maxDepth + 1` (not `maxDepth`) edges exists; and when `f ≠ t` and
the target lies within `maxDepth + 1` hops (one more than the claimed bound,
because the traversal expands `maxDepth + 1` rounds), it returns a route from
`f` to `t` following edges whose edge count is the exact shortest-hop
distance.  The route-shape clause is restricted to states whose edge list
has referential integrity (and, in memory, whose node map is key-consistent):
the persistent backend enforces that through its FOREIGN KEYs, but the
in-memory `addEdge` never validates endpoints, and on its reachable states
with dangling edges the clause genuinely fails — the node fetch silently
drops absent hops, so the returned edge count can undershoot the shortest-hop
distance (see the dangling-edge part of the C4 counterexample). -/
theorem c4_path_correct :
    (∀ (s : SqlState) (fromRef toRef : NodeRef) (maxDepth f t : Nat),
        SqliteGraphStore.resolveNodeId s fromRef = some f → f ≠ 0 →
        SqliteGraphStore.resolveNodeId s toRef = some t → t ≠ 0 →
        ((t = f → SqliteGraphStore.path s fromRef toRef maxDepth = [])
          ∧ (t ∉ ball (SqliteGraphStore.neighborIds s) f (maxDepth + 1) →
              SqliteGraphStore.path s fromRef toRef maxDepth = [])
          ∧ (SqlEdgesWF s → (∃ r ∈ s.nodeRows, r.id = f) → t ≠ f →
              t ∈ ball (SqliteGraphStore.neighborIds s) f (maxDepth + 1) →
              ∃ k, 1 ≤ k ∧ k ≤ maxDepth + 1
                ∧ t ∈ ball (SqliteGraphStore.neighborIds s) f k
                ∧ (∀ m, m < k → t ∉ ball (SqliteGraphStore.neighborIds s) f m)
                ∧ ((SqliteGraphStore.path s fromRef toRef maxDepth).map
                    (fun n => n.id)).length = k + 1
                ∧ ((SqliteGraphStore.path s fromRef toRef maxDepth).map
                    (fun n => n.id)).head? = some f
                ∧ ((SqliteGraphStore.path s fromRef toRef maxDepth).map
                    (fun n => n.id)).getLast? = some t
                ∧ List.Chain' (fun a b => b ∈ SqliteGraphStore.neighborIds s a)
                    ((SqliteGraphStore.path s fromRef toRef maxDepth).map (fun n => n.id)))))
      ∧ (∀ (s : LiteState) (fromRef toRef : NodeRef) (maxDepth f t : Nat),
          LiteGraphStore.resolveRef s fromRef = some f → f ≠ 0 →
          LiteGraphStore.resolveRef s toRef = some t → t ≠ 0 →
          ((t = f → LiteGraphStore.path s fromRef toRef maxDepth = [])
            ∧ (t ∉ ball (LiteGraphStore.neighborIds s) f (maxDepth + 1) →
                LiteGraphStore.path s fromRef toRef maxDepth = [])
            ∧ (LiteEdgesWF s → LiteNodesWF s → (mget f s.nodes).isSome → t ≠ f →
                t ∈ ball (LiteGraphStore.neighborIds s) f (maxDepth + 1) →
                ∃ k, 1 ≤ k ∧ k ≤ maxDepth + 1
                  ∧ t ∈ ball (LiteGraphStore.neighborIds s) f k
                  ∧ (∀ m, m < k → t ∉ ball (LiteGraphStore.neighborIds s) f m)
                  ∧ ((LiteGraphStore.path s fromRef toRef maxDepth).map
                      (fun n => n.id)).length = k + 1
                  ∧ ((LiteGraphStore.path s fromRef toRef maxDepth).map
                      (fun n => n.id)).head? = some f
                  ∧ ((LiteGraphStore.path s fromRef toRef maxDepth).map
                      (fun n => n.id)).getLast? = some t
                  ∧ List.Chain' (fun a b => b ∈ LiteGraphStore.neighborIds s a)
                      ((LiteGraphStore.path s fromRef toRef maxDepth).map (fun n => n.id))))) := by
  constructor
  · intro s fromRef toRef maxDepth f t hrf hf0 hrt ht0
    have hguard : ¬ (f = 0 ∨ t = 0) := fun hcon => hcon.elim hf0 ht0
    have hpe : SqliteGraphStore.path s fromRef toRef maxDepth
        = if (bfsPathIds (SqliteGraphStore.neighborIds s) f t maxDepth).isEmpty then []
          else SqliteGraphStore.nodesByIds s
            (bfsPathIds (SqliteGraphStore.neighborIds s) f t maxDepth) := by
      simp only [SqliteGraphStore.path, hrf, hrt]
      rw [if_neg hguard]
    obtain ⟨hB1, hB2, hB3⟩ := bfsPathIds_spec (SqliteGraphStore.neighborIds s) f t maxDepth
    refine ⟨?_, ?_, ?_⟩
    · intro hteq
      rw [hpe, hB1 hteq]
      rfl
    · intro hout
      rw [hpe, hB2 hout]
      rfl
    · intro hwf hfrow htne hin
      obtain ⟨k, hk1, hk2, hk3, hk4, hk5, hk6, hk7, hk8⟩ := hB3 htne hin
      have hids_ne : (bfsPathIds (SqliteGraphStore.neighborIds s) f t maxDepth) ≠ [] := by
        intro hcon
        rw [hcon] at hk5
        simp at hk5
      have hemp : (bfsPathIds (SqliteGraphStore.neighborIds s) f t maxDepth).isEmpty = false := by
        rw [List.isEmpty_eq_false_iff_exists_mem]
        cases hxs : bfsPathIds (SqliteGraphStore.neighborIds s) f t maxDepth with
        | nil => exact absurd hxs hids_ne
        | cons a l => exact ⟨a, by simp⟩
      have hpe' : SqliteGraphStore.path s fromRef toRef maxDepth
          = SqliteGraphStore.nodesByIds s
              (bfsPathIds (SqliteGraphStore.neighborIds s) f t maxDepth) := by
        rw [hpe, hemp]
        rfl
      have hall : ∀ x ∈ bfsPathIds (SqliteGraphStore.neighborIds s) f t maxDepth,
          (s.nodeRows.find? (fun r => r.id == x)).isSome = true := by
        intro x hx
        rcases chain_head_mem_adj _ f hk8 hk6 x hx with hxf | ⟨a, hxa⟩
        · obtain ⟨r, hrmem, hrid⟩ := hfrow
          rw [List.find?_isSome]
          exact ⟨r, hrmem, by simp [hrid, hxf]⟩
        · obtain ⟨e, hemem, hesrc, hedst⟩ := sqlite_adj_edge hxa
          obtain ⟨_, ⟨r, hrmem, hrid⟩⟩ := hwf e hemem
          rw [List.find?_isSome]
          exact ⟨r, hrmem, by simp [hrid, hedst]⟩
      have hmap : (SqliteGraphStore.path s fromRef toRef maxDepth).map (fun n => n.id)
          = bfsPathIds (SqliteGraphStore.neighborIds s) f t maxDepth := by
        rw [hpe', sqlite_nodesByIds_map_id]
        exact List.filter_eq_self.mpr hall
      rw [hmap]
      exact ⟨k, hk1, hk2, hk3, hk4, hk5, hk6, hk7, hk8⟩
  · intro s fromRef toRef maxDepth f t hrf hf0 hrt ht0
    have hguard : ¬ (f = 0 ∨ t = 0) := fun hcon => hcon.elim hf0 ht0
    have hpe : LiteGraphStore.path s fromRef toRef maxDepth
        = LiteGraphStore.nodesByIds s
            (bfsPathIds (LiteGraphStore.neighborIds s) f t maxDepth) := by
      simp only [LiteGraphStore.path, hrf, hrt]
      rw [if_neg hguard]
    obtain ⟨hB1, hB2, hB3⟩ := bfsPathIds_spec (LiteGraphStore.neighborIds s) f t maxDepth
    refine ⟨?_, ?_, ?_⟩
    · intro hteq
      rw [hpe, hB1 hteq]
      rfl
    · intro hout
      rw [hpe, hB2 hout]
      rfl
    · intro hwf hnwf hfrow htne hin
      obtain ⟨k, hk1, hk2, hk3, hk4, hk5, hk6, hk7, hk8⟩ := hB3 htne hin
      have hall : ∀ x ∈ bfsPathIds (LiteGraphStore.neighborIds s) f t maxDepth,
          (mget x s.nodes).isSome = true := by
        intro x hx
        rcases chain_head_mem_adj _ f hk8 hk6 x hx with hxf | ⟨a, hxa⟩
        · rw [hxf]
          exact hfrow
        · obtain ⟨e, hemem, hesrc, hedst⟩ := lite_adj_edge hxa
          have := (hwf e hemem).2
          rw [hedst] at this
          exact this
      have hmap : (LiteGraphStore.path s fromRef toRef maxDepth).map (fun n => n.id)
          = bfsPathIds (LiteGraphStore.neighborIds s) f t maxDepth := by
        rw [hpe, lite_nodesByIds_map_id hnwf]
        exact List.filter_eq_self.mpr hall
      rw [hmap]
      exact ⟨k, hk1, hk2, hk3, hk4, hk5, hk6, hk7, hk8⟩


/-- Witness for C4: a two-node store with edge 1→2 on both backends; both
endpoints resolve, the hypotheses hold, and the theorem yields the concrete
route facts. -/
theorem c4_path_correct_witness :
    (let ops : List GOp := [.upsertNode ⟨none, "key:sql", some "key", none⟩,
                            .upsertNode ⟨none, "tag:performance", some "tag", none⟩,
                            .addEdge 1 2 (some "has_tag") none]
     let ss := ops.foldl SqliteGraphStore.applyOp SqliteGraphStore.init
     let ls := ops.foldl LiteGraphStore.applyOp LiteGraphStore.init
     (SqliteGraphStore.resolveNodeId ss (.byId 1) = some 1 ∧ (1 : Nat) ≠ 0
        ∧ SqliteGraphStore.resolveNodeId ss (.byId 2) = some 2 ∧ (2 : Nat) ≠ 0
        ∧ SqlEdgesWF ss ∧ (∃ r ∈ ss.nodeRows, r.id = 1) ∧ (2 : Nat) ≠ 1
        ∧ (2 : Nat) ∈ ball (SqliteGraphStore.neighborIds ss) 1 (4 + 1)
        ∧ (∃ k, 1 ≤ k ∧ k ≤ 4 + 1
            ∧ (2 : Nat) ∈ ball (SqliteGraphStore.neighborIds ss) 1 k
            ∧ (∀ m, m < k → (2 : Nat) ∉ ball (SqliteGraphStore.neighborIds ss) 1 m)
            ∧ ((SqliteGraphStore.path ss (.byId 1) (.byId 2) 4).map
                (fun n => n.id)).length = k + 1
            ∧ ((SqliteGraphStore.path ss (.byId 1) (.byId 2) 4).map
                (fun n => n.id)).head? = some 1
            ∧ ((SqliteGraphStore.path ss (.byId 1) (.byId 2) 4).map
                (fun n => n.id)).getLast? = some 2
            ∧ List.Chain' (fun a b => b ∈ SqliteGraphStore.neighborIds ss a)
                ((SqliteGraphStore.path ss (.byId 1) (.byId 2) 4).map (fun n => n.id))))
      ∧ (LiteEdgesWF ls ∧ LiteNodesWF ls ∧ (mget 1 ls.nodes).isSome
        ∧ (∃ k, 1 ≤ k ∧ k ≤ 4 + 1
            ∧ (2 : Nat) ∈ ball (LiteGraphStore.neighborIds ls) 1 k
            ∧ (∀ m, m < k → (2 : Nat) ∉ ball (LiteGraphStore.neighborIds ls) 1 m)
            ∧ ((LiteGraphStore.path ls (.byId 1) (.byId 2) 4).map
                (fun n => n.id)).length = k + 1
            ∧ ((LiteGraphStore.path ls (.byId 1) (.byId 2) 4).map
                (fun n => n.id)).head? = some 1
            ∧ ((LiteGraphStore.path ls (.byId 1) (.byId 2) 4).map
                (fun n => n.id)).getLast? = some 2
            ∧ List.Chain' (fun a b => b ∈ LiteGraphStore.neighborIds ls a)
                ((LiteGraphStore.path ls (.byId 1) (.byId 2) 4).map (fun n => n.id))))) := by
  intro ops ss ls
  have hnwf : LiteNodesWF ls := by
    intro id n h
    have hmem := mget_mem h
    have hall : ∀ p ∈ ls.nodes, p.2.id = p.1 := by decide
    exact hall (id, n) hmem
  have hswf : SqlEdgesWF ss := by
    unfold SqlEdgesWF
    decide
  have hlwf : LiteEdgesWF ls := by
    unfold LiteEdgesWF
    decide
  refine ⟨⟨by decide, by decide, by decide, by decide, hswf, by decide, by decide,
      by decide, ?_⟩, ⟨hlwf, hnwf, by decide, ?_⟩⟩
  · exact (c4_path_correct.1 ss (.byId 1) (.byId 2) 4 1 2
      (by decide) (by decide) (by decide) (by decide)).2.2
      hswf (by decide) (by decide) (by decide)
  · exact (c4_path_correct.2 ls (.byId 1) (.byId 2) 4 1 2
      (by decide) (by decide) (by decide) (by decide)).2.2
      hlwf hnwf (by decide) (by decide) (by decide)


/-! ## Props are replaced wholesale (C7) and NotFound semantics (C8) -/

theorem sqlite_find_props_update (rows : List SNodeRow) (label t : String)
    (i : Nat) (P : Props) :
    ((rows.map (fun r => if r.id == i then { r with props := P } else r)).find?
        (fun r => r.label == label && r.type == some t))
      = (rows.find? (fun r => r.label == label && r.type == some t)).map
          (fun r => if r.id == i then { r with props := P } else r) := by
  rw [List.find?_map]
  have hp : ((fun r : SNodeRow => r.label == label && r.type == some t) ∘
      (fun r => if r.id == i then { r with props := P } else r))
      = (fun r : SNodeRow => r.label == label && r.type == some t) := by
    funext r
    by_cases h : r.id = i <;> simp [h]
  rw [hp]

/-- Claim C7 (amended): an id-less `upsertNode` carrying the same
`(label, type)` key and a props map `Q` leaves the node's stored props equal
to `Q` itself — a wholesale replacement; entries of the previous props absent
from `Q` are discarded, on both backends. -/
theorem c7_props_replaced :
    (∀ (s : SqlState) (label : String) (type? : Option String) (Q : Props) (n : GNode),
        SqliteGraphStore.getNodeByLabel s label type? = some n →
        ∃ s', SqliteGraphStore.upsertNode s ⟨none, label, type?, some Q⟩ = .ok (n.id, s')
          ∧ SqliteGraphStore.getNodeByLabel s' label type? = some { n with props := Q })
      ∧ (∀ (s : LiteState) (label : String) (type? : Option String) (Q : Props)
            (id : Nat) (n : GNode),
          mget (LiteGraphStore.keyFor label type?) s.labelIndex = some id → id ≠ 0 →
          mget id s.nodes = some n →
          ∃ s', LiteGraphStore.upsertNode s ⟨none, label, type?, some Q⟩ = .ok (id, s')
            ∧ LiteGraphStore.getNodeByLabel s' label type? = some { n with props := Q }) := by
  constructor
  · intro s label type? Q n h
    have hup : SqliteGraphStore.upsertNode s ⟨none, label, type?, some Q⟩
        = .ok (SqliteGraphStore.upsertNoId s ⟨none, label, type?, some Q⟩) := rfl
    have hfind : ∃ r, s.nodeRows.find?
          (fun r => r.label == label && r.type == some (type?.getD "")) = some r
        ∧ n = ⟨r.id, r.label, r.type, r.props⟩ := by
      revert h
      simp only [SqliteGraphStore.getNodeByLabel]
      cases hf : s.nodeRows.find?
          (fun r => r.label == label && r.type == some (type?.getD "")) with
      | none => intro h; cases h
      | some r =>
        intro h
        simp only [Option.some.injEq] at h
        exact ⟨r, rfl, h.symm⟩
    obtain ⟨r, hr, hn⟩ := hfind
    subst hn
    have hnoid : SqliteGraphStore.upsertNoId s ⟨none, label, type?, some Q⟩
        = (r.id, { s with nodeRows :=
            s.nodeRows.map (fun row => if row.id == r.id then { row with props := Q } else row) }) := by
      simp only [SqliteGraphStore.upsertNoId, SqliteGraphStore.getNodeByLabel, hr]
      rfl
    refine ⟨_, by rw [hup, hnoid], ?_⟩
    simp only [SqliteGraphStore.getNodeByLabel]
    rw [sqlite_find_props_update, hr]
    have hid : (r.id == r.id) = true := by simp
    simp only [Option.map_some', hid, if_true]
  · intro s label type? Q id n hidx hid0 hnode
    have hup : LiteGraphStore.upsertNode s ⟨none, label, type?, some Q⟩
        = .ok (LiteGraphStore.upsertNoId s ⟨none, label, type?, some Q⟩) := rfl
    have hnoid : LiteGraphStore.upsertNoId s ⟨none, label, type?, some Q⟩
        = (id, { s with nodes := mset id { n with props := Q } s.nodes }) := by
      simp only [LiteGraphStore.upsertNoId, hidx, hnode]
      rw [if_neg hid0]
      rfl
    refine ⟨_, by rw [hup, hnoid], ?_⟩
    simp only [LiteGraphStore.getNodeByLabel, hidx]
    rw [if_neg hid0, mget_mset_self]

/-- Witness for C7: re-upserting `(A, a)` with props `{b: 2}` over stored
props `{a: 1}` leaves exactly `{b: 2}` on both backends. -/
theorem c7_props_replaced_witness :
    (let s1 := SqliteGraphStore.applyOp SqliteGraphStore.init
                 (.upsertNode ⟨none, "A", some "a", some [("a", "1")]⟩)
     let l1 := LiteGraphStore.applyOp LiteGraphStore.init
                 (.upsertNode ⟨none, "A", some "a", some [("a", "1")]⟩)
     (SqliteGraphStore.getNodeByLabel s1 "A" (some "a")
          = some ⟨1, "A", some "a", [("a", "1")]⟩
        ∧ ∃ s', SqliteGraphStore.upsertNode s1 ⟨none, "A", some "a", some [("b", "2")]⟩
              = .ok (1, s')
            ∧ SqliteGraphStore.getNodeByLabel s' "A" (some "a")
              = some ⟨1, "A", some "a", [("b", "2")]⟩)
      ∧ (mget (LiteGraphStore.keyFor "A" (some "a")) l1.labelIndex = some 1
        ∧ (1 : Nat) ≠ 0
        ∧ mget 1 l1.nodes = some ⟨1, "A", some "a", [("a", "1")]⟩
        ∧ ∃ s', LiteGraphStore.upsertNode l1 ⟨none, "A", some "a", some [("b", "2")]⟩
              = .ok (1, s')
            ∧ LiteGraphStore.getNodeByLabel s' "A" (some "a")
              = some ⟨1, "A", some "a", [("b", "2")]⟩)) := by
  intro s1 l1
  refine ⟨⟨by decide, ?_⟩, by decide, by decide, by decide, ?_⟩
  · exact c7_props_replaced.1 s1 "A" (some "a") [("b", "2")]
      ⟨1, "A", some "a", [("a", "1")]⟩ (by decide)
  · exact c7_props_replaced.2 l1 "A" (some "a") [("b", "2")] 1
      ⟨1, "A", some "a", [("a", "1")]⟩ (by decide) (by decide) (by decide)


theorem sqlite_addEdge_error_constraint {s : SqlState} {src dst : Nat}
    {t : Option String} {p : Option Props} {e : GErr}
    (h : SqliteGraphStore.addEdge s src dst t p = .error e) : e = .constraint := by
  revert h
  simp only [SqliteGraphStore.addEdge]
  cases s.edgeRows.find? (fun ed => ed.src == src && ed.dst == dst && ed.type == t.getD "") with
  | some ed => intro h; cases h
  | none =>
    by_cases hok : (s.nodeRows.any (fun r => r.id == src)
        && s.nodeRows.any (fun r => r.id == dst)) = true
    · rw [if_pos hok]
      intro h; cases h
    · rw [if_neg hok]
      intro h
      injection h with h
      exact h.symm

theorem sqlite_importTags_error_constraint {noteId : Nat} :
    ∀ (tags : List String) (s : SqlState) (e : GErr),
      SqliteGraphStore.importTags noteId s tags = .error e → e = .constraint := by
  intro tags
  induction tags with
  | nil => intro s e h; cases h
  | cons t rest ih =>
    intro s e h
    rw [SqliteGraphStore.importTags] at h
    split at h
    split at h
    · rename_i hadd
      injection h with h
      rw [← h]
      exact sqlite_addEdge_error_constraint hadd
    · exact ih _ e h

theorem sqlite_importRecord_error_constraint {s : SqlState} {n : Note} {e : GErr}
    (h : SqliteGraphStore.importRecord s n = .error e) : e = .constraint := by
  rw [SqliteGraphStore.importRecord] at h
  split at h
  split at h
  split at h
  · rename_i hadd
    injection h with h
    rw [← h]
    exact sqlite_addEdge_error_constraint hadd
  · exact sqlite_importTags_error_constraint _ _ e h

theorem sqlite_importList_error_constraint :
    ∀ (notes : List Note) (s : SqlState) (e : GErr),
      SqliteGraphStore.importList s notes = .error e → e = .constraint := by
  intro notes
  induction notes with
  | nil => intro s e h; cases h
  | cons n rest ih =>
    intro s e h
    rw [SqliteGraphStore.importList] at h
    split at h
    · rename_i hrec
      injection h with h
      rw [← h]
      exact sqlite_importRecord_error_constraint hrec
    · exact ih _ e h

/-- Claim C8: `upsertNode` with an explicit id that resolves to no stored
node fails with the not-found error on both backends, and the failed call
leaves the store unchanged (the state a caller observes after the raise is
the pre-call state); no other public operation ever produces a not-found
error — `addEdge` and `importFromNotes` can only fail with a constraint
violation, and `getNodeByLabel`, `neighbors` and `path` return empty results
on unresolved descriptor references rather than raising. -/
theorem c8_not_found_semantics :
    (∀ (s : SqlState) (node : GraphNode) (i : Nat),
        node.id = some i → i ≠ 0 → (∀ r ∈ s.nodeRows, r.id ≠ i) →
        SqliteGraphStore.upsertNode s node = .error (.notFound i)
          ∧ SqliteGraphStore.applyOp s (.upsertNode node) = s)
      ∧ (∀ (s : LiteState) (node : GraphNode) (i : Nat),
          node.id = some i → i ≠ 0 → mget i s.nodes = none →
          LiteGraphStore.upsertNode s node = .error (.notFound i)
            ∧ LiteGraphStore.applyOp s (.upsertNode node) = s)
      ∧ (∀ (s : SqlState) (src dst : Nat) (t : Option String) (p : Option Props) (i : Nat),
          SqliteGraphStore.addEdge s src dst t p ≠ .error (.notFound i))
      ∧ (∀ (s : SqlState) (notes : List Note) (i : Nat),
          SqliteGraphStore.importFromNotes s notes ≠ .error (.notFound i))
      ∧ (∀ (s : SqlState) (l : String) (t : Option String) (d lim md : Nat) (ref : NodeRef),
          SqliteGraphStore.getNodeByLabel s l t = none →
          SqliteGraphStore.neighbors s (.byLabel l t) d lim = []
            ∧ SqliteGraphStore.path s (.byLabel l t) ref md = []
            ∧ SqliteGraphStore.path s ref (.byLabel l t) md = [])
      ∧ (∀ (s : LiteState) (l : String) (t : Option String) (d lim md : Nat) (ref : NodeRef),
          LiteGraphStore.getNodeByLabel s l t = none →
          LiteGraphStore.neighbors s (.byLabel l t) d lim = []
            ∧ LiteGraphStore.path s (.byLabel l t) ref md = []
            ∧ LiteGraphStore.path s ref (.byLabel l t) md = []) := by
  refine ⟨?_, ?_, ?_, ?_, ?_, ?_⟩
  · intro s node i hid hi0 hno
    have hany : s.nodeRows.any (fun r => r.id == i) = false := by
      rw [List.any_eq_false]
      intro r hr
      simp only [beq_iff_eq]
      exact hno r hr
    have herr : SqliteGraphStore.upsertNode s node = .error (.notFound i) := by
      simp only [SqliteGraphStore.upsertNode, hid]
      rw [if_neg hi0, hany]
      rfl
    refine ⟨herr, ?_⟩
    show (match SqliteGraphStore.upsertNode s node with
          | .ok (_, s') => s'
          | .error _ => s) = s
    rw [herr]
  · intro s node i hid hi0 hno
    have herr : LiteGraphStore.upsertNode s node = .error (.notFound i) := by
      simp only [LiteGraphStore.upsertNode, hid]
      rw [if_neg hi0, hno]
    refine ⟨herr, ?_⟩
    show (match LiteGraphStore.upsertNode s node with
          | .ok (_, s') => s'
          | .error _ => s) = s
    rw [herr]
  · intro s src dst t p i h
    cases sqlite_addEdge_error_constraint h
  · intro s notes i h
    rw [SqliteGraphStore.importFromNotes] at h
    split at h
    · rename_i e hl
      injection h with h
      have := sqlite_importList_error_constraint notes s e hl
      rw [this] at h
      cases h
    · cases h
  · intro s l t d lim md ref hmiss
    refine ⟨?_, ?_, ?_⟩
    · simp only [SqliteGraphStore.neighbors, SqliteGraphStore.resolveNodeId, hmiss,
        Option.map_none']
    · simp only [SqliteGraphStore.path, SqliteGraphStore.resolveNodeId, hmiss,
        Option.map_none']
    · have hres : SqliteGraphStore.resolveNodeId s (.byLabel l t) = none := by
        simp only [SqliteGraphStore.resolveNodeId, hmiss, Option.map_none']
      simp only [SqliteGraphStore.path, hres]
      cases hr : SqliteGraphStore.resolveNodeId s ref <;> rfl
  · intro s l t d lim md ref hmiss
    refine ⟨?_, ?_, ?_⟩
    · simp only [LiteGraphStore.neighbors, LiteGraphStore.resolveRef, hmiss, Option.map_none']
    · simp only [LiteGraphStore.path, LiteGraphStore.resolveRef, hmiss, Option.map_none']
    · have hres : LiteGraphStore.resolveRef s (.byLabel l t) = none := by
        simp only [LiteGraphStore.resolveRef, hmiss, Option.map_none']
      simp only [LiteGraphStore.path, hres]
      cases hr : LiteGraphStore.resolveRef s ref <;> rfl

/-- Witness for C8: id 5 is absent from a one-node store on both backends,
and the unresolved-descriptor reads degrade to empty. -/
theorem c8_not_found_semantics_witness :
    (let s1 := SqliteGraphStore.applyOp SqliteGraphStore.init
                 (.upsertNode ⟨none, "A", some "a", none⟩)
     let l1 := LiteGraphStore.applyOp LiteGraphStore.init
                 (.upsertNode ⟨none, "A", some "a", none⟩)
     ((GraphNode.mk (some 5) "B" none none).id = some 5 ∧ (5 : Nat) ≠ 0
        ∧ (∀ r ∈ s1.nodeRows, r.id ≠ 5)
        ∧ SqliteGraphStore.upsertNode s1 ⟨some 5, "B", none, none⟩ = .error (.notFound 5)
        ∧ SqliteGraphStore.applyOp s1 (.upsertNode ⟨some 5, "B", none, none⟩) = s1)
      ∧ (mget 5 l1.nodes = none
        ∧ LiteGraphStore.upsertNode l1 ⟨some 5, "B", none, none⟩ = .error (.notFound 5)
        ∧ LiteGraphStore.applyOp l1 (.upsertNode ⟨some 5, "B", none, none⟩) = l1)
      ∧ (SqliteGraphStore.getNodeByLabel s1 "missing" none = none
        ∧ SqliteGraphStore.neighbors s1 (.byLabel "missing" none) 1 50 = [])
      ∧ (LiteGraphStore.getNodeByLabel l1 "missing" none = none
        ∧ LiteGraphStore.path l1 (.byLabel "missing" none) (.byId 1) 4 = [])) := by
  intro s1 l1
  refine ⟨⟨by decide, by decide, by decide, ?_, ?_⟩, ⟨by decide, ?_, ?_⟩,
    ⟨by decide, ?_⟩, ⟨by decide, ?_⟩⟩
  · exact (c8_not_found_semantics.1 s1 ⟨some 5, "B", none, none⟩ 5
      (by decide) (by decide) (by decide)).1
  · exact (c8_not_found_semantics.1 s1 ⟨some 5, "B", none, none⟩ 5
      (by decide) (by decide) (by decide)).2
  · exact (c8_not_found_semantics.2.1 l1 ⟨some 5, "B", none, none⟩ 5
      (by decide) (by decide) (by decide)).1
  · exact (c8_not_found_semantics.2.1 l1 ⟨some 5, "B", none, none⟩ 5
      (by decide) (by decide) (by decide)).2
  · exact (c8_not_found_semantics.2.2.2.2.1 s1 "missing" none 1 50 4 (.byId 1)
      (by decide)).1
  · exact (c8_not_found_semantics.2.2.2.2.2 l1 "missing" none 1 50 4 (.byId 1)
      (by decide)).2.1


/-! ## Append-only monotonicity (C10) -/

theorem sqlMono_refl (s : SqlState) : SqlMono s s :=
  ⟨Nat.le_refl _, Nat.le_refl _, fun r hr => ⟨r, hr, Eq.refl r.id⟩, fun e he => he⟩

theorem sqlMono_trans {a b c : SqlState} (h1 : SqlMono a b) (h2 : SqlMono b c) :
    SqlMono a c := by
  obtain ⟨n1, e1, i1, m1⟩ := h1
  obtain ⟨n2, e2, i2, m2⟩ := h2
  refine ⟨Nat.le_trans n1 n2, Nat.le_trans e1 e2, ?_, fun e he => m2 e (m1 e he)⟩
  intro r hr
  obtain ⟨r', hr', hid'⟩ := i1 r hr
  obtain ⟨r'', hr'', hid''⟩ := i2 r' hr'
  exact ⟨r'', hr'', hid''.trans hid'⟩

theorem liteMono_refl (s : LiteState) : LiteMono s s :=
  ⟨Nat.le_refl _, Nat.le_refl _, fun _ h => h, fun e he => he⟩

theorem liteMono_trans {a b c : LiteState} (h1 : LiteMono a b) (h2 : LiteMono b c) :
    LiteMono a c := by
  obtain ⟨n1, e1, i1, m1⟩ := h1
  obtain ⟨n2, e2, i2, m2⟩ := h2
  exact ⟨Nat.le_trans n1 n2, Nat.le_trans e1 e2, fun id h => i2 id (i1 id h),
    fun e he => m2 e (m1 e he)⟩

theorem sqlite_props_map_mono (s : SqlState) (f : SNodeRow → SNodeRow)
    (hf : ∀ r, (f r).id = r.id) :
    SqlMono s { s with nodeRows := s.nodeRows.map f } := by
  refine ⟨by simp, Nat.le_refl _, ?_, fun e he => he⟩
  intro r hr
  exact ⟨f r, List.mem_map_of_mem f hr, hf r⟩

theorem sqlite_upsertNoId_mono (s : SqlState) (node : GraphNode) :
    SqlMono s (SqliteGraphStore.upsertNoId s node).2 := by
  rw [SqliteGraphStore.upsertNoId]
  cases hg : SqliteGraphStore.getNodeByLabel s node.label node.type with
  | some ex =>
    exact sqlite_props_map_mono s _ (fun r => by by_cases h : r.id = ex.id <;> simp [h])
  | none =>
    refine ⟨by simp, Nat.le_refl _, ?_, fun e he => he⟩
    intro r hr
    exact ⟨r, List.mem_append.mpr (Or.inl hr), rfl⟩

theorem sqlite_upsertNode_ok_mono {s : SqlState} {node : GraphNode} {i : Nat} {s' : SqlState}
    (h : SqliteGraphStore.upsertNode s node = .ok (i, s')) : SqlMono s s' := by
  rw [SqliteGraphStore.upsertNode] at h
  cases hid : node.id with
  | none =>
    rw [hid] at h
    simp only at h
    injection h with h
    have hsnd := congrArg Prod.snd h
    simp only at hsnd
    rw [← hsnd]
    exact sqlite_upsertNoId_mono s node
  | some j =>
    rw [hid] at h
    simp only at h
    by_cases h0 : j = 0
    · rw [if_pos h0] at h
      injection h with h
      have hsnd := congrArg Prod.snd h
      simp only at hsnd
      rw [← hsnd]
      exact sqlite_upsertNoId_mono s node
    · rw [if_neg h0] at h
      by_cases hany : (s.nodeRows.any fun r => r.id == j) = true
      · rw [if_pos hany] at h
        by_cases hcon : (node.type.isSome && s.nodeRows.any fun r =>
            r.id != j && r.label == node.label && r.type == node.type) = true
        · rw [if_pos hcon] at h
          cases h
        · rw [if_neg hcon] at h
          injection h with h
          have hsnd := congrArg Prod.snd h
          simp only at hsnd
          rw [← hsnd]
          exact sqlite_props_map_mono s _ (fun r => by by_cases hr : r.id = j <;> simp [hr])
      · rw [if_neg hany] at h
        cases h

theorem sqlite_addEdge_ok_mono {s : SqlState} {src dst : Nat} {t : Option String}
    {p : Option Props} {i : Nat} {s' : SqlState}
    (h : SqliteGraphStore.addEdge s src dst t p = .ok (i, s')) : SqlMono s s' := by
  rw [SqliteGraphStore.addEdge] at h
  cases hf : s.edgeRows.find? (fun e => e.src == src && e.dst == dst && e.type == t.getD "")
    with
  | some e =>
    rw [hf] at h
    injection h with h
    have hsnd := congrArg Prod.snd h
    simp only at hsnd
    rw [← hsnd]
    exact sqlMono_refl s
  | none =>
    rw [hf] at h
    by_cases hok : (s.nodeRows.any (fun r => r.id == src)
        && s.nodeRows.any (fun r => r.id == dst)) = true
    · rw [if_pos hok] at h
      injection h with h
      have hsnd := congrArg Prod.snd h
      simp only at hsnd
      rw [← hsnd]
      refine ⟨Nat.le_refl _, by simp, fun r hr => ⟨r, hr, rfl⟩, ?_⟩
      intro e he
      exact List.mem_append.mpr (Or.inl he)
    · rw [if_neg hok] at h
      cases h

theorem sqlite_importTags_ok_mono {noteId : Nat} :
    ∀ (tags : List String) (s s' : SqlState),
      SqliteGraphStore.importTags noteId s tags = .ok s' → SqlMono s s' := by
  intro tags
  induction tags with
  | nil =>
    intro s s' h
    injection h with h
    rw [← h]
    exact sqlMono_refl s
  | cons t rest ih =>
    intro s s' h
    rw [SqliteGraphStore.importTags] at h
    rcases hup : SqliteGraphStore.upsertNoId s ⟨none, tagLabel t, some "tag", none⟩
      with ⟨tagId, s1⟩
    rw [hup] at h
    have h' : (match SqliteGraphStore.addEdge s1 noteId tagId (some "has_tag") none with
        | .error e => (.error e : Except GErr SqlState)
        | .ok (_, s2) => SqliteGraphStore.importTags noteId s2 rest) = .ok s' := h
    have hm1 : SqlMono s s1 := by
      have := sqlite_upsertNoId_mono s ⟨none, tagLabel t, some "tag", none⟩
      rw [hup] at this
      exact this
    cases hadd : SqliteGraphStore.addEdge s1 noteId tagId (some "has_tag") none with
    | error e =>
      rw [hadd] at h'
      cases h'
    | ok v =>
      rcases v with ⟨eid, s2⟩
      rw [hadd] at h'
      exact sqlMono_trans (sqlMono_trans hm1 (sqlite_addEdge_ok_mono hadd)) (ih s2 s' h')

theorem sqlite_importRecord_ok_mono {s s' : SqlState} {n : Note}
    (h : SqliteGraphStore.importRecord s n = .ok s') : SqlMono s s' := by
  rw [SqliteGraphStore.importRecord] at h
  rcases hup1 : SqliteGraphStore.upsertNoId s ⟨none, noteLabel n, some "note", some (noteProps n)⟩
    with ⟨noteId, s1⟩
  rw [hup1] at h
  have hm1 : SqlMono s s1 := by
    have := sqlite_upsertNoId_mono s ⟨none, noteLabel n, some "note", some (noteProps n)⟩
    rw [hup1] at this
    exact this
  rcases hup2 : SqliteGraphStore.upsertNoId s1 ⟨none, keyLabel n, some "key", none⟩
    with ⟨keyId, s2⟩
  have h' : (match SqliteGraphStore.upsertNoId s1 ⟨none, keyLabel n, some "key", none⟩ with
      | (keyId, s2) =>
        match SqliteGraphStore.addEdge s2 noteId keyId (some "has_key") none with
        | .error e => (.error e : Except GErr SqlState)
        | .ok (_, s3) => SqliteGraphStore.importTags noteId s3 n.tags) = .ok s' := h
  rw [hup2] at h'
  have hm2 : SqlMono s1 s2 := by
    have := sqlite_upsertNoId_mono s1 ⟨none, keyLabel n, some "key", none⟩
    rw [hup2] at this
    exact this
  have h'' : (match SqliteGraphStore.addEdge s2 noteId keyId (some "has_key") none with
      | .error e => (.error e : Except GErr SqlState)
      | .ok (_, s3) => SqliteGraphStore.importTags noteId s3 n.tags) = .ok s' := h'
  cases hadd : SqliteGraphStore.addEdge s2 noteId keyId (some "has_key") none with
  | error e =>
    rw [hadd] at h''
    cases h''
  | ok v =>
    rcases v with ⟨eid, s3⟩
    rw [hadd] at h''
    exact sqlMono_trans (sqlMono_trans (sqlMono_trans hm1 hm2) (sqlite_addEdge_ok_mono hadd))
      (sqlite_importTags_ok_mono n.tags s3 s' h'')

theorem sqlite_importList_ok_mono :
    ∀ (notes : List Note) (s s' : SqlState),
      SqliteGraphStore.importList s notes = .ok s' → SqlMono s s' := by
  intro notes
  induction notes with
  | nil =>
    intro s s' h
    injection h with h
    rw [← h]
    exact sqlMono_refl s
  | cons n rest ih =>
    intro s s' h
    rw [SqliteGraphStore.importList] at h
    cases hrec : SqliteGraphStore.importRecord s n with
    | error e =>
      rw [hrec] at h
      cases h
    | ok s1 =>
      rw [hrec] at h
      exact sqlMono_trans (sqlite_importRecord_ok_mono hrec) (ih s1 s' h)

theorem sqlite_applyOp_mono (s : SqlState) (op : GOp) :
    SqlMono s (SqliteGraphStore.applyOp s op) := by
  cases op with
  | upsertNode node =>
    show SqlMono s (match SqliteGraphStore.upsertNode s node with
      | .ok (_, s') => s' | .error _ => s)
    cases h : SqliteGraphStore.upsertNode s node with
    | ok v =>
      rcases v with ⟨i, s'⟩
      exact sqlite_upsertNode_ok_mono h
    | error e => exact sqlMono_refl s
  | addEdge a b t p =>
    show SqlMono s (match SqliteGraphStore.addEdge s a b t p with
      | .ok (_, s') => s' | .error _ => s)
    cases h : SqliteGraphStore.addEdge s a b t p with
    | ok v =>
      rcases v with ⟨i, s'⟩
      exact sqlite_addEdge_ok_mono h
    | error e => exact sqlMono_refl s
  | importFromNotes notes =>
    show SqlMono s (match SqliteGraphStore.importFromNotes s notes with
      | .ok (_, s') => s' | .error _ => s)
    cases h : SqliteGraphStore.importFromNotes s notes with
    | ok v =>
      rcases v with ⟨st, s'⟩
      rw [SqliteGraphStore.importFromNotes] at h
      cases hl : SqliteGraphStore.importList s notes with
      | error e =>
        rw [hl] at h
        cases h
      | ok s1 =>
        rw [hl] at h
        injection h with h
        have hsnd := congrArg Prod.snd h
        simp only at hsnd
        rw [← hsnd]
        exact sqlite_importList_ok_mono notes s s1 hl
    | error e => exact sqlMono_refl s
  | getNodeByLabel l t => exact sqlMono_refl s
  | neighbors ref d lim => exact sqlMono_refl s
  | path a b md => exact sqlMono_refl s
  | stats => exact sqlMono_refl s

theorem lite_mset_nodes_mono (s : LiteState) (id : Nat) (nd : GNode) :
    ∀ (li : List (String × Nat)) (ni : Nat),
      LiteMono s { s with nodes := mset id nd s.nodes, labelIndex := li, nextNodeId := ni } := by
  intro li ni
  refine ⟨length_le_length_mset id nd s.nodes, Nat.le_refl _, ?_, fun e he => he⟩
  intro j hj
  by_cases hji : id = j
  · subst hji
    rw [mget_mset_self]
    rfl
  · rw [mget_mset_ne id j _ _ hji]
    exact hj

theorem lite_upsertNoId_mono (s : LiteState) (node : GraphNode) :
    LiteMono s (LiteGraphStore.upsertNoId s node).2 := by
  cases hg : mget (LiteGraphStore.keyFor node.label node.type) s.labelIndex with
  | some id =>
    simp only [LiteGraphStore.upsertNoId, hg]
    by_cases h0 : id = 0
    · rw [if_pos h0]
      exact lite_mset_nodes_mono s s.nextNodeId _ _ _
    · rw [if_neg h0]
      cases hn : mget id s.nodes with
      | some nd =>
        simp only [hn]
        exact lite_mset_nodes_mono s id _ s.labelIndex s.nextNodeId
      | none =>
        simp only [hn]
        exact liteMono_refl s
  | none =>
    simp only [LiteGraphStore.upsertNoId, hg]
    exact lite_mset_nodes_mono s s.nextNodeId _ _ _

theorem lite_upsertNode_ok_mono {s : LiteState} {node : GraphNode} {i : Nat} {s' : LiteState}
    (h : LiteGraphStore.upsertNode s node = .ok (i, s')) : LiteMono s s' := by
  rw [LiteGraphStore.upsertNode] at h
  cases hid : node.id with
  | none =>
    rw [hid] at h
    simp only at h
    injection h with h
    have hsnd := congrArg Prod.snd h
    simp only at hsnd
    rw [← hsnd]
    exact lite_upsertNoId_mono s node
  | some j =>
    rw [hid] at h
    simp only at h
    by_cases h0 : j = 0
    · rw [if_pos h0] at h
      injection h with h
      have hsnd := congrArg Prod.snd h
      simp only at hsnd
      rw [← hsnd]
      exact lite_upsertNoId_mono s node
    · rw [if_neg h0] at h
      cases hn : mget j s.nodes with
      | none =>
        rw [hn] at h
        cases h
      | some existing =>
        rw [hn] at h
        simp only at h
        injection h with h
        have hsnd := congrArg Prod.snd h
        simp only at hsnd
        rw [← hsnd]
        exact lite_mset_nodes_mono s j _ _ _

theorem lite_addEdge_mono (s : LiteState) (a b : Nat) (t : Option String) (p : Option Props) :
    LiteMono s (LiteGraphStore.addEdge s a b t p).2 := by
  rw [LiteGraphStore.addEdge]
  cases hf : s.edges.find? (fun e => e.src == a && e.dst == b && e.type.getD "" == t.getD "")
    with
  | some e => exact liteMono_refl s
  | none =>
    refine ⟨Nat.le_refl _, by simp, fun id h => h, ?_⟩
    intro e he
    exact List.mem_append.mpr (Or.inl he)

theorem lite_importTags_mono {noteId : Nat} :
    ∀ (tags : List String) (s : LiteState),
      LiteMono s (LiteGraphStore.importTags noteId s tags) := by
  intro tags
  induction tags with
  | nil => intro s; exact liteMono_refl s
  | cons t rest ih =>
    intro s
    rw [LiteGraphStore.importTags]
    rcases hup : LiteGraphStore.upsertNoId s ⟨none, tagLabel t, some "tag", none⟩
      with ⟨tagId, s1⟩
    have hm1 : LiteMono s s1 := by
      have := lite_upsertNoId_mono s ⟨none, tagLabel t, some "tag", none⟩
      rw [hup] at this
      exact this
    have hm2 : LiteMono s1 (LiteGraphStore.addEdge s1 noteId tagId (some "has_tag") none).2 :=
      lite_addEdge_mono s1 noteId tagId (some "has_tag") none
    exact liteMono_trans (liteMono_trans hm1 hm2) (ih _)

theorem lite_importRecord_mono (s : LiteState) (n : Note) :
    LiteMono s (LiteGraphStore.importRecord s n) := by
  rw [LiteGraphStore.importRecord]
  rcases hup1 : LiteGraphStore.upsertNoId s ⟨none, noteLabel n, some "note", some (noteProps n)⟩
    with ⟨noteId, s1⟩
  simp only [hup1]
  rcases hup2 : LiteGraphStore.upsertNoId s1 ⟨none, keyLabel n, some "key", none⟩
    with ⟨keyId, s2⟩
  simp only [hup2]
  rcases hadd : LiteGraphStore.addEdge s2 noteId keyId (some "has_key") none with ⟨eid, s3⟩
  simp only [hadd]
  have hm1 : LiteMono s s1 := by
    have := lite_upsertNoId_mono s ⟨none, noteLabel n, some "note", some (noteProps n)⟩
    rw [hup1] at this
    exact this
  have hm2 : LiteMono s1 s2 := by
    have := lite_upsertNoId_mono s1 ⟨none, keyLabel n, some "key", none⟩
    rw [hup2] at this
    exact this
  have hm3 : LiteMono s2 s3 := by
    have := lite_addEdge_mono s2 noteId keyId (some "has_key") none
    rw [hadd] at this
    exact this
  exact liteMono_trans (liteMono_trans (liteMono_trans hm1 hm2) hm3) (lite_importTags_mono n.tags s3)

theorem lite_importList_mono :
    ∀ (notes : List Note) (s : LiteState),
      LiteMono s (notes.foldl LiteGraphStore.importRecord s) := by
  intro notes
  induction notes with
  | nil => intro s; exact liteMono_refl s
  | cons n rest ih =>
    intro s
    rw [List.foldl_cons]
    exact liteMono_trans (lite_importRecord_mono s n) (ih _)

theorem lite_applyOp_mono (s : LiteState) (op : GOp) :
    LiteMono s (LiteGraphStore.applyOp s op) := by
  cases op with
  | upsertNode node =>
    show LiteMono s (match LiteGraphStore.upsertNode s node with
      | .ok (_, s') => s' | .error _ => s)
    cases h : LiteGraphStore.upsertNode s node with
    | ok v =>
      rcases v with ⟨i, s'⟩
      exact lite_upsertNode_ok_mono h
    | error e => exact liteMono_refl s
  | addEdge a b t p => exact lite_addEdge_mono s a b t p
  | importFromNotes notes => exact lite_importList_mono notes s
  | getNodeByLabel l t => exact liteMono_refl s
  | neighbors ref d lim => exact liteMono_refl s
  | path a b md => exact liteMono_refl s
  | stats => exact liteMono_refl s

/-- Claim C10: the public interface is append-only on both backends — after
any single public call on any prior state (including calls that raise, which
leave the pre-call state in place), the node and edge counts reported by
`stats()` are at least their old values, every stored node id is still
stored, and every stored edge is still stored. -/
theorem c10_append_only :
    (∀ (s : SqlState) (op : GOp),
        SqlMono s (SqliteGraphStore.applyOp s op)
          ∧ (SqliteGraphStore.stats s).1
              ≤ (SqliteGraphStore.stats (SqliteGraphStore.applyOp s op)).1
          ∧ (SqliteGraphStore.stats s).2
              ≤ (SqliteGraphStore.stats (SqliteGraphStore.applyOp s op)).2)
      ∧ (∀ (s : LiteState) (op : GOp),
          LiteMono s (LiteGraphStore.applyOp s op)
            ∧ (LiteGraphStore.stats s).1
                ≤ (LiteGraphStore.stats (LiteGraphStore.applyOp s op)).1
            ∧ (LiteGraphStore.stats s).2
                ≤ (LiteGraphStore.stats (LiteGraphStore.applyOp s op)).2) := by
  constructor
  · intro s op
    have h := sqlite_applyOp_mono s op
    exact ⟨h, h.1, h.2.1⟩
  · intro s op
    have h := lite_applyOp_mono s op
    exact ⟨h, h.1, h.2.1⟩


/-! ## Idempotent import (C9): in-memory backend -/

theorem lite_upsertNoId_fields (s : LiteState) (node : GraphNode) :
    (LiteGraphStore.upsertNoId s node).2.edges = s.edges
      ∧ (LiteGraphStore.upsertNoId s node).2.nextEdgeId = s.nextEdgeId := by
  cases hg : mget (LiteGraphStore.keyFor node.label node.type) s.labelIndex with
  | some id =>
    simp only [LiteGraphStore.upsertNoId, hg]
    by_cases h0 : id = 0
    · rw [if_pos h0]
      exact ⟨by trivial, by trivial⟩
    · rw [if_neg h0]
      cases hn : mget id s.nodes with
      | some nd => simp only [hn]; exact ⟨by trivial, by trivial⟩
      | none => simp only [hn]; exact ⟨by trivial, by trivial⟩
  | none =>
    simp only [LiteGraphStore.upsertNoId, hg]
    exact ⟨by trivial, by trivial⟩

theorem lite_upsertNoId_idx_stable (s : LiteState) (node : GraphNode) {k : String} {id : Nat}
    (h : mget k s.labelIndex = some id) (h0 : id ≠ 0) :
    mget k (LiteGraphStore.upsertNoId s node).2.labelIndex = some id := by
  cases hg : mget (LiteGraphStore.keyFor node.label node.type) s.labelIndex with
  | some j =>
    simp only [LiteGraphStore.upsertNoId, hg]
    by_cases hj0 : j = 0
    · rw [if_pos hj0]
      have hk : LiteGraphStore.keyFor node.label node.type ≠ k := by
        intro hcon
        rw [hcon] at hg
        rw [hg] at h
        injection h with h
        exact h0 (h.symm.trans hj0)
      show mget k (mset (LiteGraphStore.keyFor node.label node.type) s.nextNodeId s.labelIndex)
          = some id
      rw [mget_mset_ne _ _ _ _ hk]
      exact h
    · rw [if_neg hj0]
      cases hn : mget j s.nodes with
      | some nd => simp only [hn]; exact h
      | none => simp only [hn]; exact h
  | none =>
    simp only [LiteGraphStore.upsertNoId, hg]
    have hk : LiteGraphStore.keyFor node.label node.type ≠ k := by
      intro hcon
      rw [hcon] at hg
      rw [hg] at h
      cases h
    show mget k (mset (LiteGraphStore.keyFor node.label node.type) s.nextNodeId s.labelIndex)
        = some id
    rw [mget_mset_ne _ _ _ _ hk]
    exact h

theorem lite_upsertNoId_self (s : LiteState) (node : GraphNode) (hwf : LiteWF s) :
    mget (LiteGraphStore.keyFor node.label node.type)
        (LiteGraphStore.upsertNoId s node).2.labelIndex
      = some (LiteGraphStore.upsertNoId s node).1
      ∧ (LiteGraphStore.upsertNoId s node).1 ≠ 0
      ∧ LiteWF (LiteGraphStore.upsertNoId s node).2 := by
  obtain ⟨hnext, hidx⟩ := hwf
  cases hg : mget (LiteGraphStore.keyFor node.label node.type) s.labelIndex with
  | some j =>
    obtain ⟨hj0, hjn⟩ := hidx _ j hg
    simp only [LiteGraphStore.upsertNoId, hg]
    rw [if_neg hj0]
    cases hn : mget j s.nodes with
    | some nd =>
      simp only [hn]
      refine ⟨hg, hj0, hnext, ?_⟩
      intro k id hk
      obtain ⟨h1, h2⟩ := hidx k id hk
      refine ⟨h1, ?_⟩
      by_cases hkj : j = id
      · subst hkj
        rw [mget_mset_self]
        rfl
      · rw [mget_mset_ne _ _ _ _ hkj]
        exact h2
    | none =>
      rw [hn] at hjn
      cases hjn
  | none =>
    simp only [LiteGraphStore.upsertNoId, hg]
    have hne0 : s.nextNodeId ≠ 0 := by omega
    refine ⟨mget_mset_self _ _ _, hne0, ?_, ?_⟩
    · show 1 ≤ s.nextNodeId + 1
      omega
    intro k id hk
    by_cases hkk : LiteGraphStore.keyFor node.label node.type = k
    · subst hkk
      rw [mget_mset_self] at hk
      injection hk with hk
      subst hk
      refine ⟨hne0, ?_⟩
      rw [mget_mset_self]
      rfl
    · rw [mget_mset_ne _ _ _ _ hkk] at hk
      obtain ⟨h1, h2⟩ := hidx k id hk
      refine ⟨h1, ?_⟩
      by_cases hkn : s.nextNodeId = id
      · subst hkn
        rw [mget_mset_self]
        rfl
      · rw [mget_mset_ne _ _ _ _ hkn]
        exact h2

theorem lite_upsertNoId_hit (s : LiteState) (node : GraphNode) {id : Nat} {nd : GNode}
    (hidx : mget (LiteGraphStore.keyFor node.label node.type) s.labelIndex = some id)
    (h0 : id ≠ 0) (hnd : mget id s.nodes = some nd) :
    LiteGraphStore.upsertNoId s node
      = (id, { s with nodes := mset id { nd with props := node.props.getD nd.props } s.nodes }) := by
  simp only [LiteGraphStore.upsertNoId, hidx, hnd]
  rw [if_neg h0]

theorem lite_addEdge_fields (s : LiteState) (a b : Nat) (t : Option String) (p : Option Props) :
    (LiteGraphStore.addEdge s a b t p).2.labelIndex = s.labelIndex
      ∧ (LiteGraphStore.addEdge s a b t p).2.nodes = s.nodes
      ∧ (∀ e ∈ s.edges, e ∈ (LiteGraphStore.addEdge s a b t p).2.edges)
      ∧ (LiteGraphStore.addEdge s a b t p).2.nextNodeId = s.nextNodeId := by
  rw [LiteGraphStore.addEdge]
  cases hf : s.edges.find? (fun e => e.src == a && e.dst == b && e.type.getD "" == t.getD "")
    with
  | some e => exact ⟨rfl, rfl, fun e he => he, rfl⟩
  | none =>
    exact ⟨rfl, rfl, fun e he => List.mem_append.mpr (Or.inl he), rfl⟩

theorem lite_addEdge_establish (s : LiteState) (a b : Nat) (t : Option String)
    (p : Option Props) :
    LiteHasEdge (LiteGraphStore.addEdge s a b t p).2 a b (t.getD "") := by
  rw [LiteGraphStore.addEdge]
  cases hf : s.edges.find? (fun e => e.src == a && e.dst == b && e.type.getD "" == t.getD "")
    with
  | some e =>
    have hmem := List.mem_of_find?_eq_some hf
    have hpred := List.find?_some hf
    simp only [Bool.and_eq_true, beq_iff_eq] at hpred
    exact ⟨e, hmem, hpred.1.1, hpred.1.2, hpred.2⟩
  | none =>
    exact ⟨⟨s.nextEdgeId, a, b, t, p⟩, List.mem_append.mpr (Or.inr (List.mem_singleton.mpr rfl)),
      rfl, rfl, rfl⟩

theorem lite_addEdge_dup (s : LiteState) (a b : Nat) (t : Option String) (p : Option Props)
    (h : LiteHasEdge s a b (t.getD "")) :
    (LiteGraphStore.addEdge s a b t p).2 = s := by
  obtain ⟨e, hmem, hsrc, hdst, hty⟩ := h
  have hiss : (s.edges.find?
      (fun e => e.src == a && e.dst == b && e.type.getD "" == t.getD "")).isSome = true := by
    rw [List.find?_isSome]
    exact ⟨e, hmem, by simp [hsrc, hdst, hty]⟩
  rw [LiteGraphStore.addEdge]
  cases hf : s.edges.find? (fun e => e.src == a && e.dst == b && e.type.getD "" == t.getD "")
    with
  | some e' => rfl
  | none =>
    rw [hf] at hiss
    cases hiss

theorem lite_addEdge_wf (s : LiteState) (a b : Nat) (t : Option String) (p : Option Props)
    (hwf : LiteWF s) : LiteWF (LiteGraphStore.addEdge s a b t p).2 := by
  obtain ⟨hfidx, hfnodes, _, hfnext⟩ := lite_addEdge_fields s a b t p
  obtain ⟨h1, h2⟩ := hwf
  refine ⟨by rw [hfnext]; exact h1, ?_⟩
  intro k id hk
  rw [hfidx] at hk
  rw [hfnodes]
  exact h2 k id hk


theorem lite_hasEdge_stable {s s' : LiteState} (h : ∀ e ∈ s.edges, e ∈ s'.edges)
    {a b : Nat} {ty : String} (he : LiteHasEdge s a b ty) : LiteHasEdge s' a b ty := by
  obtain ⟨e, hmem, h1, h2, h3⟩ := he
  exact ⟨e, h e hmem, h1, h2, h3⟩

theorem lite_contains_stable {s s' : LiteState}
    (hidx : ∀ k id, mget k s.labelIndex = some id → id ≠ 0 →
      mget k s'.labelIndex = some id)
    (hedge : ∀ e ∈ s.edges, e ∈ s'.edges)
    {n : Note} (h : LiteContainsRec s n) : LiteContainsRec s' n := by
  obtain ⟨nid, kid, h1, h2, h3, h4, h5, h6⟩ := h
  refine ⟨nid, kid, hidx _ _ h1 h2, h2, hidx _ _ h3 h4, h4,
    lite_hasEdge_stable hedge h5, ?_⟩
  intro t ht
  obtain ⟨tid, ht1, ht2, ht3⟩ := h6 t ht
  exact ⟨tid, hidx _ _ ht1 ht2, ht2, lite_hasEdge_stable hedge ht3⟩

theorem lite_contains_of_eq {s s' : LiteState} (hidx : s'.labelIndex = s.labelIndex)
    (hedge : s'.edges = s.edges) {n : Note} (h : LiteContainsRec s n) :
    LiteContainsRec s' n := by
  obtain ⟨nid, kid, h1, h2, h3, h4, h5, h6⟩ := h
  refine ⟨nid, kid, by rw [hidx]; exact h1, h2, by rw [hidx]; exact h3, h4,
    by rw [LiteHasEdge, hedge]; exact h5, ?_⟩
  intro t ht
  obtain ⟨tid, ht1, ht2, ht3⟩ := h6 t ht
  exact ⟨tid, by rw [hidx]; exact ht1, ht2, by rw [LiteHasEdge, hedge]; exact ht3⟩

theorem lite_importTags_establish (noteId : Nat) :
    ∀ (tags : List String) (s : LiteState), LiteWF s →
      (LiteWF (LiteGraphStore.importTags noteId s tags)
        ∧ (∀ k id, mget k s.labelIndex = some id → id ≠ 0 →
            mget k (LiteGraphStore.importTags noteId s tags).labelIndex = some id)
        ∧ (∀ e ∈ s.edges, e ∈ (LiteGraphStore.importTags noteId s tags).edges)
        ∧ (∀ t ∈ tags, ∃ tid,
            mget (LiteGraphStore.keyFor (tagLabel t) (some "tag"))
                (LiteGraphStore.importTags noteId s tags).labelIndex = some tid
              ∧ tid ≠ 0
              ∧ LiteHasEdge (LiteGraphStore.importTags noteId s tags) noteId tid "has_tag")) := by
  intro tags
  induction tags with
  | nil =>
    intro s hwf
    exact ⟨hwf, fun k id h _ => h, fun e he => he,
      fun t ht => absurd ht (List.not_mem_nil t)⟩
  | cons t rest ih =>
    intro s hwf
    rw [LiteGraphStore.importTags]
    rcases hup : LiteGraphStore.upsertNoId s ⟨none, tagLabel t, some "tag", none⟩
      with ⟨tagId, s1⟩
    simp only [hup]
    rcases hadd : LiteGraphStore.addEdge s1 noteId tagId (some "has_tag") none with ⟨eid, s2⟩
    simp only [hadd]
    obtain ⟨hself, htid0, hwf1⟩ := lite_upsertNoId_self s ⟨none, tagLabel t, some "tag", none⟩ hwf
    rw [hup] at hself htid0 hwf1
    obtain ⟨hfidx, hfnodes, hfedges, hfnext⟩ :=
      lite_addEdge_fields s1 noteId tagId (some "has_tag") none
    have hhe : LiteHasEdge s2 noteId tagId "has_tag" := by
      have := lite_addEdge_establish s1 noteId tagId (some "has_tag") none
      rw [hadd] at this
      exact this
    have hwf2 : LiteWF s2 := by
      have := lite_addEdge_wf s1 noteId tagId (some "has_tag") none hwf1
      rw [hadd] at this
      exact this
    rw [hadd] at hfidx hfnodes hfedges hfnext
    obtain ⟨rwf, ridx, redge, rtags⟩ := ih s2 hwf2
    have hstep_idx : ∀ k id, mget k s.labelIndex = some id → id ≠ 0 →
        mget k s2.labelIndex = some id := by
      intro k id h h0
      rw [hfidx]
      have := lite_upsertNoId_idx_stable s ⟨none, tagLabel t, some "tag", none⟩ h h0
      rw [hup] at this
      exact this
    have hstep_edge : ∀ e ∈ s.edges, e ∈ s2.edges := by
      intro e he
      refine hfedges e ?_
      have := (lite_upsertNoId_fields s ⟨none, tagLabel t, some "tag", none⟩).1
      rw [hup] at this
      rw [this]
      exact he
    refine ⟨rwf, ?_, ?_, ?_⟩
    · intro k id h h0
      exact ridx k id (hstep_idx k id h h0) h0
    · intro e he
      exact redge e (hstep_edge e he)
    · intro u hu
      rcases List.mem_cons.mp hu with hu | hu
      · subst hu
        have hself2 : mget (LiteGraphStore.keyFor (tagLabel u) (some "tag")) s2.labelIndex
            = some tagId := by
          rw [hfidx]
          exact hself
        refine ⟨tagId, ridx _ tagId hself2 htid0, htid0, ?_⟩
        exact lite_hasEdge_stable redge hhe
      · exact rtags u hu

theorem lite_importRecord_establish (s : LiteState) (n : Note) (hwf : LiteWF s) :
    LiteWF (LiteGraphStore.importRecord s n)
      ∧ (∀ k id, mget k s.labelIndex = some id → id ≠ 0 →
          mget k (LiteGraphStore.importRecord s n).labelIndex = some id)
      ∧ (∀ e ∈ s.edges, e ∈ (LiteGraphStore.importRecord s n).edges)
      ∧ LiteContainsRec (LiteGraphStore.importRecord s n) n := by
  rw [LiteGraphStore.importRecord]
  rcases hup1 : LiteGraphStore.upsertNoId s ⟨none, noteLabel n, some "note", some (noteProps n)⟩
    with ⟨noteId, s1⟩
  simp only [hup1]
  rcases hup2 : LiteGraphStore.upsertNoId s1 ⟨none, keyLabel n, some "key", none⟩
    with ⟨keyId, s2⟩
  simp only [hup2]
  rcases hadd : LiteGraphStore.addEdge s2 noteId keyId (some "has_key") none with ⟨eid, s3⟩
  simp only [hadd]
  obtain ⟨hself1, hnid0, hwf1⟩ :=
    lite_upsertNoId_self s ⟨none, noteLabel n, some "note", some (noteProps n)⟩ hwf
  rw [hup1] at hself1 hnid0 hwf1
  obtain ⟨hself2, hkid0, hwf2⟩ :=
    lite_upsertNoId_self s1 ⟨none, keyLabel n, some "key", none⟩ hwf1
  rw [hup2] at hself2 hkid0 hwf2
  obtain ⟨hfidx, hfnodes, hfedges, hfnext⟩ :=
    lite_addEdge_fields s2 noteId keyId (some "has_key") none
  rw [hadd] at hfidx hfnodes hfedges hfnext
  have hwf3 : LiteWF s3 := by
    have := lite_addEdge_wf s2 noteId keyId (some "has_key") none hwf2
    rw [hadd] at this
    exact this
  have hhe : LiteHasEdge s3 noteId keyId "has_key" := by
    have := lite_addEdge_establish s2 noteId keyId (some "has_key") none
    rw [hadd] at this
    exact this
  obtain ⟨rwf, ridx, redge, rtags⟩ := lite_importTags_establish noteId n.tags s3 hwf3
  have h12 : ∀ k id, mget k s.labelIndex = some id → id ≠ 0 →
      mget k s2.labelIndex = some id := by
    intro k id h h0
    have ha := lite_upsertNoId_idx_stable s
      ⟨none, noteLabel n, some "note", some (noteProps n)⟩ h h0
    rw [hup1] at ha
    have hb := lite_upsertNoId_idx_stable s1 ⟨none, keyLabel n, some "key", none⟩ ha h0
    rw [hup2] at hb
    exact hb
  have h13 : ∀ k id, mget k s.labelIndex = some id → id ≠ 0 →
      mget k s3.labelIndex = some id := by
    intro k id h h0
    rw [hfidx]
    exact h12 k id h h0
  have hedge13 : ∀ e ∈ s.edges, e ∈ s3.edges := by
    intro e he
    refine hfedges e ?_
    have h1 := (lite_upsertNoId_fields s ⟨none, noteLabel n, some "note", some (noteProps n)⟩).1
    rw [hup1] at h1
    have h2 := (lite_upsertNoId_fields s1 ⟨none, keyLabel n, some "key", none⟩).1
    rw [hup2] at h2
    rw [h2, h1]
    exact he
  have hself1_3 : mget (LiteGraphStore.keyFor (noteLabel n) (some "note")) s3.labelIndex
      = some noteId := by
    rw [hfidx]
    have := lite_upsertNoId_idx_stable s1 ⟨none, keyLabel n, some "key", none⟩ hself1 hnid0
    rw [hup2] at this
    exact this
  have hself2_3 : mget (LiteGraphStore.keyFor (keyLabel n) (some "key")) s3.labelIndex
      = some keyId := by
    rw [hfidx]
    exact hself2
  refine ⟨rwf, ?_, ?_, ?_⟩
  · intro k id h h0
    exact ridx k id (h13 k id h h0) h0
  · intro e he
    exact redge e (hedge13 e he)
  · refine ⟨noteId, keyId, ridx _ noteId hself1_3 hnid0, hnid0,
      ridx _ keyId hself2_3 hkid0, hkid0, lite_hasEdge_stable redge hhe, ?_⟩
    intro t ht
    exact rtags t ht


theorem lite_wf_mset_nodes (s : LiteState) (id : Nat) (nd : GNode) (hwf : LiteWF s) :
    LiteWF { s with nodes := mset id nd s.nodes } := by
  obtain ⟨h1, h2⟩ := hwf
  refine ⟨h1, ?_⟩
  intro k j hk
  obtain ⟨hj0, hjn⟩ := h2 k j hk
  refine ⟨hj0, ?_⟩
  by_cases hij : id = j
  · subst hij
    rw [mget_mset_self]
    rfl
  · rw [mget_mset_ne _ _ _ _ hij]
    exact hjn

theorem lite_importTags_noop (noteId : Nat) :
    ∀ (tags : List String) (s : LiteState), LiteWF s →
      (∀ t ∈ tags, ∃ tid,
        mget (LiteGraphStore.keyFor (tagLabel t) (some "tag")) s.labelIndex = some tid
          ∧ tid ≠ 0 ∧ LiteHasEdge s noteId tid "has_tag") →
      ((LiteGraphStore.importTags noteId s tags).labelIndex = s.labelIndex
        ∧ (LiteGraphStore.importTags noteId s tags).edges = s.edges
        ∧ (LiteGraphStore.importTags noteId s tags).nodes.length = s.nodes.length
        ∧ (LiteGraphStore.importTags noteId s tags).nextNodeId = s.nextNodeId
        ∧ LiteWF (LiteGraphStore.importTags noteId s tags)) := by
  intro tags
  induction tags with
  | nil =>
    intro s hwf _
    exact ⟨rfl, rfl, rfl, rfl, hwf⟩
  | cons t rest ih =>
    intro s hwf hc
    obtain ⟨tid, hidx, htid0, hhe⟩ := hc t (List.mem_cons_self _ _)
    obtain ⟨nd, hpres⟩ : ∃ nd, mget tid s.nodes = some nd := by
      have := (hwf.2 _ tid hidx).2
      rw [mget_isSome_iff] at this
      exact this
    rw [LiteGraphStore.importTags]
    have hup : LiteGraphStore.upsertNoId s ⟨none, tagLabel t, some "tag", none⟩
        = (tid, { s with nodes := mset tid { nd with props := nd.props } s.nodes }) :=
      lite_upsertNoId_hit s ⟨none, tagLabel t, some "tag", none⟩ hidx htid0 hpres
    simp only [hup]
    have hhe1 : LiteHasEdge { s with nodes := mset tid { nd with props := nd.props } s.nodes }
        noteId tid "has_tag" := hhe
    have hdup := lite_addEdge_dup
      { s with nodes := mset tid { nd with props := nd.props } s.nodes }
      noteId tid (some "has_tag") none hhe1
    rcases hadd : LiteGraphStore.addEdge
        { s with nodes := mset tid { nd with props := nd.props } s.nodes }
        noteId tid (some "has_tag") none with ⟨eid, s2⟩
    simp only [hadd]
    rw [hadd] at hdup
    simp only at hdup
    have hwf1 : LiteWF { s with nodes := mset tid { nd with props := nd.props } s.nodes } :=
      lite_wf_mset_nodes s tid _ hwf
    have hwf2 : LiteWF s2 := by
      rw [hdup]
      exact hwf1
    have hc2 : ∀ u ∈ rest, ∃ uid,
        mget (LiteGraphStore.keyFor (tagLabel u) (some "tag")) s2.labelIndex = some uid
          ∧ uid ≠ 0 ∧ LiteHasEdge s2 noteId uid "has_tag" := by
      intro u hu
      obtain ⟨uid, h1, h2, h3⟩ := hc u (List.mem_cons_of_mem _ hu)
      rw [hdup]
      exact ⟨uid, h1, h2, h3⟩
    obtain ⟨r1, r2, r3, r4, r5⟩ := ih s2 hwf2 hc2
    subst hdup
    refine ⟨r1, r2, ?_, r4, r5⟩
    exact r3.trans (length_mset_of_mget_isSome tid _ s.nodes (by rw [hpres]; rfl))

theorem lite_importRecord_noop (s : LiteState) (n : Note) (hwf : LiteWF s)
    (hc : LiteContainsRec s n) :
    (LiteGraphStore.importRecord s n).labelIndex = s.labelIndex
      ∧ (LiteGraphStore.importRecord s n).edges = s.edges
      ∧ (LiteGraphStore.importRecord s n).nodes.length = s.nodes.length
      ∧ (LiteGraphStore.importRecord s n).nextNodeId = s.nextNodeId
      ∧ LiteWF (LiteGraphStore.importRecord s n) := by
  obtain ⟨nid, kid, hnidx, hnid0, hkidx, hkid0, hhe, htags⟩ := hc
  obtain ⟨nnd, hnpres⟩ : ∃ nd, mget nid s.nodes = some nd := by
    have := (hwf.2 _ nid hnidx).2
    rw [mget_isSome_iff] at this
    exact this
  rw [LiteGraphStore.importRecord]
  have hup1 : LiteGraphStore.upsertNoId s ⟨none, noteLabel n, some "note", some (noteProps n)⟩
      = (nid, { s with nodes := mset nid { nnd with props := noteProps n } s.nodes }) :=
    lite_upsertNoId_hit s _ hnidx hnid0 hnpres
  simp only [hup1]
  set s1 := { s with nodes := mset nid { nnd with props := noteProps n } s.nodes } with hs1
  have hwf1 : LiteWF s1 := lite_wf_mset_nodes s nid _ hwf
  obtain ⟨knd, hkpres⟩ : ∃ kd, mget kid s1.nodes = some kd := by
    have := (hwf1.2 _ kid hkidx).2
    rw [mget_isSome_iff] at this
    exact this
  have hup2 : LiteGraphStore.upsertNoId s1 ⟨none, keyLabel n, some "key", none⟩
      = (kid, { s1 with nodes := mset kid { knd with props := knd.props } s1.nodes }) :=
    lite_upsertNoId_hit s1 _ hkidx hkid0 hkpres
  simp only [hup2]
  set s2 := { s1 with nodes := mset kid { knd with props := knd.props } s1.nodes } with hs2
  have hwf2 : LiteWF s2 := lite_wf_mset_nodes s1 kid _ hwf1
  have hhe2 : LiteHasEdge s2 nid kid "has_key" := hhe
  have hdup := lite_addEdge_dup s2 nid kid (some "has_key") none hhe2
  rcases hadd : LiteGraphStore.addEdge s2 nid kid (some "has_key") none with ⟨eid, s3⟩
  simp only [hadd]
  rw [hadd] at hdup
  simp only at hdup
  have hwf3 : LiteWF s3 := by
    rw [hdup]
    exact hwf2
  have hc3 : ∀ u ∈ n.tags, ∃ uid,
      mget (LiteGraphStore.keyFor (tagLabel u) (some "tag")) s3.labelIndex = some uid
        ∧ uid ≠ 0 ∧ LiteHasEdge s3 nid uid "has_tag" := by
    intro u hu
    obtain ⟨uid, h1, h2, h3⟩ := htags u hu
    rw [hdup]
    exact ⟨uid, h1, h2, h3⟩
  obtain ⟨r1, r2, r3, r4, r5⟩ := lite_importTags_noop nid n.tags s3 hwf3 hc3
  subst hdup
  have hlen2 : s2.nodes.length = s.nodes.length := by
    show (mset kid { knd with props := knd.props } s1.nodes).length = s.nodes.length
    rw [length_mset_of_mget_isSome kid _ s1.nodes (by rw [hkpres]; rfl)]
    show (mset nid { nnd with props := noteProps n } s.nodes).length = s.nodes.length
    exact length_mset_of_mget_isSome nid _ s.nodes (by rw [hnpres]; rfl)
  exact ⟨r1, r2, r3.trans hlen2, r4, r5⟩

theorem lite_importList_establish :
    ∀ (notes : List Note) (s : LiteState), LiteWF s →
      (LiteWF (notes.foldl LiteGraphStore.importRecord s)
        ∧ (∀ k id, mget k s.labelIndex = some id → id ≠ 0 →
            mget k (notes.foldl LiteGraphStore.importRecord s).labelIndex = some id)
        ∧ (∀ e ∈ s.edges, e ∈ (notes.foldl LiteGraphStore.importRecord s).edges)
        ∧ ∀ n ∈ notes, LiteContainsRec (notes.foldl LiteGraphStore.importRecord s) n) := by
  intro notes
  induction notes with
  | nil =>
    intro s hwf
    exact ⟨hwf, fun k id h _ => h, fun e he => he, fun n hn => absurd hn (List.not_mem_nil n)⟩
  | cons n rest ih =>
    intro s hwf
    rw [List.foldl_cons]
    obtain ⟨hwf1, hidx1, hedge1, hcont1⟩ := lite_importRecord_establish s n hwf
    obtain ⟨rwf, ridx, redge, rcont⟩ := ih (LiteGraphStore.importRecord s n) hwf1
    refine ⟨rwf, ?_, ?_, ?_⟩
    · intro k id h h0
      exact ridx k id (hidx1 k id h h0) h0
    · intro e he
      exact redge e (hedge1 e he)
    · intro m hm
      rcases List.mem_cons.mp hm with hm | hm
      · subst hm
        exact lite_contains_stable ridx redge hcont1
      · exact rcont m hm

theorem lite_importList_noop :
    ∀ (notes : List Note) (s : LiteState), LiteWF s →
      (∀ n ∈ notes, LiteContainsRec s n) →
      ((notes.foldl LiteGraphStore.importRecord s).labelIndex = s.labelIndex
        ∧ (notes.foldl LiteGraphStore.importRecord s).edges = s.edges
        ∧ (notes.foldl LiteGraphStore.importRecord s).nodes.length = s.nodes.length) := by
  intro notes
  induction notes with
  | nil =>
    intro s _ _
    exact ⟨rfl, rfl, rfl⟩
  | cons n rest ih =>
    intro s hwf hc
    rw [List.foldl_cons]
    obtain ⟨r1, r2, r3, _, r5⟩ := lite_importRecord_noop s n hwf (hc n (List.mem_cons_self _ _))
    have hc1 : ∀ m ∈ rest, LiteContainsRec (LiteGraphStore.importRecord s n) m := by
      intro m hm
      exact lite_contains_of_eq r1 r2 (hc m (List.mem_cons_of_mem _ hm))
    obtain ⟨q1, q2, q3⟩ := ih (LiteGraphStore.importRecord s n) r5 hc1
    exact ⟨q1.trans r1, q2.trans r2, q3.trans r3⟩


theorem find_append_of_some {α : Type} {p : α → Bool} :
    ∀ {l : List α} {r : α}, l.find? p = some r → ∀ (l2 : List α), (l ++ l2).find? p = some r := by
  intro l
  induction l with
  | nil =>
    intro r h _
    cases h
  | cons hd tl ih =>
    intro r h l2
    cases hp : p hd with
    | true =>
      rw [List.find?_cons_of_pos _ hp] at h
      rw [List.cons_append, List.find?_cons_of_pos _ hp]
      exact h
    | false =>
      rw [List.find?_cons_of_neg _ (by simp [hp])] at h
      rw [List.cons_append, List.find?_cons_of_neg _ (by simp [hp])]
      exact ih h l2

theorem find_append_of_none {α : Type} {p : α → Bool} :
    ∀ {l : List α}, l.find? p = none → ∀ (l2 : List α), (l ++ l2).find? p = l2.find? p := by
  intro l
  induction l with
  | nil =>
    intro _ l2
    rfl
  | cons hd tl ih =>
    intro h l2
    cases hp : p hd with
    | true =>
      rw [List.find?_cons_of_pos _ hp] at h
      cases h
    | false =>
      rw [List.find?_cons_of_neg _ (by simp [hp])] at h
      rw [List.cons_append, List.find?_cons_of_neg _ (by simp [hp])]
      exact ih h l2

theorem sqlite_lookup_elim {s : SqlState} {label t : String} {nid : Nat}
    (h : sqliteLookupId s label t = some nid) :
    ∃ r, s.nodeRows.find? (fun q => q.label == label && q.type == some t) = some r
      ∧ r.id = nid := by
  unfold sqliteLookupId at h
  cases hf : s.nodeRows.find? (fun q => q.label == label && q.type == some t) with
  | none =>
    rw [hf] at h
    cases h
  | some r =>
    rw [hf] at h
    have h' : some r.id = some nid := h
    injection h' with h'
    exact ⟨r, rfl, h'⟩

theorem sqlite_lookup_any {s : SqlState} {label t : String} {nid : Nat}
    (h : sqliteLookupId s label t = some nid) :
    s.nodeRows.any (fun r => r.id == nid) = true := by
  obtain ⟨r, hf, hid⟩ := sqlite_lookup_elim h
  rw [List.any_eq_true]
  exact ⟨r, List.mem_of_find?_eq_some hf, by simp [hid]⟩

theorem sqlite_lookup_congr {s s' : SqlState} (h : s'.nodeRows = s.nodeRows)
    (label t : String) : sqliteLookupId s' label t = sqliteLookupId s label t := by
  unfold sqliteLookupId
  rw [h]

theorem sqlite_lookup_props_update (s : SqlState) (i : Nat) (P : Props) (label t : String) :
    sqliteLookupId
        { s with nodeRows := (s.nodeRows.map
            (fun r => if r.id == i then { r with props := P } else r)) } label t
      = sqliteLookupId s label t := by
  unfold sqliteLookupId
  simp only
  rw [sqlite_find_props_update]
  cases hf : s.nodeRows.find? (fun r => r.label == label && r.type == some t) with
  | none => rfl
  | some r =>
    by_cases hi : r.id = i <;> simp [hi]

theorem any_id_map (rows : List SNodeRow) (f : SNodeRow → SNodeRow)
    (hf : ∀ r, (f r).id = r.id) (i : Nat)
    (h : rows.any (fun r => r.id == i) = true) :
    (rows.map f).any (fun r => r.id == i) = true := by
  rw [List.any_eq_true] at h ⊢
  obtain ⟨r, hr, hp⟩ := h
  refine ⟨f r, List.mem_map_of_mem f hr, ?_⟩
  rw [hf r]
  exact hp

theorem sqlite_upsertNoId_hit (s : SqlState) (node : GraphNode) {ty : String} {nid : Nat}
    (hty : node.type = some ty)
    (hidx : sqliteLookupId s node.label ty = some nid) :
    SqliteGraphStore.upsertNoId s node
      = (nid, { s with nodeRows := (s.nodeRows.map
          (fun r => if r.id == nid then { r with props := node.props.getD [] } else r)) }) := by
  obtain ⟨r, hf, hid⟩ := sqlite_lookup_elim hidx
  have hg : SqliteGraphStore.getNodeByLabel s node.label node.type
      = some ⟨r.id, r.label, r.type, r.props⟩ := by
    simp only [SqliteGraphStore.getNodeByLabel, hty, Option.getD_some, hf]
  simp only [SqliteGraphStore.upsertNoId, hg]
  subst hid
  exact rfl

theorem sqlite_upsertNoId_miss (s : SqlState) (node : GraphNode) {ty : String}
    (hty : node.type = some ty)
    (hidx : sqliteLookupId s node.label ty = none) :
    SqliteGraphStore.upsertNoId s node
      = (s.nextNodeId,
         { s with
            nodeRows := s.nodeRows ++ [⟨s.nextNodeId, node.label, node.type, node.props.getD []⟩],
            nextNodeId := s.nextNodeId + 1 }) := by
  have hf : s.nodeRows.find? (fun q => q.label == node.label && q.type == some ty) = none := by
    unfold sqliteLookupId at hidx
    cases hf : s.nodeRows.find? (fun q => q.label == node.label && q.type == some ty) with
    | none => rfl
    | some r =>
      rw [hf] at hidx
      exact absurd (show some r.id = (none : Option Nat) from hidx) (by simp)
  have hg : SqliteGraphStore.getNodeByLabel s node.label node.type = none := by
    simp only [SqliteGraphStore.getNodeByLabel, hty, Option.getD_some, hf]
  simp only [SqliteGraphStore.upsertNoId, hg]

theorem sqlite_upsertNoId_establish (s : SqlState) (node : GraphNode) {ty : String}
    (hty : node.type = some ty) :
    sqliteLookupId (SqliteGraphStore.upsertNoId s node).2 node.label ty
        = some (SqliteGraphStore.upsertNoId s node).1
      ∧ (∀ lbl u i, sqliteLookupId s lbl u = some i →
          sqliteLookupId (SqliteGraphStore.upsertNoId s node).2 lbl u = some i)
      ∧ (SqliteGraphStore.upsertNoId s node).2.edgeRows = s.edgeRows
      ∧ (∀ i, s.nodeRows.any (fun r => r.id == i) = true →
          (SqliteGraphStore.upsertNoId s node).2.nodeRows.any (fun r => r.id == i) = true) := by
  cases hidx : sqliteLookupId s node.label ty with
  | some nid =>
    rw [sqlite_upsertNoId_hit s node hty hidx]
    refine ⟨?_, ?_, rfl, ?_⟩
    · show sqliteLookupId _ node.label ty = some nid
      rw [sqlite_lookup_props_update]
      exact hidx
    · intro lbl u i h
      show sqliteLookupId _ lbl u = some i
      rw [sqlite_lookup_props_update]
      exact h
    · intro i h
      exact any_id_map s.nodeRows _
        (fun r => by by_cases hq : r.id = nid <;> simp [hq]) i h
  | none =>
    rw [sqlite_upsertNoId_miss s node hty hidx]
    have hfnone : s.nodeRows.find? (fun q => q.label == node.label && q.type == some ty)
        = none := by
      unfold sqliteLookupId at hidx
      cases hf : s.nodeRows.find? (fun q => q.label == node.label && q.type == some ty) with
      | none => rfl
      | some r =>
        rw [hf] at hidx
        exact absurd (show some r.id = (none : Option Nat) from hidx) (by simp)
    refine ⟨?_, ?_, rfl, ?_⟩
    · show sqliteLookupId _ node.label ty = some s.nextNodeId
      unfold sqliteLookupId
      rw [find_append_of_none hfnone]
      have hp : (fun q : SNodeRow => q.label == node.label && q.type == some ty)
          ⟨s.nextNodeId, node.label, node.type, node.props.getD []⟩ = true := by
        simp [hty]
      have hsing : List.find? (fun q : SNodeRow => q.label == node.label && q.type == some ty)
          [⟨s.nextNodeId, node.label, node.type, node.props.getD []⟩]
          = some ⟨s.nextNodeId, node.label, node.type, node.props.getD []⟩ :=
        List.find?_cons_of_pos _ hp
      rw [hsing]
      rfl
    · intro lbl u i h
      obtain ⟨r, hf, hid⟩ := sqlite_lookup_elim h
      show sqliteLookupId _ lbl u = some i
      unfold sqliteLookupId
      rw [find_append_of_some hf]
      show some r.id = some i
      rw [hid]
    · intro i h
      show (s.nodeRows ++ [_]).any (fun r => r.id == i) = true
      rw [List.any_append, h]
      rfl

theorem sqlite_addEdge_ok_establish (s : SqlState) (a b : Nat) (t : Option String)
    (p : Option Props) (ha : s.nodeRows.any (fun r => r.id == a) = true)
    (hb : s.nodeRows.any (fun r => r.id == b) = true) :
    ∃ eid s', SqliteGraphStore.addEdge s a b t p = .ok (eid, s')
      ∧ SqlHasEdge s' a b (t.getD "")
      ∧ s'.nodeRows = s.nodeRows
      ∧ (∀ e ∈ s.edgeRows, e ∈ s'.edgeRows) := by
  simp only [SqliteGraphStore.addEdge]
  cases hf : s.edgeRows.find? (fun e => e.src == a && e.dst == b && e.type == t.getD "") with
  | some e =>
    refine ⟨e.id, s, rfl, ?_, rfl, fun e he => he⟩
    have hmem := List.mem_of_find?_eq_some hf
    have hpred := List.find?_some hf
    simp only [Bool.and_eq_true, beq_iff_eq] at hpred
    exact ⟨e, hmem, hpred.1.1, hpred.1.2, hpred.2⟩
  | none =>
    have hcond : (s.nodeRows.any (fun r => r.id == a)
        && s.nodeRows.any (fun r => r.id == b)) = true := by
      rw [ha, hb]
      rfl
    rw [hcond]
    simp only [if_true]
    refine ⟨s.nextEdgeId,
      { s with
         edgeRows := s.edgeRows ++ [⟨s.nextEdgeId, a, b, t.getD "", p.getD []⟩],
         nextEdgeId := s.nextEdgeId + 1 }, rfl, ?_, rfl, ?_⟩
    · exact ⟨⟨s.nextEdgeId, a, b, t.getD "", p.getD []⟩,
        List.mem_append.mpr (Or.inr (List.mem_singleton.mpr rfl)), rfl, rfl, rfl⟩
    · exact fun e he => List.mem_append.mpr (Or.inl he)

theorem sqlite_addEdge_dup (s : SqlState) (a b : Nat) (t : Option String) (p : Option Props)
    (h : SqlHasEdge s a b (t.getD "")) :
    ∃ eid, SqliteGraphStore.addEdge s a b t p = .ok (eid, s) := by
  obtain ⟨e, hmem, hsrc, hdst, hty⟩ := h
  have hiss : (s.edgeRows.find?
      (fun e => e.src == a && e.dst == b && e.type == t.getD "")).isSome = true := by
    rw [List.find?_isSome]
    exact ⟨e, hmem, by simp [hsrc, hdst, hty]⟩
  simp only [SqliteGraphStore.addEdge]
  cases hf : s.edgeRows.find? (fun e => e.src == a && e.dst == b && e.type == t.getD "") with
  | some e' => exact ⟨e'.id, rfl⟩
  | none =>
    rw [hf] at hiss
    cases hiss

theorem sql_hasEdge_stable {s s' : SqlState} (h : ∀ e ∈ s.edgeRows, e ∈ s'.edgeRows)
    {a b : Nat} {ty : String} (he : SqlHasEdge s a b ty) : SqlHasEdge s' a b ty := by
  obtain ⟨e, hmem, h1, h2, h3⟩ := he
  exact ⟨e, h e hmem, h1, h2, h3⟩

theorem sql_contains_stable {s s' : SqlState}
    (hidx : ∀ lbl u i, sqliteLookupId s lbl u = some i → sqliteLookupId s' lbl u = some i)
    (hedge : ∀ e ∈ s.edgeRows, e ∈ s'.edgeRows)
    {n : Note} (hc : SqlContainsRec s n) : SqlContainsRec s' n := by
  obtain ⟨nid, kid, h1, h2, h3, h4⟩ := hc
  refine ⟨nid, kid, hidx _ _ _ h1, hidx _ _ _ h2, sql_hasEdge_stable hedge h3, ?_⟩
  intro t ht
  obtain ⟨tid, ht1, ht2⟩ := h4 t ht
  exact ⟨tid, hidx _ _ _ ht1, sql_hasEdge_stable hedge ht2⟩

theorem sql_contains_of_eq {s s' : SqlState}
    (hidx : ∀ lbl u, sqliteLookupId s' lbl u = sqliteLookupId s lbl u)
    (hedge : s'.edgeRows = s.edgeRows)
    {n : Note} (hc : SqlContainsRec s n) : SqlContainsRec s' n :=
  sql_contains_stable (fun lbl u i h => by rw [hidx]; exact h)
    (fun e he => by rw [hedge]; exact he) hc


theorem sqlite_importTags_establish (noteId : Nat) :
    ∀ (tags : List String) (s : SqlState),
      s.nodeRows.any (fun r => r.id == noteId) = true →
      ∃ s', SqliteGraphStore.importTags noteId s tags = .ok s'
        ∧ (∀ lbl u i, sqliteLookupId s lbl u = some i → sqliteLookupId s' lbl u = some i)
        ∧ (∀ e ∈ s.edgeRows, e ∈ s'.edgeRows)
        ∧ s'.nodeRows.any (fun r => r.id == noteId) = true
        ∧ ∀ t ∈ tags, ∃ tid, sqliteLookupId s' (tagLabel t) "tag" = some tid
            ∧ SqlHasEdge s' noteId tid "has_tag" := by
  intro tags
  induction tags with
  | nil =>
    intro s hpres
    exact ⟨s, rfl, fun _ _ _ h => h, fun _ he => he, hpres,
      fun t ht => absurd ht (List.not_mem_nil t)⟩
  | cons t rest ih =>
    intro s hpres
    obtain ⟨hself, hstab, hedges, hpresv⟩ :=
      sqlite_upsertNoId_establish s ⟨none, tagLabel t, some "tag", none⟩ rfl
    rcases hup : SqliteGraphStore.upsertNoId s ⟨none, tagLabel t, some "tag", none⟩
      with ⟨tid, s1⟩
    rw [hup] at hself hstab hedges hpresv
    have hta : s1.nodeRows.any (fun r => r.id == tid) = true := sqlite_lookup_any hself
    have hna : s1.nodeRows.any (fun r => r.id == noteId) = true := hpresv noteId hpres
    obtain ⟨eid, s2, hadd, hhe, hnr, hem⟩ :=
      sqlite_addEdge_ok_establish s1 noteId tid (some "has_tag") none hna hta
    have hpres2 : s2.nodeRows.any (fun r => r.id == noteId) = true := by
      rw [hnr]
      exact hna
    obtain ⟨s3, hrec, rstab, redge, rpres, rtags⟩ := ih s2 hpres2
    refine ⟨s3, ?_, ?_, ?_, rpres, ?_⟩
    · rw [SqliteGraphStore.importTags, hup]
      show (match SqliteGraphStore.addEdge s1 noteId tid (some "has_tag") none with
        | .error e => (.error e : Except GErr SqlState)
        | .ok (_, s2) => SqliteGraphStore.importTags noteId s2 rest) = .ok s3
      rw [hadd]
      exact hrec
    · intro lbl u i h
      exact rstab lbl u i (by rw [sqlite_lookup_congr hnr]; exact hstab lbl u i h)
    · intro e he
      refine redge e (hem e ?_)
      rw [hedges]
      exact he
    · intro u hu
      rcases List.mem_cons.mp hu with hu | hu
      · subst hu
        refine ⟨tid, ?_, ?_⟩
        · exact rstab _ _ _ (by rw [sqlite_lookup_congr hnr]; exact hself)
        · exact sql_hasEdge_stable redge hhe
      · exact rtags u hu

theorem sqlite_importRecord_establish (s : SqlState) (n : Note) :
    ∃ s', SqliteGraphStore.importRecord s n = .ok s'
      ∧ (∀ lbl u i, sqliteLookupId s lbl u = some i → sqliteLookupId s' lbl u = some i)
      ∧ (∀ e ∈ s.edgeRows, e ∈ s'.edgeRows)
      ∧ SqlContainsRec s' n := by
  obtain ⟨hself1, hstab1, hedges1, hpresv1⟩ :=
    sqlite_upsertNoId_establish s ⟨none, noteLabel n, some "note", some (noteProps n)⟩ rfl
  rcases hup1 : SqliteGraphStore.upsertNoId s ⟨none, noteLabel n, some "note", some (noteProps n)⟩
    with ⟨nid, s1⟩
  rw [hup1] at hself1 hstab1 hedges1 hpresv1
  obtain ⟨hself2, hstab2, hedges2, hpresv2⟩ :=
    sqlite_upsertNoId_establish s1 ⟨none, keyLabel n, some "key", none⟩ rfl
  rcases hup2 : SqliteGraphStore.upsertNoId s1 ⟨none, keyLabel n, some "key", none⟩
    with ⟨kid, s2⟩
  rw [hup2] at hself2 hstab2 hedges2 hpresv2
  have hnl2 : sqliteLookupId s2 (noteLabel n) "note" = some nid := hstab2 _ _ _ hself1
  have hna : s2.nodeRows.any (fun r => r.id == nid) = true := sqlite_lookup_any hnl2
  have hka : s2.nodeRows.any (fun r => r.id == kid) = true := sqlite_lookup_any hself2
  obtain ⟨eid, s3, hadd, hhe, hnr, hem⟩ :=
    sqlite_addEdge_ok_establish s2 nid kid (some "has_key") none hna hka
  have hpres3 : s3.nodeRows.any (fun r => r.id == nid) = true := by
    rw [hnr]
    exact hna
  obtain ⟨s4, htags, tstab, tedge, tpres, ttags⟩ :=
    sqlite_importTags_establish nid n.tags s3 hpres3
  refine ⟨s4, ?_, ?_, ?_, ?_⟩
  · rw [SqliteGraphStore.importRecord, hup1]
    show (match SqliteGraphStore.upsertNoId s1 ⟨none, keyLabel n, some "key", none⟩ with
      | (keyId, s2) =>
        match SqliteGraphStore.addEdge s2 nid keyId (some "has_key") none with
        | .error e => (.error e : Except GErr SqlState)
        | .ok (_, s3) => SqliteGraphStore.importTags nid s3 n.tags) = .ok s4
    rw [hup2]
    show (match SqliteGraphStore.addEdge s2 nid kid (some "has_key") none with
      | .error e => (.error e : Except GErr SqlState)
      | .ok (_, s3) => SqliteGraphStore.importTags nid s3 n.tags) = .ok s4
    rw [hadd]
    exact htags
  · intro lbl u i h
    exact tstab lbl u i
      (by rw [sqlite_lookup_congr hnr]; exact hstab2 lbl u i (hstab1 lbl u i h))
  · intro e he
    refine tedge e (hem e ?_)
    rw [hedges2, hedges1]
    exact he
  · refine ⟨nid, kid, ?_, ?_, ?_, ttags⟩
    · exact tstab _ _ _ (by rw [sqlite_lookup_congr hnr]; exact hnl2)
    · exact tstab _ _ _ (by rw [sqlite_lookup_congr hnr]; exact hself2)
    · exact sql_hasEdge_stable tedge hhe

theorem sqlite_importList_establish :
    ∀ (notes : List Note) (s : SqlState),
      ∃ s', SqliteGraphStore.importList s notes = .ok s'
        ∧ (∀ lbl u i, sqliteLookupId s lbl u = some i → sqliteLookupId s' lbl u = some i)
        ∧ (∀ e ∈ s.edgeRows, e ∈ s'.edgeRows)
        ∧ ∀ n ∈ notes, SqlContainsRec s' n := by
  intro notes
  induction notes with
  | nil =>
    intro s
    exact ⟨s, rfl, fun _ _ _ h => h, fun _ he => he, fun n hn => absurd hn (List.not_mem_nil n)⟩
  | cons n rest ih =>
    intro s
    obtain ⟨s1, hrec, rstab, redge, rcont⟩ := sqlite_importRecord_establish s n
    obtain ⟨s', hlist, lstab, ledge, lcont⟩ := ih s1
    refine ⟨s', ?_, ?_, ?_, ?_⟩
    · rw [SqliteGraphStore.importList, hrec]
      exact hlist
    · exact fun lbl u i h => lstab lbl u i (rstab lbl u i h)
    · exact fun e he => ledge e (redge e he)
    · intro m hm
      rcases List.mem_cons.mp hm with hm | hm
      · subst hm
        exact sql_contains_stable lstab ledge rcont
      · exact lcont m hm

theorem sqlite_importTags_noop (noteId : Nat) :
    ∀ (tags : List String) (s : SqlState),
      (∀ t ∈ tags, ∃ tid, sqliteLookupId s (tagLabel t) "tag" = some tid
          ∧ SqlHasEdge s noteId tid "has_tag") →
      ∃ s', SqliteGraphStore.importTags noteId s tags = .ok s'
        ∧ (∀ lbl u, sqliteLookupId s' lbl u = sqliteLookupId s lbl u)
        ∧ s'.edgeRows = s.edgeRows
        ∧ s'.nodeRows.length = s.nodeRows.length := by
  intro tags
  induction tags with
  | nil =>
    intro s _
    exact ⟨s, rfl, fun _ _ => rfl, rfl, rfl⟩
  | cons t rest ih =>
    intro s hc
    obtain ⟨tid, hidx, hhe⟩ := hc t (List.mem_cons_self _ _)
    have hup : SqliteGraphStore.upsertNoId s ⟨none, tagLabel t, some "tag", none⟩
        = (tid, { s with nodeRows := (s.nodeRows.map
            (fun r => if r.id == tid then { r with props := [] } else r)) }) :=
      sqlite_upsertNoId_hit s ⟨none, tagLabel t, some "tag", none⟩ rfl hidx
    set s1 : SqlState := { s with nodeRows := (s.nodeRows.map
        (fun r => if r.id == tid then { r with props := [] } else r)) } with hs1
    have hlk1 : ∀ lbl u, sqliteLookupId s1 lbl u = sqliteLookupId s lbl u := by
      intro lbl u
      rw [hs1]
      exact sqlite_lookup_props_update s tid [] lbl u
    have hhe1 : SqlHasEdge s1 noteId tid "has_tag" := hhe
    obtain ⟨eid, hadd⟩ := sqlite_addEdge_dup s1 noteId tid (some "has_tag") none hhe1
    have hc1 : ∀ u ∈ rest, ∃ uid, sqliteLookupId s1 (tagLabel u) "tag" = some uid
        ∧ SqlHasEdge s1 noteId uid "has_tag" := by
      intro u hu
      obtain ⟨uid, h1, h2⟩ := hc u (List.mem_cons_of_mem _ hu)
      exact ⟨uid, by rw [hlk1]; exact h1, h2⟩
    obtain ⟨s', hrec, rlk, redge, rlen⟩ := ih s1 hc1
    refine ⟨s', ?_, ?_, ?_, ?_⟩
    · rw [SqliteGraphStore.importTags, hup]
      show (match SqliteGraphStore.addEdge s1 noteId tid (some "has_tag") none with
        | .error e => (.error e : Except GErr SqlState)
        | .ok (_, s2) => SqliteGraphStore.importTags noteId s2 rest) = .ok s'
      rw [hadd]
      exact hrec
    · intro lbl u
      rw [rlk, hlk1]
    · exact redge
    · have l1 : s1.nodeRows.length = s.nodeRows.length := by
        rw [hs1]
        exact List.length_map _ _
      rw [rlen, l1]

theorem sqlite_importRecord_noop (s : SqlState) (n : Note) (hc : SqlContainsRec s n) :
    ∃ s', SqliteGraphStore.importRecord s n = .ok s'
      ∧ (∀ lbl u, sqliteLookupId s' lbl u = sqliteLookupId s lbl u)
      ∧ s'.edgeRows = s.edgeRows
      ∧ s'.nodeRows.length = s.nodeRows.length := by
  obtain ⟨nid, kid, hnidx, hkidx, hhe, htags⟩ := hc
  have hup1 : SqliteGraphStore.upsertNoId s ⟨none, noteLabel n, some "note", some (noteProps n)⟩
      = (nid, { s with nodeRows := (s.nodeRows.map
          (fun r => if r.id == nid then { r with props := noteProps n } else r)) }) :=
    sqlite_upsertNoId_hit s ⟨none, noteLabel n, some "note", some (noteProps n)⟩ rfl hnidx
  set s1 : SqlState := { s with nodeRows := (s.nodeRows.map
      (fun r => if r.id == nid then { r with props := noteProps n } else r)) } with hs1
  have hlk1 : ∀ lbl u, sqliteLookupId s1 lbl u = sqliteLookupId s lbl u := by
    intro lbl u
    rw [hs1]
    exact sqlite_lookup_props_update s nid (noteProps n) lbl u
  have hkidx1 : sqliteLookupId s1 (keyLabel n) "key" = some kid := by
    rw [hlk1]
    exact hkidx
  have hup2 : SqliteGraphStore.upsertNoId s1 ⟨none, keyLabel n, some "key", none⟩
      = (kid, { s1 with nodeRows := (s1.nodeRows.map
          (fun r => if r.id == kid then { r with props := [] } else r)) }) :=
    sqlite_upsertNoId_hit s1 ⟨none, keyLabel n, some "key", none⟩ rfl hkidx1
  set s2 : SqlState := { s1 with nodeRows := (s1.nodeRows.map
      (fun r => if r.id == kid then { r with props := [] } else r)) } with hs2
  have hlk2 : ∀ lbl u, sqliteLookupId s2 lbl u = sqliteLookupId s lbl u := by
    intro lbl u
    rw [hs2]
    exact (sqlite_lookup_props_update s1 kid [] lbl u).trans (hlk1 lbl u)
  have hhe2 : SqlHasEdge s2 nid kid "has_key" := hhe
  obtain ⟨eid, hadd⟩ := sqlite_addEdge_dup s2 nid kid (some "has_key") none hhe2
  have hc2 : ∀ t ∈ n.tags, ∃ tid, sqliteLookupId s2 (tagLabel t) "tag" = some tid
      ∧ SqlHasEdge s2 nid tid "has_tag" := by
    intro t ht
    obtain ⟨tid, h1, h2⟩ := htags t ht
    exact ⟨tid, by rw [hlk2]; exact h1, h2⟩
  obtain ⟨s', hrec, rlk, redge, rlen⟩ := sqlite_importTags_noop nid n.tags s2 hc2
  refine ⟨s', ?_, ?_, ?_, ?_⟩
  · rw [SqliteGraphStore.importRecord, hup1]
    show (match SqliteGraphStore.upsertNoId s1 ⟨none, keyLabel n, some "key", none⟩ with
      | (keyId, s2) =>
        match SqliteGraphStore.addEdge s2 nid keyId (some "has_key") none with
        | .error e => (.error e : Except GErr SqlState)
        | .ok (_, s3) => SqliteGraphStore.importTags nid s3 n.tags) = .ok s'
    rw [hup2]
    show (match SqliteGraphStore.addEdge s2 nid kid (some "has_key") none with
      | .error e => (.error e : Except GErr SqlState)
      | .ok (_, s3) => SqliteGraphStore.importTags nid s3 n.tags) = .ok s'
    rw [hadd]
    exact hrec
  · intro lbl u
    rw [rlk, hlk2]
  · exact redge
  · have l2 : s2.nodeRows.length = s1.nodeRows.length := by
      rw [hs2]
      exact List.length_map _ _
    have l1 : s1.nodeRows.length = s.nodeRows.length := by
      rw [hs1]
      exact List.length_map _ _
    rw [rlen, l2, l1]

theorem sqlite_importList_noop :
    ∀ (notes : List Note) (s : SqlState),
      (∀ n ∈ notes, SqlContainsRec s n) →
      ∃ s', SqliteGraphStore.importList s notes = .ok s'
        ∧ (∀ lbl u, sqliteLookupId s' lbl u = sqliteLookupId s lbl u)
        ∧ s'.edgeRows = s.edgeRows
        ∧ s'.nodeRows.length = s.nodeRows.length := by
  intro notes
  induction notes with
  | nil =>
    intro s _
    exact ⟨s, rfl, fun _ _ => rfl, rfl, rfl⟩
  | cons n rest ih =>
    intro s hc
    obtain ⟨s1, hrec, rlk, redge, rlen⟩ :=
      sqlite_importRecord_noop s n (hc n (List.mem_cons_self _ _))
    have hc1 : ∀ m ∈ rest, SqlContainsRec s1 m := by
      intro m hm
      exact sql_contains_of_eq rlk redge (hc m (List.mem_cons_of_mem _ hm))
    obtain ⟨s', hlist, llk, ledge, llen⟩ := ih s1 hc1
    refine ⟨s', ?_, ?_, ?_, ?_⟩
    · rw [SqliteGraphStore.importList, hrec]
      exact hlist
    · intro lbl u
      rw [llk, rlk]
    · rw [ledge, redge]
    · rw [llen, rlen]


/-- Claim C9: `importFromNotes` returns the cumulative post-import totals —
`stats()` evaluated after the call, not a delta of newly created rows — and a
second call with the identical records returns the same `{nodes, edges}` pair
and leaves `stats()` unchanged relative to after the first call, on both
backends (the in-memory side under its reachable-state index invariant). -/
theorem c9_import_idempotent (s : SqlState) (ls : LiteState) (notes : List Note)
    (hwf : LiteWF ls) :
    (∃ r1 s1, SqliteGraphStore.importFromNotes s notes = .ok (r1, s1)
      ∧ r1 = SqliteGraphStore.stats s1
      ∧ ∃ s2, SqliteGraphStore.importFromNotes s1 notes = .ok (r1, s2)
          ∧ SqliteGraphStore.stats s2 = SqliteGraphStore.stats s1)
    ∧ (LiteGraphStore.importFromNotes ls notes).1
        = LiteGraphStore.stats (LiteGraphStore.importFromNotes ls notes).2
    ∧ (LiteGraphStore.importFromNotes (LiteGraphStore.importFromNotes ls notes).2 notes).1
        = (LiteGraphStore.importFromNotes ls notes).1
    ∧ LiteGraphStore.stats
        (LiteGraphStore.importFromNotes (LiteGraphStore.importFromNotes ls notes).2 notes).2
      = LiteGraphStore.stats (LiteGraphStore.importFromNotes ls notes).2 := by
  obtain ⟨s1, hlist, _, _, hcont⟩ := sqlite_importList_establish notes s
  obtain ⟨s2, hlist2, _, hed, hlen⟩ := sqlite_importList_noop notes s1 hcont
  have hstats : SqliteGraphStore.stats s2 = SqliteGraphStore.stats s1 := by
    unfold SqliteGraphStore.stats
    rw [hlen, hed]
  have hlite : LiteGraphStore.stats
      (notes.foldl LiteGraphStore.importRecord (notes.foldl LiteGraphStore.importRecord ls))
      = LiteGraphStore.stats (notes.foldl LiteGraphStore.importRecord ls) := by
    obtain ⟨ewf, _, _, econt⟩ := lite_importList_establish notes ls hwf
    obtain ⟨n1, n2, n3⟩ :=
      lite_importList_noop notes (notes.foldl LiteGraphStore.importRecord ls) ewf econt
    unfold LiteGraphStore.stats
    rw [n3, n2]
  refine ⟨⟨SqliteGraphStore.stats s1, s1, ?_, rfl, s2, ?_, hstats⟩, rfl, ?_, ?_⟩
  · simp only [SqliteGraphStore.importFromNotes, hlist]
  · simp only [SqliteGraphStore.importFromNotes, hlist2]
    rw [hstats]
  · exact hlite
  · exact hlite

theorem c9_import_idempotent_witness :
    LiteWF LiteGraphStore.init
      ∧ ((∃ r1 s1,
            SqliteGraphStore.importFromNotes SqliteGraphStore.init
                [⟨none, "k", none, ["t"], "m"⟩] = .ok (r1, s1)
              ∧ r1 = SqliteGraphStore.stats s1
              ∧ ∃ s2, SqliteGraphStore.importFromNotes s1 [⟨none, "k", none, ["t"], "m"⟩]
                    = .ok (r1, s2)
                  ∧ SqliteGraphStore.stats s2 = SqliteGraphStore.stats s1)
        ∧ (LiteGraphStore.importFromNotes LiteGraphStore.init
              [⟨none, "k", none, ["t"], "m"⟩]).1
            = LiteGraphStore.stats
                (LiteGraphStore.importFromNotes LiteGraphStore.init
                  [⟨none, "k", none, ["t"], "m"⟩]).2
        ∧ (LiteGraphStore.importFromNotes
              (LiteGraphStore.importFromNotes LiteGraphStore.init
                [⟨none, "k", none, ["t"], "m"⟩]).2
              [⟨none, "k", none, ["t"], "m"⟩]).1
            = (LiteGraphStore.importFromNotes LiteGraphStore.init
                [⟨none, "k", none, ["t"], "m"⟩]).1
        ∧ LiteGraphStore.stats
              (LiteGraphStore.importFromNotes
                (LiteGraphStore.importFromNotes LiteGraphStore.init
                  [⟨none, "k", none, ["t"], "m"⟩]).2
                [⟨none, "k", none, ["t"], "m"⟩]).2
            = LiteGraphStore.stats
                (LiteGraphStore.importFromNotes LiteGraphStore.init
                  [⟨none, "k", none, ["t"], "m"⟩]).2) := by
  have hwf : LiteWF LiteGraphStore.init :=
    ⟨by decide, fun k id h => Option.noConfusion (show (none : Option Nat) = some id from h)⟩
  exact ⟨hwf, c9_import_idempotent SqliteGraphStore.init LiteGraphStore.init
    [⟨none, "k", none, ["t"], "m"⟩] hwf⟩

end McpGraph
